import Mathlib

/-!
# Memory-debugging layer of `crypto/mem_dbg.c`

A shallow embedding of the allocation tracker: the mode controller
(`CRYPTO_mem_ctrl`, `CRYPTO_mem_check_on`), the annotation stack
(`CRYPTO_add_info`, `CRYPTO_remove_info`, `CRYPTO_remove_all_info`), the event
hooks (`CRYPTO_dbg_malloc`, `CRYPTO_dbg_free`, `CRYPTO_dbg_realloc`) and the leak
reporter (`print_leak`, `CRYPTO_mem_leaks`).

Conventions of the embedding.

* The C globals (`mh_mode`, `disabling_thread`, `order`, `options`, `amih`, `mh`)
  are the fields of one `State` value that every operation takes and returns.
  The two locks are not modelled: every operation runs atomically.
* Pointers to `APP_INFO` records are indices into `State.heap`; `NULL` is `none`.
  A record passed to `Free` keeps its slot and gets `freed = true`, so that a
  dangling pointer can be recognised. Slots are never reused.
* `MEM` records are only ever reachable from the table `mh`; the table holds
  them by value.
* What the environment decides (the calling thread, the clock, whether a
  bookkeeping allocation succeeds) is the `Env` argument of a call.
* `Malloc` and `Free` of bookkeeping records call the hooks again; those nested calls
  happen while tracking is suspended, find `CRYPTO_mem_check_on` false and do nothing,
  so they are left out.
* The value 0 of `disabling_thread` stands for "no thread": a thread identity 0 is
  never active. Statements about calling threads take identities other than 0.
* The C `int` fields `num`, `line` and `references` are integers; the counters
  `chunks` (`int`) and `bytes` (`long`) of the report have no result where an addition
  would leave their range; the `unsigned long` counter `order` wraps.
* C strings are Lean strings, one character per byte. A line of the report is the text
  that `print_leak` builds in its `char buf[1024]`; there is no text where the buffer
  would be overrun.
* The C library function `localtime` is a parameter of the reporter.
-/

namespace MemDbg

/-! ## Constants of `openssl/crypto.h` -/

/-- Modelled from the spec: the constant `CRYPTO_MEM_CHECK_OFF` of `openssl/crypto.h` (a
header that is not part of this file), the request OFF and the mode with neither
`enabled` nor `active` set. -/
def CRYPTO_MEM_CHECK_OFF : Nat := 0x0
/-- Modelled from the spec: the constant `CRYPTO_MEM_CHECK_ON` of `openssl/crypto.h`,
the request ON and the bit of `enabled` in the mode. -/
def CRYPTO_MEM_CHECK_ON : Nat := 0x1
/-- Modelled from the spec: the constant `CRYPTO_MEM_CHECK_ENABLE` of
`openssl/crypto.h`, the request RESUME and the bit of `active` in the mode. -/
def CRYPTO_MEM_CHECK_ENABLE : Nat := 0x2
/-- Modelled from the spec: the constant `CRYPTO_MEM_CHECK_DISABLE` of
`openssl/crypto.h`, the request SUSPEND. -/
def CRYPTO_MEM_CHECK_DISABLE : Nat := 0x3
/-- Modelled from the spec: the constant `V_CRYPTO_MDEBUG_TIME` of `openssl/crypto.h`,
the option bit "record the time". -/
def V_CRYPTO_MDEBUG_TIME : Nat := 0x1
/-- Modelled from the spec: the constant `V_CRYPTO_MDEBUG_THREAD` of
`openssl/crypto.h`, the option bit "record the thread". -/
def V_CRYPTO_MDEBUG_THREAD : Nat := 0x2
/-- Bit pattern of `~CRYPTO_MEM_CHECK_ENABLE` in a 32-bit `int`. -/
def NOT_CRYPTO_MEM_CHECK_ENABLE : Nat := 0xFFFFFFFD
/-- Width of `unsigned long` (LP64); the counter `order` wraps at `2 ^ ULONG_BITS`. -/
def ULONG_BITS : Nat := 64

/-! ## Data model -/

/-- The C struct `app_mem_info_st`. `next` is a pointer into the heap of
annotation records; `freed` records that the slot was passed to `Free`. -/
structure APP_INFO where
  thread : Nat
  file : String
  line : Int
  info : String
  next : Option Nat
  references : Int
  freed : Bool
deriving DecidableEq, Repr, Inhabited

/-- The C struct `mem_st`. `app_info` is a pointer into the heap of annotation records. -/
structure MEM where
  addr : Nat
  num : Int
  file : String
  line : Int
  thread : Nat
  order : Nat
  time : Nat
  app_info : Option Nat
deriving DecidableEq, Repr, Inhabited

/-- The file-level variables of `mem_dbg.c`, the storage of the `APP_INFO` records,
and the list of caller addresses that the hooks themselves passed to `Free`. -/
structure State where
  mh_mode : Nat
  disabling_thread : Nat
  order : Nat
  options : Nat
  amih : Option (List Nat)
  mh : Option (List MEM)
  heap : List APP_INFO
  released : List Nat
deriving DecidableEq, Repr

/-- What the surroundings decide for one call: `CRYPTO_thread_id()`, `time(NULL)`,
whether `Malloc` of the bookkeeping record returns non-NULL, whether `lh_new` does. -/
structure Env where
  tid : Nat
  now : Nat
  malloc_ok : Bool
  lh_new_ok : Bool
deriving DecidableEq, Repr

/-- The static initialisers of the file: `mh_mode = CRYPTO_MEM_CHECK_OFF`,
`disabling_thread = 0`, `order = 0`, `amih = NULL`, `mh = NULL`,
`options = V_CRYPTO_MDEBUG_TIME | V_CRYPTO_MDEBUG_THREAD`. -/
def init : State :=
  { mh_mode := CRYPTO_MEM_CHECK_OFF
    disabling_thread := 0
    order := 0
    options := V_CRYPTO_MDEBUG_TIME ||| V_CRYPTO_MDEBUG_THREAD
    amih := none
    mh := none
    heap := []
    released := [] }

/-! ## Mode controller -/

/-- The function `CRYPTO_mem_ctrl(mode)` called by thread `tid`: the returned pair is
the return value `ret` and the new state. The case labels are the values of the
constants: 1 is `CRYPTO_MEM_CHECK_ON`, 0 is `CRYPTO_MEM_CHECK_OFF`, 3 is
`CRYPTO_MEM_CHECK_DISABLE`, 2 is `CRYPTO_MEM_CHECK_ENABLE`. -/
def CRYPTO_mem_ctrl (tid : Nat) (mode : Int) (s : State) : Nat × State :=
  let ret := s.mh_mode
  if mode = 1 then
    -- case CRYPTO_MEM_CHECK_ON
    (ret, { s with mh_mode := CRYPTO_MEM_CHECK_ON ||| CRYPTO_MEM_CHECK_ENABLE
                   disabling_thread := 0 })
  else if mode = 0 then
    -- case CRYPTO_MEM_CHECK_OFF
    (ret, { s with mh_mode := 0, disabling_thread := 0 })
  else if mode = 3 then
    -- case CRYPTO_MEM_CHECK_DISABLE
    if s.mh_mode &&& CRYPTO_MEM_CHECK_ON ≠ 0 then
      let s1 := { s with mh_mode := s.mh_mode &&& NOT_CRYPTO_MEM_CHECK_ENABLE }
      if s1.disabling_thread ≠ tid then
        (ret, { s1 with disabling_thread := tid })
      else (ret, s1)
    else (ret, s)
  else if mode = 2 then
    -- case CRYPTO_MEM_CHECK_ENABLE
    if s.mh_mode &&& CRYPTO_MEM_CHECK_ON ≠ 0 then
      let s1 := { s with mh_mode := s.mh_mode ||| CRYPTO_MEM_CHECK_ENABLE }
      if s1.disabling_thread ≠ 0 then
        (ret, { s1 with disabling_thread := 0 })
      else (ret, s1)
    else (ret, s)
  else
    -- default
    (ret, s)

/-- The function `CRYPTO_mem_check_on()` called by thread `tid` (the macro
`is_MemCheck_on()` is a call of it); the C `int` result is read as a truth value. -/
def CRYPTO_mem_check_on (tid : Nat) (s : State) : Bool :=
  if s.mh_mode &&& CRYPTO_MEM_CHECK_ON ≠ 0 then
    (s.mh_mode &&& CRYPTO_MEM_CHECK_ENABLE ≠ 0) && (s.disabling_thread ≠ tid)
  else false

/-- Modelled from the spec: the macro `MemCheck_off()` of `openssl/crypto.h`, the
request SUSPEND: `CRYPTO_mem_ctrl(CRYPTO_MEM_CHECK_DISABLE)`, result dropped. -/
def MemCheck_off (tid : Nat) (s : State) : State :=
  (CRYPTO_mem_ctrl tid 3 s).2

/-- Modelled from the spec: the macro `MemCheck_on()` of `openssl/crypto.h`, the
request RESUME: `CRYPTO_mem_ctrl(CRYPTO_MEM_CHECK_ENABLE)`, result dropped. -/
def MemCheck_on (tid : Nat) (s : State) : State :=
  (CRYPTO_mem_ctrl tid 2 s).2

/-- The function `CRYPTO_dbg_set_options(bits)`. -/
def CRYPTO_dbg_set_options (bits : Nat) (s : State) : State :=
  { s with options := bits }

/-- The function `CRYPTO_dbg_get_options()`. -/
def CRYPTO_dbg_get_options (s : State) : Nat :=
  s.options

/-- The `enabled` field of the mode state: bit `CRYPTO_MEM_CHECK_ON` of `mh_mode`. -/
def enabled (s : State) : Bool :=
  s.mh_mode &&& CRYPTO_MEM_CHECK_ON ≠ 0

/-- The `active` field of the mode state: bit `CRYPTO_MEM_CHECK_ENABLE` of `mh_mode`. -/
def active (s : State) : Bool :=
  s.mh_mode &&& CRYPTO_MEM_CHECK_ENABLE ≠ 0

/-! ## Keyed tables -/

/-- Modelled from the spec: `lh_retrieve` of `crypto/lhash` (not part of this file), the
lookup of a keyed table. The table is the list of its entries; `same x` says that the
comparison callback returns 0 for the stored entry `x` and the key. -/
def lh_retrieve {α : Type} (same : α → Bool) (lh : List α) : Option α :=
  lh.find? same

/-- Modelled from the spec: `lh_delete` of `crypto/lhash`, which unlinks the entry that
matches the key and returns it (`none` when there is none). -/
def lh_delete {α : Type} (same : α → Bool) : List α → Option α × List α
  | [] => (none, [])
  | x :: xs =>
    if same x then (some x, xs)
    else ((lh_delete same xs).1, x :: (lh_delete same xs).2)

/-- Modelled from the spec: `lh_insert` of `crypto/lhash`, which stores `x`; an entry
with the same key is replaced and returned, otherwise the result is `none`. Allocation
failure inside the table is not modelled. -/
def lh_insert {α : Type} (same : α → Bool) (x : α) : List α → Option α × List α
  | [] => (none, [x])
  | y :: ys =>
    if same y then (some y, x :: ys)
    else ((lh_insert same x ys).1, y :: (lh_insert same x ys).2)

/-- The table after `if (t == NULL) t = lh_new(...)`, where `ok` says whether `lh_new`
returns a table: the existing table, a new empty one, or `none` (still `NULL`). -/
def lh_new_if_null {α : Type} (ok : Bool) (t : Option (List α)) : Option (List α) :=
  match t with
  | some tbl => some tbl
  | none => if ok then some [] else none

/-- The comparison callback `mem_cmp`: the difference of the two addresses (the
conversion of the difference to `int` is not modelled). -/
def mem_cmp (a b : MEM) : Int :=
  (a.addr : Int) - (b.addr : Int)

/-- The hash callback `mem_hash`, in `unsigned long` arithmetic. -/
def mem_hash (a : MEM) : Nat :=
  (a.addr * 17851 + (a.addr >>> 14) * 7 + (a.addr >>> 4) * 251) % 2 ^ ULONG_BITS

/-- The comparison callback `app_info_cmp`: the difference of the two thread
identities (the conversion of the difference to `int` is not modelled). -/
def app_info_cmp (a b : APP_INFO) : Int :=
  (a.thread : Int) - (b.thread : Int)

/-- The hash callback `app_info_hash`, in `unsigned long` arithmetic. -/
def app_info_hash (a : APP_INFO) : Nat :=
  (a.thread * 17851 + (a.thread >>> 14) * 7 + (a.thread >>> 4) * 251) % 2 ^ ULONG_BITS

/-- The record a pointer refers to (`*p`). -/
def deref (heap : List APP_INFO) (p : Nat) : APP_INFO :=
  heap.getD p default

/-- Assignment through a pointer: `*p = f (*p)`. -/
def heap_upd (heap : List APP_INFO) (p : Nat) (f : APP_INFO → APP_INFO) : List APP_INFO :=
  heap.set p (f (deref heap p))

/-- The statement `p->references++`. -/
def incr_ref (heap : List APP_INFO) (p : Nat) : List APP_INFO :=
  heap_upd heap p (fun c => { c with references := c.references + 1 })

/-- The statement `p->references--`. -/
def decr_ref (heap : List APP_INFO) (p : Nat) : List APP_INFO :=
  heap_upd heap p (fun c => { c with references := c.references - 1 })

/-- The statement `if (p != NULL) p->references++`. -/
def incr_ref_opt (heap : List APP_INFO) (p : Option Nat) : List APP_INFO :=
  match p with
  | some q => incr_ref heap q
  | none => heap

/-- The statement `if (p != NULL) p->references--`. -/
def decr_ref_opt (heap : List APP_INFO) (p : Option Nat) : List APP_INFO :=
  match p with
  | some q => decr_ref heap q
  | none => heap

/-- A stack-allocated `MEM` of which only `addr` is set, used as a lookup key. -/
def mem_key (addr : Nat) : MEM :=
  { (default : MEM) with addr := addr }

/-- A stack-allocated `APP_INFO` of which only `thread` is set, used as a lookup key. -/
def app_info_key (thread : Nat) : APP_INFO :=
  { (default : APP_INFO) with thread := thread }

/-- Key match in `mh`: `mem_cmp` of the stored record and the key is 0. -/
def same_addr (key : MEM) (x : MEM) : Bool :=
  mem_cmp x key == 0

/-- Key match in `amih`: `app_info_cmp` of the stored record and the key is 0. -/
def same_thread (heap : List APP_INFO) (key : APP_INFO) (p : Nat) : Bool :=
  app_info_cmp (deref heap p) key == 0

/-! ## Annotation stack -/

/-- The statement `if (next != NULL) lh_insert(amih, next)` on the annotation table. -/
def insert_next (heap : List APP_INFO) (next : Option Nat) (tbl : List Nat) : List Nat :=
  match next with
  | some nx => (lh_insert (same_thread heap (deref heap nx)) nx tbl).2
  | none => tbl

/-- The static function `remove_info()` called by the thread of `e`: the result is the
returned pointer and the new state. -/
def remove_info (e : Env) (s : State) : Option Nat × State :=
  match s.amih with
  | none => (none, s)
  | some tbl =>
    match lh_delete (same_thread s.heap (app_info_key e.tid)) tbl with
    | (none, _) => (none, s)
    | (some ret, tbl1) =>
      let next := (deref s.heap ret).next
      -- if (next != NULL) { next->references++; lh_insert(amih, next); }
      let heap1 := incr_ref_opt s.heap next
      let tbl2 := insert_next heap1 next tbl1
      -- if (--(ret->references) <= 0)
      let heap2 := decr_ref heap1 ret
      if (deref heap2 ret).references ≤ 0 then
        let heap3 := heap_upd heap2 ret (fun c => { c with next := none })
        -- if (next != NULL) next->references--;
        let heap4 := decr_ref_opt heap3 next
        -- Free(ret)
        let heap5 := heap_upd heap4 ret (fun c => { c with freed := true })
        (some ret, { s with amih := some tbl2, heap := heap5 })
      else
        (some ret, { s with amih := some tbl2, heap := heap2 })

/-- Lines 292-310 of `CRYPTO_add_info`: the new record `ami` is filled in, inserted
into the table `tbl` (the value of `amih`) and linked to the record it replaces there. -/
def add_info_record (e : Env) (file : String) (line : Int) (info : String)
    (tbl : List Nat) (s : State) : State :=
  let ami := s.heap.length
  let heap1 := s.heap ++
    [{ thread := e.tid, file := file, line := line, info := info,
       references := 1, next := none, freed := false }]
  -- if ((amim=lh_insert(amih,ami)) != NULL) ami->next=amim;
  let r := lh_insert (same_thread heap1 (deref heap1 ami)) ami tbl
  let heap2 := match r.1 with
    | some amim => heap_upd heap1 ami (fun c => { c with next := some amim })
    | none => heap1
  { s with amih := some r.2, heap := heap2 }

/-- The function `CRYPTO_add_info(file, line, info)`: return value and new state.
`e.malloc_ok` is the outcome of `Malloc(sizeof(APP_INFO))`, `e.lh_new_ok` that of
`lh_new`. -/
def CRYPTO_add_info (e : Env) (file : String) (line : Int) (info : String)
    (s : State) : Int × State :=
  if CRYPTO_mem_check_on e.tid s then
    let s1 := MemCheck_off e.tid s
    if e.malloc_ok = false then
      -- Malloc returned NULL: ret=0; goto err
      (0, MemCheck_on e.tid s1)
    else
      match lh_new_if_null e.lh_new_ok s1.amih with
      | none =>
        -- lh_new returned NULL: Free(ami); ret=0; goto err
        (0, MemCheck_on e.tid
          { s1 with heap := s1.heap ++ [{ (default : APP_INFO) with freed := true }] })
      | some tbl => (0, MemCheck_on e.tid (add_info_record e file line info tbl s1))
  else (0, s)

/-- The function `CRYPTO_remove_info()`: return value and new state. -/
def CRYPTO_remove_info (e : Env) (s : State) : Int × State :=
  if CRYPTO_mem_check_on e.tid s then
    let s1 := MemCheck_off e.tid s
    let r := remove_info e s1
    (if r.1.isSome then 1 else 0, MemCheck_on e.tid r.2)
  else (0, s)

/-- The loop `while(remove_info() != NULL) ret++;` with a bound on the number of
calls of `remove_info`; `none` when the bound is reached before the loop ends. -/
def remove_all_loop (e : Env) : Nat → Int → State → Option (Int × State)
  | 0, _, _ => none
  | fuel + 1, ret, s =>
    match remove_info e s with
    | (none, s1) => some (ret, s1)
    | (some _, s1) => remove_all_loop e fuel (ret + 1) s1

/-- The function `CRYPTO_remove_all_info()`: return value and new state, `none` when
the loop does not end within `fuel` calls of `remove_info`. -/
def CRYPTO_remove_all_info (fuel : Nat) (e : Env) (s : State) : Option (Int × State) :=
  if CRYPTO_mem_check_on e.tid s then
    let s1 := MemCheck_off e.tid s
    match remove_all_loop e fuel 0 s1 with
    | none => none
    | some (ret, s2) => some (ret, MemCheck_on e.tid s2)
  else some (0, s)

/-! ## Event hooks -/

/-- The call `Free(addr)` on the caller's own allocation: the address is recorded as
released. (The nested call of the free hook does nothing, tracking being suspended.) -/
def Free_addr (addr : Nat) (s : State) : State :=
  { s with released := addr :: s.released }

/-- The calling thread's current annotation, as `CRYPTO_dbg_malloc` looks it up:
`amih != NULL && (amim=lh_retrieve(amih,&tmp)) != NULL` with `tmp.thread` the caller. -/
def current_info (e : Env) (s : State) : Option Nat :=
  match s.amih with
  | some atbl => lh_retrieve (same_thread s.heap (app_info_key e.tid)) atbl
  | none => none

/-- Lines 385-418 of `CRYPTO_dbg_malloc`: the fields of the new record `m`. -/
def new_mem (e : Env) (addr : Nat) (num : Int) (file : String) (line : Int)
    (s : State) : MEM :=
  { addr := addr, file := file, line := line, num := num
    thread := if s.options &&& V_CRYPTO_MDEBUG_THREAD ≠ 0 then e.tid else 0
    order := s.order
    time := if s.options &&& V_CRYPTO_MDEBUG_TIME ≠ 0 then e.now else 0
    app_info := current_info e s }

/-- Lines 385-428 of `CRYPTO_dbg_malloc`: the new record `m` is filled in, takes the
next value of `order` and a reference to the calling thread's current annotation, and
is inserted into the table `tbl` (the value of `mh`); a record it replaces there gives
up its annotation reference. -/
def dbg_malloc_record (e : Env) (addr : Nat) (num : Int) (file : String) (line : Int)
    (tbl : List MEM) (s : State) : State :=
  let m := new_mem e addr num file line s
  -- m->order=order++;
  let order1 := (s.order + 1) % 2 ^ ULONG_BITS
  -- m->app_info = amim; amim->references++;
  let heap1 := incr_ref_opt s.heap (current_info e s)
  -- if ((mm=lh_insert(mh,m)) != NULL) { if (mm->app_info != NULL) mm->app_info->references--; }
  let r := lh_insert (same_addr m) m tbl
  let heap2 := decr_ref_opt heap1 (r.1.bind MEM.app_info)
  { s with order := order1, mh := some r.2, heap := heap2 }

/-- The function `CRYPTO_dbg_malloc(addr, num, file, line, before_p)`; address 0 is
`NULL`. `e.malloc_ok` is the outcome of `Malloc(sizeof(MEM))`, `e.lh_new_ok` that of
`lh_new`. -/
def CRYPTO_dbg_malloc (e : Env) (addr : Nat) (num : Int) (file : String) (line : Int)
    (before_p : Nat) (s : State) : State :=
  if before_p &&& 127 = 1 then
    if addr = 0 then s
    else if CRYPTO_mem_check_on e.tid s then
      let s1 := MemCheck_off e.tid s
      if e.malloc_ok = false then
        -- Free(addr); MemCheck_on(); return;
        MemCheck_on e.tid (Free_addr addr s1)
      else
        match lh_new_if_null e.lh_new_ok s1.mh with
        | none =>
          -- Free(addr); Free(m); addr=NULL; goto err;
          MemCheck_on e.tid (Free_addr addr s1)
        | some tbl => MemCheck_on e.tid (dbg_malloc_record e addr num file line tbl s1)
    else s
  else s

/-- Lines 451-464 of `CRYPTO_dbg_free`: the record of `addr` is taken out of the table
`tbl` (the value of `mh`) and gives up its annotation reference. -/
def dbg_free_record (addr : Nat) (tbl : List MEM) (s : State) : State :=
  match lh_delete (same_addr (mem_key addr)) tbl with
  | (some mp, tbl1) =>
    -- if (mp->app_info != NULL) mp->app_info->references--;
    { s with mh := some tbl1, heap := decr_ref_opt s.heap mp.app_info }
  | (none, _) => s

/-- The function `CRYPTO_dbg_free(addr, before_p)`. -/
def CRYPTO_dbg_free (e : Env) (addr : Nat) (before_p : Nat) (s : State) : State :=
  if before_p = 0 then
    if addr = 0 then s
    else if CRYPTO_mem_check_on e.tid s then
      match s.mh with
      | none => s
      | some tbl => MemCheck_on e.tid (dbg_free_record addr tbl (MemCheck_off e.tid s))
    else s
  else s

/-- Lines 502-515 of `CRYPTO_dbg_realloc`: the record of `addr1` is taken out of the
table `tbl` (the value of `mh`), gets the new address and size, and is inserted again. -/
def dbg_realloc_record (addr1 addr2 : Nat) (num : Int) (tbl : List MEM)
    (s : State) : State :=
  match lh_delete (same_addr (mem_key addr1)) tbl with
  | (some mp, tbl1) =>
    let mp1 : MEM := { mp with addr := addr2, num := num }
    { s with mh := some (lh_insert (same_addr mp1) mp1 tbl1).2 }
  | (none, _) => s

/-- The function `CRYPTO_dbg_realloc(addr1, addr2, num, file, line, before_p)`. The
result is `none` where the function hands the table pointer `mh` to `lh_delete` while
it is still `NULL`. -/
def CRYPTO_dbg_realloc (e : Env) (addr1 addr2 : Nat) (num : Int) (file : String)
    (line : Int) (before_p : Nat) (s : State) : Option State :=
  if before_p = 1 then
    if addr2 = 0 then some s
    else if addr1 = 0 then
      some (CRYPTO_dbg_malloc e addr2 num file line (128 ||| before_p) s)
    else if CRYPTO_mem_check_on e.tid s then
      let s1 := MemCheck_off e.tid s
      match s1.mh with
      | none => none
      | some tbl => some (MemCheck_on e.tid (dbg_realloc_record addr1 addr2 num tbl s1))
    else some s
  else some s

/-- The hook `on_alloc(address, size, file, line)`: `CRYPTO_dbg_malloc` after the
allocation (`before_p = 1`). -/
def on_alloc (e : Env) (addr : Nat) (num : Int) (file : String) (line : Int)
    (s : State) : State :=
  CRYPTO_dbg_malloc e addr num file line 1 s

/-- The hook `on_free(address)`: `CRYPTO_dbg_free` before the release (`before_p = 0`). -/
def on_free (e : Env) (addr : Nat) (s : State) : State :=
  CRYPTO_dbg_free e addr 0 s

/-- The hook `on_realloc(old, new, size, file, line)`: `CRYPTO_dbg_realloc` after the
reallocation (`before_p = 1`). -/
def on_realloc (e : Env) (addr1 addr2 : Nat) (num : Int) (file : String) (line : Int)
    (s : State) : Option State :=
  CRYPTO_dbg_realloc e addr1 addr2 num file line 1 s

/-! ## Leak reporter -/

/-- Width of `int`; `INT_MAX` is `2 ^ (INT_BITS - 1) - 1`. -/
def INT_BITS : Nat := 32

/-- The largest `int`. -/
def INT_MAX : Int := 2 ^ (INT_BITS - 1) - 1

/-- The smallest `long` (LP64). -/
def LONG_MIN : Int := -(2 ^ (ULONG_BITS - 1))

/-- The largest `long` (LP64). -/
def LONG_MAX : Int := 2 ^ (ULONG_BITS - 1) - 1

/-- The size of the local array `char buf[1024]` of `print_leak`. -/
def BUF_SIZE : Nat := 1024

/-- The fields of the C library's `struct tm` that `print_leak` reads. -/
structure tm where
  tm_hour : Int
  tm_min : Int
  tm_sec : Int
deriving DecidableEq, Repr

/-- The `printf` conversion `%02d`: at least two characters, padded with zeros. -/
def fmt_02d (n : Int) : String :=
  if 0 ≤ n ∧ n < 10 then "0" ++ toString n else toString n

/-- The `printf` conversion `%5lu`: at least five characters, padded with blanks on the
left. -/
def fmt_5lu (n : Nat) : String :=
  String.mk (List.replicate (5 - (toString n).length) ' ') ++ toString n

/-- The `printf` conversion `%08lX`: upper-case hexadecimal, at least eight characters,
padded with zeros. -/
def fmt_08lX (n : Nat) : String :=
  String.mk (List.replicate (8 - (Nat.toDigits 16 n).length) '0' ++
    (Nat.toDigits 16 n).map Char.toUpper)

/-- One call of `BIO_puts`. The main line of a record and an annotation line are the
text of `buf`; the summary keeps its two numbers. -/
inductive Line where
  | leak (text : String)
  | info (text : String)
  | summary (bytes : Int) (chunks : Int)
deriving DecidableEq, Repr

/-- The output sink: its own address and what was written to it, oldest first. -/
structure bio_st where
  addr : Nat
  written : List Line
deriving DecidableEq, Repr

/-- The C struct `mem_leak_st`. -/
structure MEM_LEAK where
  bio : bio_st
  chunks : Int
  bytes : Int
deriving DecidableEq, Repr

/-- The call `BIO_puts(bio, buf)`. -/
def BIO_puts (b : bio_st) (ln : Line) : bio_st :=
  { b with written := b.written ++ [ln] }

/-- The content of `buf` after `memset(buf,'>',ami_cnt)` and the `sprintf` of the
header of an annotation line. Strings hold one character per byte. -/
def info_header (ami_cnt : Nat) (a : APP_INFO) : String :=
  String.mk (List.replicate ami_cnt '>') ++ "thread=" ++ toString a.thread ++
    ", file=" ++ a.file ++ ", line=" ++ toString a.line ++ ", info=\""

/-- The number of bytes of `amip->info` copied into `buf` for an annotation whose
header has length `buf_len`: `128 - buf_len - 3` in the `memcpy` branch, `info_len` in
the `strcpy` branch. -/
def info_copied (buf_len info_len : Int) : Int :=
  if 128 - buf_len - 3 < info_len then 128 - buf_len - 3 else info_len

/-- The text of one annotation line, `none` where `memcpy` is called with a negative
count. -/
def info_line (ami_cnt : Nat) (a : APP_INFO) : Option String :=
  let buf := info_header ami_cnt a
  let buf_len : Int := buf.length
  let info_len : Int := a.info.length
  if 128 - buf_len - 3 < info_len then
    if 128 - buf_len - 3 < 0 then none
    else some (buf ++ a.info.take (128 - buf_len - 3).toNat ++ "\"\n")
  else some (buf ++ a.info ++ "\"\n")

/-- The loop `while(amip && amip->thread == ti)` of `print_leak`, with a bound on the
number of annotation lines; `none` when the bound is reached or a line has no text. -/
def print_info_loop (heap : List APP_INFO) (ti : Nat) :
    Nat → Option Nat → Nat → bio_st → Option bio_st
  | _, none, _, b => some b
  | 0, some p, _, b => if (deref heap p).thread = ti then none else some b
  | fuel + 1, some p, ami_cnt, b =>
    if (deref heap p).thread = ti then
      (info_line (ami_cnt + 1) (deref heap p)).bind fun text =>
        print_info_loop heap ti fuel (deref heap p).next (ami_cnt + 1)
          (BIO_puts b (Line.info text))
    else some b

/-- The time stamp `print_leak` writes first when `V_CRYPTO_MDEBUG_TIME` is set. The
parameter `localtime` is the C library function, `none` being its `NULL` result, which
`print_leak` dereferences without a test: then there is no text. -/
def leak_stamp (localtime : Nat → Option tm) (options : Nat) (m : MEM) : Option String :=
  if options &&& V_CRYPTO_MDEBUG_TIME ≠ 0 then
    (localtime m.time).map fun lcl =>
      "[" ++ fmt_02d lcl.tm_hour ++ ":" ++ fmt_02d lcl.tm_min ++ ":" ++
        fmt_02d lcl.tm_sec ++ "] "
  else some ""

/-- The content of `buf` when `print_leak` hands the main line of the record `m` to
`BIO_puts` (lines 544-564): the `sprintf` calls append the time stamp, the sequence
number, file and line, the thread and the size and address. `none` where `localtime`
returns `NULL` or where the text and its terminating NUL do not fit `buf`. Strings hold
one character per byte. -/
def leak_line (localtime : Nat → Option tm) (options : Nat) (m : MEM) : Option String :=
  (leak_stamp localtime options m).bind fun stamp =>
    let text := stamp ++ fmt_5lu m.order ++ " file=" ++ m.file ++ ", line=" ++
      toString m.line ++ ", " ++
      (if options &&& V_CRYPTO_MDEBUG_THREAD ≠ 0 then
        "thread=" ++ toString m.thread ++ ", " else "") ++
      "number=" ++ toString m.num ++ ", address=" ++ fmt_08lX m.addr ++ "\n"
    if text.length < BUF_SIZE then some text else none

/-- The thread whose annotations `print_leak` prints for a record: `ti=amip->thread`
(0 stands for the unset variable when there is no annotation). -/
def leak_thread (heap : List APP_INFO) (app_info : Option Nat) : Nat :=
  match app_info with
  | some p => (deref heap p).thread
  | none => 0

/-- The callback `print_leak(m, l)`. The result is `none` where the main line has no
text (see `leak_line`), where `l->chunks++` leaves the range of `int` or
`l->bytes+=m->num` that of `long`, and where an annotation line has no text. -/
def print_leak (localtime : Nat → Option tm) (s : State) (m : MEM) (l : MEM_LEAK) :
    Option MEM_LEAK :=
  if m.addr = l.bio.addr then some l
  else
    (leak_line localtime s.options m).bind fun text =>
      let b1 := BIO_puts l.bio (Line.leak text)
      -- l->chunks++; l->bytes+=m->num;
      if INT_MAX < l.chunks + 1 ∨ l.bytes + m.num < LONG_MIN ∨ LONG_MAX < l.bytes + m.num then
        none
      else
        (print_info_loop s.heap (leak_thread s.heap m.app_info) s.heap.length
          m.app_info 0 b1).map fun b2 =>
            { bio := b2, chunks := l.chunks + 1, bytes := l.bytes + m.num }

/-- Modelled from the spec: `lh_doall_arg` of `crypto/lhash`, the for-each of a keyed
table, in the order of the list. -/
def lh_doall_arg {α β : Type} (f : α → β → Option β) : List α → β → Option β
  | [], acc => some acc
  | x :: xs, acc =>
    match f x acc with
    | none => none
    | some acc1 => lh_doall_arg f xs acc1

/-- The function `CRYPTO_mem_leaks(b)`: the sink after the report, `none` where a call
of `print_leak` has no result. The summary, of at most 56 characters, fits `char buf[80]`. -/
def CRYPTO_mem_leaks (localtime : Nat → Option tm) (s : State) (b : bio_st) :
    Option bio_st :=
  match s.mh with
  | none => some b
  | some tbl =>
    match lh_doall_arg (print_leak localtime s) tbl { bio := b, chunks := 0, bytes := 0 } with
    | none => none
    | some ml =>
      if ml.chunks ≠ 0 then some (BIO_puts ml.bio (Line.summary ml.bytes ml.chunks))
      else some ml.bio

/-- The function `CRYPTO_mem_leaks_cb(cb)`: the argument lists of the calls of `cb`,
in order (`order`, `file`, `line`, `num`, `addr`). -/
def CRYPTO_mem_leaks_cb (s : State) : List (Nat × String × Int × Int × Nat) :=
  match s.mh with
  | none => []
  | some tbl => tbl.map (fun m => (m.order, m.file, m.line, m.num, m.addr))

/-! ## Reachable states -/

/-- A call of one of the public functions of the file. -/
inductive Op where
  | mem_ctrl (tid : Nat) (mode : Int)
  | set_options (bits : Nat)
  | add_info (e : Env) (file : String) (line : Int) (info : String)
  | remove_info (e : Env)
  | remove_all_info (fuel : Nat) (e : Env)
  | dbg_malloc (e : Env) (addr : Nat) (num : Int) (file : String) (line : Int)
      (before_p : Nat)
  | dbg_free (e : Env) (addr : Nat) (before_p : Nat)
  | dbg_realloc (e : Env) (addr1 addr2 : Nat) (num : Int) (file : String) (line : Int)
      (before_p : Nat)
deriving DecidableEq, Repr

/-- The state after one call, `none` when the call has no result. -/
def step (s : State) : Op → Option State
  | Op.mem_ctrl tid mode => some (CRYPTO_mem_ctrl tid mode s).2
  | Op.set_options bits => some (CRYPTO_dbg_set_options bits s)
  | Op.add_info e file line info => some (CRYPTO_add_info e file line info s).2
  | Op.remove_info e => some (CRYPTO_remove_info e s).2
  | Op.remove_all_info fuel e => (CRYPTO_remove_all_info fuel e s).map Prod.snd
  | Op.dbg_malloc e addr num file line before_p =>
    some (CRYPTO_dbg_malloc e addr num file line before_p s)
  | Op.dbg_free e addr before_p => some (CRYPTO_dbg_free e addr before_p s)
  | Op.dbg_realloc e addr1 addr2 num file line before_p =>
    CRYPTO_dbg_realloc e addr1 addr2 num file line before_p s

/-- The state after a sequence of calls, `none` when one of them has no result. -/
def run : State → List Op → Option State
  | s, [] => some s
  | s, op :: ops =>
    match step s op with
    | none => none
    | some s1 => run s1 ops

/-- The states the public functions can produce from the initial state. -/
def Reachable (s : State) : Prop :=
  ∃ ops : List Op, run init ops = some s

/-! ## Notions used in the statements -/

/-- The state after a sequence of `set_mode` requests, each with its calling thread. -/
def set_mode_run : State → List (Nat × Int) → State
  | s, [] => s
  | s, (tid, mode) :: reqs => set_mode_run (CRYPTO_mem_ctrl tid mode s).2 reqs

/-- The state after `set_mode(ON)`, `set_mode(SUSPEND)`, `set_mode(SUSPEND)` and one
`set_mode(RESUME)`, all issued by thread `tid`. -/
def on_suspend_suspend_resume (tid : Nat) (s : State) : State :=
  let s1 := (CRYPTO_mem_ctrl tid 1 s).2
  let s2 := (CRYPTO_mem_ctrl tid 3 s1).2
  let s3 := (CRYPTO_mem_ctrl tid 3 s2).2
  (CRYPTO_mem_ctrl tid 2 s3).2

/-- The values `mh_mode` and `disabling_thread` take in the states the mode controller
produces: the mode is 0, 1 or 3, and a thread is recorded only in mode 1. -/
def ModeOK (s : State) : Prop :=
  (s.mh_mode = 0 ∧ s.disabling_thread = 0) ∨ s.mh_mode = 1 ∨
    (s.mh_mode = 3 ∧ s.disabling_thread = 0)

/-- The records of the allocation table (none while `mh` is `NULL`). -/
def table (s : State) : List MEM :=
  s.mh.getD []

/-- The addresses keyed in the allocation table. -/
def table_addrs (s : State) : List Nat :=
  (table s).map MEM.addr

/-- Well-formedness of the allocation table: no address is keyed twice and `NULL` is
not keyed. -/
def TableOK (s : State) : Prop :=
  (table_addrs s).Nodup ∧ 0 ∉ table_addrs s

/-- A call of `on_alloc` or `on_free` with its calling thread; `now` is the clock value
read by `on_alloc`. All bookkeeping allocations of the call succeed. -/
inductive Event where
  | alloc (tid now addr : Nat) (num : Int) (file : String) (line : Int)
  | free (tid addr : Nat)
deriving DecidableEq, Repr

/-- The calling thread of an event. -/
def Event.tid : Event → Nat
  | Event.alloc tid _ _ _ _ _ => tid
  | Event.free tid _ => tid

/-- The address an event is about. -/
def Event.addr : Event → Nat
  | Event.alloc _ _ addr _ _ _ => addr
  | Event.free _ addr => addr

/-- The size requested by an event (0 for a free). -/
def Event.num : Event → Int
  | Event.alloc _ _ _ num _ _ => num
  | Event.free _ _ => 0

/-- Whether the event is an allocation. -/
def Event.is_alloc : Event → Bool
  | Event.alloc _ _ _ _ _ _ => true
  | Event.free _ _ => false

/-- The state after one event. -/
def apply_event (s : State) : Event → State
  | Event.alloc tid now addr num file line =>
    on_alloc { tid := tid, now := now, malloc_ok := true, lh_new_ok := true }
      addr num file line s
  | Event.free tid addr =>
    on_free { tid := tid, now := 0, malloc_ok := true, lh_new_ok := true } addr s

/-- The state after a sequence of events, oldest first. -/
def apply_events : State → List Event → State
  | s, [] => s
  | s, ev :: evs => apply_events (apply_event s ev) evs

/-- Address `a` was allocated in the sequence and not freed afterwards: the sequence
has an allocation of `a` that no later free of `a` follows. -/
def allocated_not_freed (evs : List Event) (a : Nat) : Prop :=
  ∃ pre post tid now num file line,
    evs = pre ++ Event.alloc tid now a num file line :: post ∧
      ∀ ev ∈ post, ev.is_alloc = false → ev.addr ≠ a

/-- The annotation records currently installed in the annotation table (none while
`amih` is `NULL`). -/
def heads (s : State) : List Nat :=
  s.amih.getD []

/-- A pointer to an annotation record that has been allocated and not released. -/
def live (heap : List APP_INFO) (p : Nat) : Prop :=
  p < heap.length ∧ (deref heap p).freed = false

/-- Whether `c` is an unreleased annotation record whose `next` link points to `q`. -/
def links_to (q : Nat) (c : APP_INFO) : Bool :=
  !c.freed && c.next == some q

/-- The number of allocation records in `tbl` whose `app_info` is `q`. -/
def cnt_mem (tbl : List MEM) (q : Nat) : Nat :=
  tbl.countP (fun m => m.app_info == some q)

/-- The number of unreleased annotation records whose `next` link points to `q`. -/
def cnt_par (heap : List APP_INFO) (q : Nat) : Nat :=
  heap.countP (links_to q)

/-- The records reached from `p` by following `next` links, at most `fuel` of them:
the records the loop of `print_leak` visits when started at `p` (the loop stops
earlier where the thread identity changes). -/
def next_chain (heap : List APP_INFO) : Nat → Option Nat → List Nat
  | 0, _ => []
  | _ + 1, none => []
  | fuel + 1, some p => p :: next_chain heap fuel (deref heap p).next

/-- The reference-count discipline of the annotation records. Every `app_info` of a
record in the allocation table, every `next` link of an unreleased annotation record
and every entry of the annotation table points to an unreleased annotation record, a
`next` link points to an older record, and the reference count of an unreleased record
is at least the number of allocation records, unreleased annotation records and
annotation-table entries that point to it. -/
def HeapInv (s : State) : Prop :=
  (∀ m ∈ table s, ∀ q, m.app_info = some q → live s.heap q) ∧
  (∀ p, live s.heap p → ∀ q, (deref s.heap p).next = some q → q < p ∧ live s.heap q) ∧
  (∀ p ∈ heads s, live s.heap p) ∧
  (∀ q, live s.heap q →
    (cnt_mem (table s) q : Int) + (cnt_par s.heap q : Int) + ((heads s).count q : Int) ≤
      (deref s.heap q).references)

/-- The head annotation of thread `tid`: the entry of the annotation table that the
lookup with key `tid` returns. -/
def head_of (s : State) (tid : Nat) : Option Nat :=
  lh_retrieve (same_thread s.heap (app_info_key tid)) (heads s)

/-- The annotation stack of thread `tid`: its head annotation and the records reached
from it through `next` links, newest first. -/
def stack (s : State) (tid : Nat) : List Nat :=
  next_chain s.heap s.heap.length (head_of s tid)

/-- The shape of the annotation stacks: the annotation table holds at most one entry
per thread identity, and the `next` link of an unreleased record leads to a record of
the same thread. -/
def StackInv (s : State) : Prop :=
  ((heads s).map (fun p => (deref s.heap p).thread)).Nodup ∧
  ∀ p q, live s.heap p → (deref s.heap p).next = some q →
    (deref s.heap q).thread = (deref s.heap p).thread

/-- Thread 1 pushes two annotations, allocates at 0x100 and pops both annotations. -/
def example_chain_ops : List Op :=
  [Op.mem_ctrl 1 1,
   Op.add_info { tid := 1, now := 0, malloc_ok := true, lh_new_ok := true } "a.c" 1 "A",
   Op.add_info { tid := 1, now := 0, malloc_ok := true, lh_new_ok := true } "b.c" 2 "B",
   Op.dbg_malloc { tid := 1, now := 0, malloc_ok := true, lh_new_ok := true }
     0x100 10 "f.c" 5 1,
   Op.remove_info { tid := 1, now := 0, malloc_ok := true, lh_new_ok := true },
   Op.remove_info { tid := 1, now := 0, malloc_ok := true, lh_new_ok := true }]

/-- The state after `example_chain_ops`: the record of 0x100 points to annotation 1,
whose `next` link points to annotation 0. -/
def example_chain : State :=
  { mh_mode := 3, disabling_thread := 0, order := 1, options := 3
    amih := some []
    mh := some [{ addr := 0x100, num := 10, file := "f.c", line := 5, thread := 1,
                  order := 0, time := 0, app_info := some 1 }]
    heap := [{ thread := 1, file := "a.c", line := 1, info := "A", next := none,
               references := 1, freed := false },
             { thread := 1, file := "b.c", line := 2, info := "B", next := some 0,
               references := 1, freed := false }]
    released := [] }

/-- The fresh state with tracking turned on by thread 1. -/
def example_on : State :=
  (CRYPTO_mem_ctrl 1 1 init).2

/-- Thread 1 with every bookkeeping allocation succeeding. -/
def example_env : Env :=
  { tid := 1, now := 0, malloc_ok := true, lh_new_ok := true }

/-- Thread 1 with `Malloc` of the bookkeeping record failing. -/
def example_env_no_malloc : Env :=
  { tid := 1, now := 0, malloc_ok := false, lh_new_ok := true }

/-- Thread 1 with `lh_new` failing. -/
def example_env_no_table : Env :=
  { tid := 1, now := 0, malloc_ok := true, lh_new_ok := false }

/-- Two allocations and the release of the first. -/
def example_events : List Event :=
  [Event.alloc 1 0 0x100 10 "f.c" 5, Event.alloc 1 0 0x200 20 "g.c" 6, Event.free 1 0x100]

/-- Three allocations by two threads. -/
def example_allocs : List Event :=
  [Event.alloc 1 0 0x100 10 "f.c" 5, Event.alloc 2 0 0x200 20 "g.c" 6,
   Event.alloc 1 0 0x300 12 "f.c" 7]

/-- Thread 1 turns tracking on, pushes annotation A, allocates at 0x100, pops A and
frees 0x100. -/
def example_leak_ops : List Op :=
  [Op.mem_ctrl 1 1,
   Op.add_info example_env "a.c" 1 "A",
   Op.dbg_malloc example_env 0x100 10 "f.c" 5 1,
   Op.remove_info example_env,
   Op.dbg_free example_env 0x100 0]

/-- Thread 1 turns tracking on and pushes annotation A. -/
def example_pushed : State :=
  (CRYPTO_add_info example_env "a.c" 1 "A" example_on).2

/-- Thread 2 with every bookkeeping allocation succeeding. -/
def example_env2 : Env :=
  { tid := 2, now := 0, malloc_ok := true, lh_new_ok := true }

/-- Thread 1 has pushed A and B, thread 2 has pushed C. -/
def example_two_threads : State :=
  (CRYPTO_add_info example_env2 "c.c" 3 "C"
    (CRYPTO_add_info example_env "b.c" 2 "B" example_pushed).2).2

/-- An annotation whose file name has 120 characters. -/
def example_long_file : APP_INFO :=
  { thread := 1, file := String.mk (List.replicate 120 'a'), line := 1, info := "x",
    next := none, references := 1, freed := false }

/-- The state after `set_mode(ON)`, one allocation at 0x100 and `set_mode(OFF)`, all by
thread 1. -/
def example_off_with_record : State :=
  (CRYPTO_mem_ctrl 1 0 (on_alloc example_env 0x100 10 "f.c" 5 example_on)).2

/-- A mode state in which thread 1 holds the suspension. -/
def example_suspended : State :=
  (CRYPTO_mem_ctrl 1 3 example_on).2

/-- A `localtime` that converts every time stamp to 12:00:00. -/
def example_localtime : Nat → Option tm :=
  fun _ => some { tm_hour := 12, tm_min := 0, tm_sec := 0 }

/-- An empty sink at address 0x900. -/
def example_sink : bio_st :=
  { addr := 0x900, written := [] }

/-- One allocation whose file name has 1024 characters. -/
def example_alloc_long_file : List Event :=
  [Event.alloc 1 0 0x100 10 (String.mk (List.replicate 1024 'a')) 5]

/-! ## The mode controller -/

theorem land_not_enable_3 : (3 : Nat) &&& 4294967293 = 1 := by decide

theorem land_not_enable_1 : (1 : Nat) &&& 4294967293 = 1 := by decide

/-! ### Frame of the mode controller -/

theorem mem_ctrl_frame (tid : Nat) (mode : Int) (s : State) :
    ∃ m d, (CRYPTO_mem_ctrl tid mode s).2 = { s with mh_mode := m, disabling_thread := d } := by
  unfold CRYPTO_mem_ctrl
  dsimp only
  split_ifs <;> exact ⟨_, _, rfl⟩

@[simp] theorem mem_ctrl_mh (tid : Nat) (mode : Int) (s : State) :
    (CRYPTO_mem_ctrl tid mode s).2.mh = s.mh := by
  obtain ⟨m, d, h⟩ := mem_ctrl_frame tid mode s
  rw [h]

@[simp] theorem mem_ctrl_amih (tid : Nat) (mode : Int) (s : State) :
    (CRYPTO_mem_ctrl tid mode s).2.amih = s.amih := by
  obtain ⟨m, d, h⟩ := mem_ctrl_frame tid mode s
  rw [h]

@[simp] theorem mem_ctrl_heap (tid : Nat) (mode : Int) (s : State) :
    (CRYPTO_mem_ctrl tid mode s).2.heap = s.heap := by
  obtain ⟨m, d, h⟩ := mem_ctrl_frame tid mode s
  rw [h]

@[simp] theorem mem_ctrl_order (tid : Nat) (mode : Int) (s : State) :
    (CRYPTO_mem_ctrl tid mode s).2.order = s.order := by
  obtain ⟨m, d, h⟩ := mem_ctrl_frame tid mode s
  rw [h]

@[simp] theorem mem_ctrl_options (tid : Nat) (mode : Int) (s : State) :
    (CRYPTO_mem_ctrl tid mode s).2.options = s.options := by
  obtain ⟨m, d, h⟩ := mem_ctrl_frame tid mode s
  rw [h]

@[simp] theorem mem_ctrl_released (tid : Nat) (mode : Int) (s : State) :
    (CRYPTO_mem_ctrl tid mode s).2.released = s.released := by
  obtain ⟨m, d, h⟩ := mem_ctrl_frame tid mode s
  rw [h]

/-- In a state of the mode controller, tracking is active for a thread exactly when the
mode is 3, no thread is recorded and the thread identity is not 0. -/
theorem check_on_of_ModeOK (tid : Nat) (s : State) (h : ModeOK s)
    (ha : CRYPTO_mem_check_on tid s = true) :
    s.mh_mode = 3 ∧ s.disabling_thread = 0 ∧ tid ≠ 0 := by
  unfold CRYPTO_mem_check_on at ha
  rcases h with ⟨h1, h2⟩ | h1 | ⟨h1, h2⟩
  · simp [h1, CRYPTO_MEM_CHECK_ON] at ha
  · simp [h1, CRYPTO_MEM_CHECK_ON, CRYPTO_MEM_CHECK_ENABLE] at ha
  · simp [h1, h2, CRYPTO_MEM_CHECK_ON, CRYPTO_MEM_CHECK_ENABLE] at ha
    exact ⟨h1, h2, fun h => ha h.symm⟩

theorem MemCheck_off_eq (tid : Nat) (s : State) (h1 : s.mh_mode = 3)
    (h2 : s.disabling_thread = 0) (h3 : tid ≠ 0) :
    MemCheck_off tid s = { s with mh_mode := 1, disabling_thread := tid } := by
  have h4 : ¬ (0 = tid) := fun h => h3 h.symm
  simp [MemCheck_off, CRYPTO_mem_ctrl, h1, h2, h4, CRYPTO_MEM_CHECK_ON,
    NOT_CRYPTO_MEM_CHECK_ENABLE, land_not_enable_3]

theorem MemCheck_on_eq (tid : Nat) (s : State) (h1 : s.mh_mode = 1) :
    MemCheck_on tid s = { s with mh_mode := 3, disabling_thread := 0 } := by
  unfold MemCheck_on CRYPTO_mem_ctrl
  by_cases h2 : s.disabling_thread = 0
  · cases s
    simp_all [CRYPTO_MEM_CHECK_ON, CRYPTO_MEM_CHECK_ENABLE]
  · simp [h1, h2, CRYPTO_MEM_CHECK_ON, CRYPTO_MEM_CHECK_ENABLE]

theorem ModeOK_init : ModeOK init := by
  left; exact ⟨rfl, rfl⟩

theorem ModeOK_mem_ctrl (tid : Nat) (mode : Int) (s : State) (h : ModeOK s) :
    ModeOK (CRYPTO_mem_ctrl tid mode s).2 := by
  unfold CRYPTO_mem_ctrl
  rcases h with ⟨h1, h2⟩ | h1 | ⟨h1, h2⟩ <;>
  · simp only [h1, CRYPTO_MEM_CHECK_ON, CRYPTO_MEM_CHECK_ENABLE, NOT_CRYPTO_MEM_CHECK_ENABLE]
    split_ifs <;> simp_all [ModeOK, land_not_enable_3, land_not_enable_1]

/-- C4: for every mode state and every calling thread, `is_tracking_active`
(`CRYPTO_mem_check_on`) returns true if and only if `enabled` is set, `active` is set
and the calling thread is not the recorded suspending thread. -/
theorem C4_is_tracking_active_iff (s : State) (tid : Nat) :
    CRYPTO_mem_check_on tid s = true ↔
      (enabled s = true ∧ active s = true ∧ s.disabling_thread ≠ tid) := by
  unfold CRYPTO_mem_check_on enabled active
  by_cases h : s.mh_mode &&& CRYPTO_MEM_CHECK_ON ≠ 0 <;> simp [h]

theorem ModeOK_set_mode_run (reqs : List (Nat × Int)) :
    ∀ s : State, ModeOK s → ModeOK (set_mode_run s reqs) := by
  induction reqs with
  | nil => intro s h; exact h
  | cons r reqs ih =>
    intro s h
    obtain ⟨tid, mode⟩ := r
    exact ih _ (ModeOK_mem_ctrl tid mode s h)

theorem ModeOK_active_enabled (s : State) (h : ModeOK s) (ha : active s = true) :
    enabled s = true := by
  unfold active at ha
  unfold enabled
  rcases h with ⟨h1, _⟩ | h1 | ⟨h1, _⟩ <;>
    simp_all [CRYPTO_MEM_CHECK_ON, CRYPTO_MEM_CHECK_ENABLE]

/-- C5: in every mode state reached from the initial state by a sequence of `set_mode`
requests (any request values, any calling threads), `active` is set only if `enabled`
is set. -/
theorem C5_active_only_if_enabled (reqs : List (Nat × Int))
    (ha : active (set_mode_run init reqs) = true) :
    enabled (set_mode_run init reqs) = true :=
  ModeOK_active_enabled _ (ModeOK_set_mode_run reqs init ModeOK_init) ha

/-- C5 after `set_mode(ON)` by thread 7: `active` and `enabled` are both set. -/
theorem C5_active_only_if_enabled_witness :
    active (set_mode_run init [(7, 1)]) = true ∧
      enabled (set_mode_run init [(7, 1)]) = true :=
  ⟨by decide, C5_active_only_if_enabled [(7, 1)] (by decide)⟩

/-- C6 as stated fails: after ON, SUSPEND, SUSPEND and one RESUME by thread 1, tracking
is active for thread 1. -/
theorem C6_counterexample :
    ¬ (CRYPTO_mem_check_on 1 (on_suspend_suspend_resume 1 init) = false) := by
  decide

/-- C6, amended: for every thread with a non-null identity, after `set_mode(ON)`,
`set_mode(SUSPEND)`, `set_mode(SUSPEND)` and a single `set_mode(RESUME)` issued by
that thread, tracking is active again for it: suspension is not counted, one RESUME
undoes both SUSPENDs. -/
theorem C6_single_resume_reactivates (tid : Nat) (s : State) (ht : tid ≠ 0) :
    CRYPTO_mem_check_on tid (on_suspend_suspend_resume tid s) = true := by
  have ht' : ¬ (0 = tid) := fun h => ht h.symm
  simp [on_suspend_suspend_resume, CRYPTO_mem_ctrl, CRYPTO_mem_check_on,
    CRYPTO_MEM_CHECK_ON, CRYPTO_MEM_CHECK_ENABLE, NOT_CRYPTO_MEM_CHECK_ENABLE, ht, ht',
    land_not_enable_3, land_not_enable_1]

/-- C7: for every thread, in the sequence `set_mode(ON)`, `set_mode(SUSPEND)`,
`set_mode(SUSPEND)`, `set_mode(RESUME)` issued by that thread, the second SUSPEND
leaves the state exactly as the first left it, and after the single RESUME `active`
is set again. -/
theorem C7_second_suspend_is_noop (tid : Nat) (s : State) :
    (CRYPTO_mem_ctrl tid 3 (CRYPTO_mem_ctrl tid 3 (CRYPTO_mem_ctrl tid 1 s).2).2).2 =
        (CRYPTO_mem_ctrl tid 3 (CRYPTO_mem_ctrl tid 1 s).2).2 ∧
      active (on_suspend_suspend_resume tid s) = true := by
  rcases Nat.eq_zero_or_pos tid with ht | ht
  · subst ht
    simp [on_suspend_suspend_resume, CRYPTO_mem_ctrl, active,
      CRYPTO_MEM_CHECK_ON, CRYPTO_MEM_CHECK_ENABLE, NOT_CRYPTO_MEM_CHECK_ENABLE,
      land_not_enable_3, land_not_enable_1]
  · have h1 : ¬ (0 = tid) := by omega
    have h2 : ¬ (tid = 0) := by omega
    simp [on_suspend_suspend_resume, CRYPTO_mem_ctrl, active,
      CRYPTO_MEM_CHECK_ON, CRYPTO_MEM_CHECK_ENABLE, NOT_CRYPTO_MEM_CHECK_ENABLE,
      land_not_enable_3, land_not_enable_1, h1, h2]

/-- C8: for every state, calling thread and request value, `set_mode`
(`CRYPTO_mem_ctrl`) returns the mode value that was in effect before the call. -/
theorem C8_set_mode_returns_previous (tid : Nat) (mode : Int) (s : State) :
    (CRYPTO_mem_ctrl tid mode s).1 = s.mh_mode := by
  unfold CRYPTO_mem_ctrl
  dsimp only
  split_ifs <;> rfl

/-- C6, amended, for thread 1 from the initial state. -/
theorem C6_single_resume_reactivates_witness :
    (1 : Nat) ≠ 0 ∧ CRYPTO_mem_check_on 1 (on_suspend_suspend_resume 1 init) = true :=
  ⟨by decide, C6_single_resume_reactivates 1 init (by decide)⟩

/-! ## Keyed tables -/

theorem lh_delete_fst {α : Type} (same : α → Bool) (l : List α) :
    (lh_delete same l).1 = l.find? same := by
  induction l with
  | nil => rfl
  | cons x xs ih =>
    by_cases h : same x = true
    · simp [lh_delete, h]
    · simp [lh_delete, h, ih]

theorem lh_delete_of_none {α : Type} (same : α → Bool) (l : List α)
    (h : (lh_delete same l).1 = none) : (lh_delete same l).2 = l := by
  induction l with
  | nil => rfl
  | cons x xs ih =>
    by_cases hx : same x = true
    · simp [lh_delete, hx] at h
    · simp only [lh_delete, hx] at h ⊢
      simp only [Bool.false_eq_true, if_false] at h ⊢
      rw [ih h]

theorem lh_delete_perm {α : Type} (same : α → Bool) (l : List α) (x : α)
    (h : (lh_delete same l).1 = some x) : l.Perm (x :: (lh_delete same l).2) := by
  induction l with
  | nil => simp [lh_delete] at h
  | cons y ys ih =>
    by_cases hy : same y = true
    · simp [lh_delete, hy] at h ⊢
      rw [h]
    · simp only [lh_delete, hy, Bool.false_eq_true, if_false] at h ⊢
      exact (List.Perm.cons y (ih h)).trans (List.Perm.swap x y _)

theorem lh_delete_same {α : Type} (same : α → Bool) (l : List α) (x : α)
    (h : (lh_delete same l).1 = some x) : same x = true := by
  rw [lh_delete_fst] at h
  exact List.find?_some h

theorem lh_delete_sublist {α : Type} (same : α → Bool) (l : List α) :
    (lh_delete same l).2.Sublist l := by
  induction l with
  | nil => exact List.Sublist.refl _
  | cons y ys ih =>
    by_cases hy : same y = true
    · simp [lh_delete, hy]
    · simp only [lh_delete, hy, Bool.false_eq_true, if_false]
      exact List.Sublist.cons₂ y ih

theorem lh_insert_fst {α : Type} (same : α → Bool) (x : α) (l : List α) :
    (lh_insert same x l).1 = l.find? same := by
  induction l with
  | nil => rfl
  | cons y ys ih =>
    by_cases h : same y = true
    · simp [lh_insert, h]
    · simp [lh_insert, h, ih]

theorem lh_insert_of_none {α : Type} (same : α → Bool) (x : α) (l : List α)
    (h : (lh_insert same x l).1 = none) : (lh_insert same x l).2 = l ++ [x] := by
  induction l with
  | nil => rfl
  | cons y ys ih =>
    by_cases hy : same y = true
    · simp [lh_insert, hy] at h
    · simp only [lh_insert, hy, Bool.false_eq_true, if_false] at h ⊢
      rw [ih h]; rfl

theorem lh_insert_perm {α : Type} (same : α → Bool) (x : α) (l : List α) (y : α)
    (h : (lh_insert same x l).1 = some y) :
    (x :: l).Perm (y :: (lh_insert same x l).2) := by
  induction l with
  | nil => simp [lh_insert] at h
  | cons z zs ih =>
    by_cases hz : same z = true
    · simp [lh_insert, hz] at h ⊢
      rw [h]
      exact List.Perm.swap _ _ _
    · simp only [lh_insert, hz, Bool.false_eq_true, if_false] at h ⊢
      have h1 : (x :: z :: zs).Perm (z :: x :: zs) := List.Perm.swap _ _ _
      have h2 : (z :: x :: zs).Perm (z :: y :: (lh_insert same x zs).2) :=
        List.Perm.cons z (ih h)
      exact (h1.trans h2).trans (List.Perm.swap _ _ _)

theorem lh_insert_same {α : Type} (same : α → Bool) (x : α) (l : List α) (y : α)
    (h : (lh_insert same x l).1 = some y) : same y = true ∧ y ∈ l := by
  rw [lh_insert_fst] at h
  exact ⟨List.find?_some h, List.mem_of_find?_eq_some h⟩

theorem lh_insert_perm_none {α : Type} (same : α → Bool) (x : α) (l : List α)
    (h : (lh_insert same x l).1 = none) : (x :: l).Perm (lh_insert same x l).2 := by
  rw [lh_insert_of_none same x l h]
  exact (List.perm_append_singleton x l).symm

theorem same_addr_iff (key x : MEM) : same_addr key x = true ↔ x.addr = key.addr := by
  unfold same_addr mem_cmp
  simp only [beq_iff_eq]
  omega

theorem same_thread_iff (heap : List APP_INFO) (key : APP_INFO) (p : Nat) :
    same_thread heap key p = true ↔ (deref heap p).thread = key.thread := by
  unfold same_thread app_info_cmp
  simp only [beq_iff_eq]
  omega

/-! ## Frame of the operations -/

theorem ModeOK_of_eq (s s1 : State) (h1 : s1.mh_mode = s.mh_mode)
    (h2 : s1.disabling_thread = s.disabling_thread) (h : ModeOK s) : ModeOK s1 := by
  unfold ModeOK at h ⊢
  rw [h1, h2]; exact h

theorem MemCheck_on_ModeOK (tid : Nat) (s : State) (h : ModeOK s) :
    ModeOK (MemCheck_on tid s) :=
  ModeOK_mem_ctrl tid 2 s h

theorem MemCheck_off_ModeOK (tid : Nat) (s : State) (h : ModeOK s) :
    ModeOK (MemCheck_off tid s) :=
  ModeOK_mem_ctrl tid 3 s h

theorem remove_info_frame (e : Env) (s : State) :
    (remove_info e s).2.mh_mode = s.mh_mode ∧
      (remove_info e s).2.disabling_thread = s.disabling_thread ∧
      (remove_info e s).2.mh = s.mh ∧ (remove_info e s).2.order = s.order ∧
      (remove_info e s).2.options = s.options ∧
      (remove_info e s).2.released = s.released := by
  unfold remove_info
  split
  · simp
  · split
    · simp
    · dsimp only
      split_ifs <;> simp

theorem add_info_record_frame (e : Env) (file : String) (line : Int) (info : String)
    (tbl : List Nat) (s : State) :
    (add_info_record e file line info tbl s).mh_mode = s.mh_mode ∧
      (add_info_record e file line info tbl s).disabling_thread = s.disabling_thread ∧
      (add_info_record e file line info tbl s).mh = s.mh ∧
      (add_info_record e file line info tbl s).order = s.order ∧
      (add_info_record e file line info tbl s).options = s.options ∧
      (add_info_record e file line info tbl s).released = s.released := by
  simp [add_info_record]

theorem dbg_malloc_record_frame (e : Env) (addr : Nat) (num : Int) (file : String)
    (line : Int) (tbl : List MEM) (s : State) :
    (dbg_malloc_record e addr num file line tbl s).mh_mode = s.mh_mode ∧
      (dbg_malloc_record e addr num file line tbl s).disabling_thread =
        s.disabling_thread ∧
      (dbg_malloc_record e addr num file line tbl s).amih = s.amih ∧
      (dbg_malloc_record e addr num file line tbl s).options = s.options ∧
      (dbg_malloc_record e addr num file line tbl s).released = s.released := by
  simp [dbg_malloc_record]

theorem dbg_free_record_frame (addr : Nat) (tbl : List MEM) (s : State) :
    (dbg_free_record addr tbl s).mh_mode = s.mh_mode ∧
      (dbg_free_record addr tbl s).disabling_thread = s.disabling_thread ∧
      (dbg_free_record addr tbl s).amih = s.amih ∧
      (dbg_free_record addr tbl s).order = s.order ∧
      (dbg_free_record addr tbl s).options = s.options ∧
      (dbg_free_record addr tbl s).released = s.released := by
  unfold dbg_free_record
  split <;> simp

theorem dbg_realloc_record_frame (addr1 addr2 : Nat) (num : Int) (tbl : List MEM)
    (s : State) :
    (dbg_realloc_record addr1 addr2 num tbl s).mh_mode = s.mh_mode ∧
      (dbg_realloc_record addr1 addr2 num tbl s).disabling_thread =
        s.disabling_thread ∧
      (dbg_realloc_record addr1 addr2 num tbl s).amih = s.amih ∧
      (dbg_realloc_record addr1 addr2 num tbl s).heap = s.heap ∧
      (dbg_realloc_record addr1 addr2 num tbl s).order = s.order ∧
      (dbg_realloc_record addr1 addr2 num tbl s).options = s.options ∧
      (dbg_realloc_record addr1 addr2 num tbl s).released = s.released := by
  unfold dbg_realloc_record
  split <;> simp

theorem remove_all_loop_frame (e : Env) (fuel : Nat) :
    ∀ (ret : Int) (s : State) (r : Int × State), remove_all_loop e fuel ret s = some r →
      r.2.mh_mode = s.mh_mode ∧ r.2.disabling_thread = s.disabling_thread ∧
        r.2.mh = s.mh ∧ r.2.order = s.order ∧ r.2.options = s.options ∧
        r.2.released = s.released := by
  induction fuel with
  | zero => intro ret s r h; simp [remove_all_loop] at h
  | succ n ih =>
    intro ret s r h
    unfold remove_all_loop at h
    have hf := remove_info_frame e s
    split at h
    · rename_i s1 heq
      rw [heq] at hf
      simp only [Option.some.injEq] at h
      subst h
      exact hf
    · rename_i x s1 heq
      rw [heq] at hf
      have h2 := ih _ _ _ h
      obtain ⟨a1, a2, a3, a4, a5, a6⟩ := hf
      obtain ⟨b1, b2, b3, b4, b5, b6⟩ := h2
      dsimp only at a1 a2 a3 a4 a5 a6
      exact ⟨b1.trans a1, b2.trans a2, b3.trans a3, b4.trans a4, b5.trans a5, b6.trans a6⟩

/-! ## Invariants of the reachable states -/

theorem run_invariant (P : State → Prop)
    (hstep : ∀ s op s1, P s → step s op = some s1 → P s1) :
    ∀ (ops : List Op) (s s1 : State), P s → run s ops = some s1 → P s1 := by
  intro ops
  induction ops with
  | nil =>
    intro s s1 hP h
    simp only [run, Option.some.injEq] at h
    subst h; exact hP
  | cons op ops ih =>
    intro s s1 hP h
    unfold run at h
    split at h
    · simp at h
    · rename_i s2 heq
      exact ih s2 s1 (hstep s op s2 hP heq) h

theorem wrap_ModeOK (tid : Nat) (s : State) (body : State → State)
    (hb : ∀ x, (body x).mh_mode = x.mh_mode ∧ (body x).disabling_thread = x.disabling_thread)
    (h : ModeOK s) : ModeOK (MemCheck_on tid (body (MemCheck_off tid s))) :=
  MemCheck_on_ModeOK tid _
    (ModeOK_of_eq _ _ (hb _).1 (hb _).2 (MemCheck_off_ModeOK tid s h))

theorem ModeOK_add_info (e : Env) (file : String) (line : Int) (info : String)
    (s : State) (h : ModeOK s) : ModeOK (CRYPTO_add_info e file line info s).2 := by
  unfold CRYPTO_add_info
  split_ifs
  · exact wrap_ModeOK e.tid s id (fun _ => ⟨rfl, rfl⟩) h
  · dsimp only
    split
    · exact wrap_ModeOK e.tid s
        (fun x => { x with heap := x.heap ++ [{ (default : APP_INFO) with freed := true }] })
        (fun _ => ⟨rfl, rfl⟩) h
    · rename_i tbl _
      exact wrap_ModeOK e.tid s (add_info_record e file line info tbl)
        (fun x => ⟨(add_info_record_frame e file line info tbl x).1,
          (add_info_record_frame e file line info tbl x).2.1⟩) h
  · exact h

theorem ModeOK_remove_info (e : Env) (s : State) (h : ModeOK s) :
    ModeOK (CRYPTO_remove_info e s).2 := by
  unfold CRYPTO_remove_info
  split_ifs
  · exact wrap_ModeOK e.tid s (fun x => (remove_info e x).2)
      (fun x => ⟨(remove_info_frame e x).1, (remove_info_frame e x).2.1⟩) h
  · exact h

theorem ModeOK_remove_all_info (fuel : Nat) (e : Env) (s : State) (r : Int × State)
    (h : ModeOK s) (hr : CRYPTO_remove_all_info fuel e s = some r) : ModeOK r.2 := by
  unfold CRYPTO_remove_all_info at hr
  split_ifs at hr
  · dsimp only at hr
    split at hr
    · simp at hr
    · rename_i ret s2 heq
      simp only [Option.some.injEq] at hr
      subst hr
      have hf := remove_all_loop_frame e fuel 0 _ _ heq
      exact MemCheck_on_ModeOK e.tid _
        (ModeOK_of_eq _ _ hf.1 hf.2.1 (MemCheck_off_ModeOK e.tid s h))
  · simp only [Option.some.injEq] at hr
    subst hr; exact h

theorem ModeOK_dbg_malloc (e : Env) (addr : Nat) (num : Int) (file : String) (line : Int)
    (before_p : Nat) (s : State) (h : ModeOK s) :
    ModeOK (CRYPTO_dbg_malloc e addr num file line before_p s) := by
  unfold CRYPTO_dbg_malloc
  split_ifs
  · exact h
  · exact wrap_ModeOK e.tid s (Free_addr addr) (fun _ => ⟨rfl, rfl⟩) h
  · dsimp only
    split
    · exact wrap_ModeOK e.tid s (Free_addr addr) (fun _ => ⟨rfl, rfl⟩) h
    · rename_i tbl _
      exact wrap_ModeOK e.tid s (dbg_malloc_record e addr num file line tbl)
        (fun x => ⟨(dbg_malloc_record_frame e addr num file line tbl x).1,
          (dbg_malloc_record_frame e addr num file line tbl x).2.1⟩) h
  · exact h
  · exact h

theorem ModeOK_dbg_free (e : Env) (addr : Nat) (before_p : Nat) (s : State)
    (h : ModeOK s) : ModeOK (CRYPTO_dbg_free e addr before_p s) := by
  unfold CRYPTO_dbg_free
  split_ifs
  · exact h
  · split
    · exact h
    · rename_i tbl _
      exact wrap_ModeOK e.tid s (dbg_free_record addr tbl)
        (fun x => ⟨(dbg_free_record_frame addr tbl x).1,
          (dbg_free_record_frame addr tbl x).2.1⟩) h
  · exact h
  · exact h

theorem ModeOK_dbg_realloc (e : Env) (addr1 addr2 : Nat) (num : Int) (file : String)
    (line : Int) (before_p : Nat) (s s1 : State) (h : ModeOK s)
    (hr : CRYPTO_dbg_realloc e addr1 addr2 num file line before_p s = some s1) :
    ModeOK s1 := by
  unfold CRYPTO_dbg_realloc at hr
  split_ifs at hr
  · simp only [Option.some.injEq] at hr; subst hr; exact h
  · simp only [Option.some.injEq] at hr; subst hr
    exact ModeOK_dbg_malloc e addr2 num file line _ s h
  · dsimp only at hr
    split at hr
    · simp at hr
    · rename_i tbl _
      simp only [Option.some.injEq] at hr; subst hr
      exact wrap_ModeOK e.tid s (dbg_realloc_record addr1 addr2 num tbl)
        (fun x => ⟨(dbg_realloc_record_frame addr1 addr2 num tbl x).1,
          (dbg_realloc_record_frame addr1 addr2 num tbl x).2.1⟩) h
  · simp only [Option.some.injEq] at hr; subst hr; exact h
  · simp only [Option.some.injEq] at hr; subst hr; exact h

theorem ModeOK_step (s : State) (op : Op) (s1 : State) (h : ModeOK s)
    (hs : step s op = some s1) : ModeOK s1 := by
  cases op with
  | mem_ctrl tid mode =>
    simp only [step, Option.some.injEq] at hs; subst hs
    exact ModeOK_mem_ctrl tid mode s h
  | set_options bits =>
    simp only [step, Option.some.injEq] at hs; subst hs
    exact ModeOK_of_eq s _ rfl rfl h
  | add_info e file line info =>
    simp only [step, Option.some.injEq] at hs; subst hs
    exact ModeOK_add_info e file line info s h
  | remove_info e =>
    simp only [step, Option.some.injEq] at hs; subst hs
    exact ModeOK_remove_info e s h
  | remove_all_info fuel e =>
    simp only [step, Option.map_eq_some'] at hs
    obtain ⟨r, hr, rfl⟩ := hs
    exact ModeOK_remove_all_info fuel e s r h hr
  | dbg_malloc e addr num file line before_p =>
    simp only [step, Option.some.injEq] at hs; subst hs
    exact ModeOK_dbg_malloc e addr num file line before_p s h
  | dbg_free e addr before_p =>
    simp only [step, Option.some.injEq] at hs; subst hs
    exact ModeOK_dbg_free e addr before_p s h
  | dbg_realloc e addr1 addr2 num file line before_p =>
    simp only [step] at hs
    exact ModeOK_dbg_realloc e addr1 addr2 num file line before_p s s1 h hs

theorem Reachable_ModeOK (s : State) (h : Reachable s) : ModeOK s := by
  obtain ⟨ops, hops⟩ := h
  exact run_invariant ModeOK ModeOK_step ops init s ModeOK_init hops

/-! ## The allocation table -/

@[simp] theorem MemCheck_on_mh (tid : Nat) (s : State) : (MemCheck_on tid s).mh = s.mh := by
  simp [MemCheck_on]

@[simp] theorem MemCheck_off_mh (tid : Nat) (s : State) : (MemCheck_off tid s).mh = s.mh := by
  simp [MemCheck_off]

@[simp] theorem MemCheck_on_amih (tid : Nat) (s : State) :
    (MemCheck_on tid s).amih = s.amih := by
  simp [MemCheck_on]

@[simp] theorem MemCheck_off_amih (tid : Nat) (s : State) :
    (MemCheck_off tid s).amih = s.amih := by
  simp [MemCheck_off]

@[simp] theorem MemCheck_on_heap (tid : Nat) (s : State) :
    (MemCheck_on tid s).heap = s.heap := by
  simp [MemCheck_on]

@[simp] theorem MemCheck_off_heap (tid : Nat) (s : State) :
    (MemCheck_off tid s).heap = s.heap := by
  simp [MemCheck_off]

@[simp] theorem MemCheck_on_order (tid : Nat) (s : State) :
    (MemCheck_on tid s).order = s.order := by
  simp [MemCheck_on]

@[simp] theorem MemCheck_off_order (tid : Nat) (s : State) :
    (MemCheck_off tid s).order = s.order := by
  simp [MemCheck_off]

@[simp] theorem MemCheck_on_options (tid : Nat) (s : State) :
    (MemCheck_on tid s).options = s.options := by
  simp [MemCheck_on]

@[simp] theorem MemCheck_off_options (tid : Nat) (s : State) :
    (MemCheck_off tid s).options = s.options := by
  simp [MemCheck_off]

@[simp] theorem MemCheck_on_released (tid : Nat) (s : State) :
    (MemCheck_on tid s).released = s.released := by
  simp [MemCheck_on]

@[simp] theorem MemCheck_off_released (tid : Nat) (s : State) :
    (MemCheck_off tid s).released = s.released := by
  simp [MemCheck_off]

theorem lh_new_if_null_some {α : Type} (ok : Bool) (t : Option (List α)) (tbl : List α)
    (h : lh_new_if_null ok t = some tbl) : tbl = t.getD [] := by
  unfold lh_new_if_null at h
  cases t with
  | none =>
    by_cases hok : ok = true
    · simp [hok] at h; simp [h]
    · simp [hok] at h
  | some x => simp at h; simp [h]

theorem lh_new_if_null_none {α : Type} (ok : Bool) (t : Option (List α))
    (h : lh_new_if_null ok t = none) : t = none ∧ ok = false := by
  unfold lh_new_if_null at h
  cases t with
  | none =>
    by_cases hok : ok = true
    · simp [hok] at h
    · simp at hok; exact ⟨rfl, hok⟩
  | some x => simp at h

theorem addrs_lh_insert (m : MEM) (tbl : List MEM) :
    (∃ mm, (lh_insert (same_addr m) m tbl).1 = some mm ∧ mm ∈ tbl ∧ mm.addr = m.addr ∧
        (m :: tbl).Perm (mm :: (lh_insert (same_addr m) m tbl).2)) ∨
      ((lh_insert (same_addr m) m tbl).1 = none ∧ m.addr ∉ tbl.map MEM.addr ∧
        (lh_insert (same_addr m) m tbl).2 = tbl ++ [m]) := by
  cases h : (lh_insert (same_addr m) m tbl).1 with
  | none =>
    right
    refine ⟨rfl, ?_, lh_insert_of_none _ _ _ h⟩
    rw [lh_insert_fst, List.find?_eq_none] at h
    intro hmem
    obtain ⟨x, hx, hxa⟩ := List.mem_map.1 hmem
    exact h x hx ((same_addr_iff m x).2 hxa)
  | some mm =>
    left
    obtain ⟨h1, h2⟩ := lh_insert_same _ _ _ _ h
    exact ⟨mm, rfl, h2, (same_addr_iff m mm).1 h1, lh_insert_perm _ _ _ _ h⟩

theorem addrs_lh_delete (a : Nat) (tbl : List MEM) :
    (∃ mp, (lh_delete (same_addr (mem_key a)) tbl).1 = some mp ∧ mp.addr = a ∧
        tbl.Perm (mp :: (lh_delete (same_addr (mem_key a)) tbl).2)) ∨
      ((lh_delete (same_addr (mem_key a)) tbl).1 = none ∧ a ∉ tbl.map MEM.addr ∧
        (lh_delete (same_addr (mem_key a)) tbl).2 = tbl) := by
  cases h : (lh_delete (same_addr (mem_key a)) tbl).1 with
  | none =>
    right
    refine ⟨rfl, ?_, lh_delete_of_none _ _ h⟩
    rw [lh_delete_fst, List.find?_eq_none] at h
    intro hmem
    obtain ⟨x, hx, hxa⟩ := List.mem_map.1 hmem
    exact h x hx ((same_addr_iff (mem_key a) x).2 hxa)
  | some mp =>
    left
    have h1 := lh_delete_same _ _ _ h
    exact ⟨mp, rfl, (same_addr_iff (mem_key a) mp).1 h1, lh_delete_perm _ _ _ h⟩

theorem addrs_perm_lh_insert (m : MEM) (tbl : List MEM) (mm : MEM)
    (h : (lh_insert (same_addr m) m tbl).1 = some mm) :
    ((lh_insert (same_addr m) m tbl).2.map MEM.addr).Perm (tbl.map MEM.addr) := by
  obtain ⟨h1, _⟩ := lh_insert_same _ _ _ _ h
  have ha : mm.addr = m.addr := (same_addr_iff m mm).1 h1
  have hp := (lh_insert_perm _ _ _ _ h).map MEM.addr
  simp only [List.map_cons] at hp
  rw [ha] at hp
  exact (List.Perm.cons_inv hp).symm

/-- Membership of an address in the table after `lh_insert`. -/
theorem mem_addrs_lh_insert (m : MEM) (tbl : List MEM) (a : Nat) :
    a ∈ (lh_insert (same_addr m) m tbl).2.map MEM.addr ↔
      a = m.addr ∨ a ∈ tbl.map MEM.addr := by
  rcases addrs_lh_insert m tbl with ⟨mm, h, hmem, hma, _⟩ | ⟨_, _, heq⟩
  · rw [(addrs_perm_lh_insert m tbl mm h).mem_iff]
    have hmm : m.addr ∈ tbl.map MEM.addr := hma ▸ List.mem_map_of_mem _ hmem
    constructor
    · intro h1; exact Or.inr h1
    · rintro (h1 | h1)
      · rw [h1]; exact hmm
      · exact h1
  · rw [heq]
    simp only [List.map_append, List.map_cons, List.map_nil, List.mem_append,
      List.mem_singleton]
    tauto

theorem nodup_addrs_lh_insert (m : MEM) (tbl : List MEM)
    (hnd : (tbl.map MEM.addr).Nodup) :
    ((lh_insert (same_addr m) m tbl).2.map MEM.addr).Nodup := by
  rcases addrs_lh_insert m tbl with ⟨mm, h, _, _, _⟩ | ⟨_, hnot, heq⟩
  · exact (addrs_perm_lh_insert m tbl mm h).nodup_iff.2 hnd
  · rw [heq]
    simp only [List.map_append, List.map_cons, List.map_nil]
    rw [List.nodup_append]
    refine ⟨hnd, List.nodup_singleton _, ?_⟩
    intro a ha hb
    rw [List.mem_singleton] at hb
    exact hnot (hb ▸ ha)

theorem mem_addrs_lh_delete (a : Nat) (tbl : List MEM) (hnd : (tbl.map MEM.addr).Nodup)
    (b : Nat) :
    b ∈ (lh_delete (same_addr (mem_key a)) tbl).2.map MEM.addr ↔
      b ≠ a ∧ b ∈ tbl.map MEM.addr := by
  rcases addrs_lh_delete a tbl with ⟨mp, _, hma, hp⟩ | ⟨_, hnot, heq⟩
  · have hp2 := hp.map MEM.addr
    simp only [List.map_cons] at hp2
    have hnd2 := hp2.nodup_iff.1 hnd
    rw [List.nodup_cons] at hnd2
    rw [hp2.mem_iff, List.mem_cons, hma]
    constructor
    · intro h
      refine ⟨?_, Or.inr h⟩
      intro hba
      rw [hba] at h
      exact hnd2.1 (hma.symm ▸ h)
    · rintro ⟨h1, h2 | h2⟩
      · exact absurd h2 h1
      · exact h2
  · rw [heq]
    constructor
    · intro h
      exact ⟨fun hba => hnot (hba ▸ h), h⟩
    · exact fun h => h.2

theorem nodup_addrs_lh_delete (a : Nat) (tbl : List MEM)
    (hnd : (tbl.map MEM.addr).Nodup) :
    ((lh_delete (same_addr (mem_key a)) tbl).2.map MEM.addr).Nodup :=
  List.Nodup.sublist ((lh_delete_sublist _ tbl).map MEM.addr) hnd

theorem mem_lh_delete_snd (a : Nat) (tbl : List MEM) (x : MEM)
    (h : x ∈ (lh_delete (same_addr (mem_key a)) tbl).2) : x ∈ tbl :=
  (lh_delete_sublist _ tbl).subset h

/-! ### The table is well formed in every reachable state -/

theorem TableOK_of_mh_eq (s s1 : State) (h1 : s1.mh = s.mh) (h : TableOK s) :
    TableOK s1 := by
  unfold TableOK table_addrs table at h ⊢
  rw [h1]; exact h

theorem TableOK_dbg_malloc_record (e : Env) (addr : Nat) (num : Int) (file : String)
    (line : Int) (tbl : List MEM) (s : State) (h0 : addr ≠ 0)
    (hnd : (tbl.map MEM.addr).Nodup) (hz : 0 ∉ tbl.map MEM.addr) :
    TableOK (dbg_malloc_record e addr num file line tbl s) := by
  unfold TableOK table_addrs table dbg_malloc_record
  simp only [Option.getD_some]
  refine ⟨nodup_addrs_lh_insert _ tbl hnd, ?_⟩
  rw [mem_addrs_lh_insert]
  rintro (h | h)
  · exact h0 h.symm
  · exact hz h

theorem TableOK_dbg_free_record (addr : Nat) (tbl : List MEM) (s : State)
    (hs : TableOK s) (hnd : (tbl.map MEM.addr).Nodup) (hz : 0 ∉ tbl.map MEM.addr) :
    TableOK (dbg_free_record addr tbl s) := by
  unfold dbg_free_record
  split
  · rename_i mp tbl1 heq
    have h2 : tbl1 = (lh_delete (same_addr (mem_key addr)) tbl).2 := by rw [heq]
    unfold TableOK table_addrs table
    simp only [Option.getD_some]
    rw [h2]
    refine ⟨nodup_addrs_lh_delete addr tbl hnd, ?_⟩
    intro h
    exact hz (((lh_delete_sublist _ tbl).map MEM.addr).subset h)
  · exact hs

theorem TableOK_dbg_realloc_record (addr1 addr2 : Nat) (num : Int) (tbl : List MEM)
    (s : State) (h0 : addr2 ≠ 0)
    (hs : TableOK s) (hnd : (tbl.map MEM.addr).Nodup) (hz : 0 ∉ tbl.map MEM.addr) :
    TableOK (dbg_realloc_record addr1 addr2 num tbl s) := by
  unfold dbg_realloc_record
  split
  · rename_i mp tbl1 heq
    have h2 : tbl1 = (lh_delete (same_addr (mem_key addr1)) tbl).2 := by rw [heq]
    unfold TableOK table_addrs table
    simp only [Option.getD_some]
    rw [h2]
    refine ⟨nodup_addrs_lh_insert _ _ (nodup_addrs_lh_delete addr1 tbl hnd), ?_⟩
    rw [mem_addrs_lh_insert]
    rintro (h | h)
    · exact h0 h.symm
    · exact hz (((lh_delete_sublist _ tbl).map MEM.addr).subset h)
  · exact hs

theorem TableOK_tbl (s : State) (tbl : List MEM) (ok : Bool) (hs : TableOK s)
    (h : lh_new_if_null ok s.mh = some tbl) :
    (tbl.map MEM.addr).Nodup ∧ 0 ∉ tbl.map MEM.addr := by
  have h1 := lh_new_if_null_some ok s.mh tbl h
  unfold TableOK table_addrs table at hs
  rw [h1]; exact hs

theorem TableOK_dbg_malloc (e : Env) (addr : Nat) (num : Int) (file : String) (line : Int)
    (before_p : Nat) (s : State) (h : TableOK s) :
    TableOK (CRYPTO_dbg_malloc e addr num file line before_p s) := by
  unfold CRYPTO_dbg_malloc
  split_ifs with h1 h2 h3 h4
  · exact h
  · exact TableOK_of_mh_eq s _ (by simp [Free_addr]) h
  · dsimp only
    split
    · exact TableOK_of_mh_eq s _ (by simp [Free_addr]) h
    · rename_i tbl heq
      have hs1 : TableOK (MemCheck_off e.tid s) := TableOK_of_mh_eq s _ (by simp) h
      obtain ⟨hnd, hz⟩ := TableOK_tbl _ tbl _ hs1 heq
      exact TableOK_of_mh_eq _ _ (by simp)
        (TableOK_dbg_malloc_record e addr num file line tbl (MemCheck_off e.tid s) h2 hnd hz)
  · exact h
  · exact h

theorem TableOK_dbg_free (e : Env) (addr : Nat) (before_p : Nat) (s : State)
    (h : TableOK s) : TableOK (CRYPTO_dbg_free e addr before_p s) := by
  unfold CRYPTO_dbg_free
  split_ifs with h1 h2 h3
  · exact h
  · split
    · exact h
    · rename_i tbl heq
      have hs1 : TableOK (MemCheck_off e.tid s) := TableOK_of_mh_eq s _ (by simp) h
      have ht : (tbl.map MEM.addr).Nodup ∧ 0 ∉ tbl.map MEM.addr := by
        unfold TableOK table_addrs table at h
        rw [heq] at h; exact h
      exact TableOK_of_mh_eq _ _ (by simp)
        (TableOK_dbg_free_record addr tbl (MemCheck_off e.tid s) hs1 ht.1 ht.2)
  · exact h
  · exact h

theorem TableOK_dbg_realloc (e : Env) (addr1 addr2 : Nat) (num : Int) (file : String)
    (line : Int) (before_p : Nat) (s s1 : State) (h : TableOK s)
    (hr : CRYPTO_dbg_realloc e addr1 addr2 num file line before_p s = some s1) :
    TableOK s1 := by
  unfold CRYPTO_dbg_realloc at hr
  split_ifs at hr with h1 h2 h3 h4
  · simp only [Option.some.injEq] at hr; subst hr; exact h
  · simp only [Option.some.injEq] at hr; subst hr
    exact TableOK_dbg_malloc e addr2 num file line _ s h
  · dsimp only at hr
    split at hr
    · simp at hr
    · rename_i tbl heq
      simp only [Option.some.injEq] at hr; subst hr
      have hs1 : TableOK (MemCheck_off e.tid s) := TableOK_of_mh_eq s _ (by simp) h
      have ht : (tbl.map MEM.addr).Nodup ∧ 0 ∉ tbl.map MEM.addr := by
        unfold TableOK table_addrs table at hs1
        rw [heq] at hs1; exact hs1
      exact TableOK_of_mh_eq _ _ (by simp)
        (TableOK_dbg_realloc_record addr1 addr2 num tbl (MemCheck_off e.tid s) h2 hs1
          ht.1 ht.2)
  · simp only [Option.some.injEq] at hr; subst hr; exact h
  · simp only [Option.some.injEq] at hr; subst hr; exact h

theorem add_info_mh (e : Env) (file : String) (line : Int) (info : String) (s : State) :
    (CRYPTO_add_info e file line info s).2.mh = s.mh := by
  unfold CRYPTO_add_info
  split_ifs
  · simp
  · dsimp only
    split
    · simp
    · simp [(add_info_record_frame e file line info _ _).2.2.1]
  · rfl

theorem CRYPTO_remove_info_mh (e : Env) (s : State) :
    (CRYPTO_remove_info e s).2.mh = s.mh := by
  unfold CRYPTO_remove_info
  split_ifs
  · simp [(remove_info_frame e _).2.2.1]
  · rfl

theorem CRYPTO_remove_all_info_mh (fuel : Nat) (e : Env) (s : State) (r : Int × State)
    (hr : CRYPTO_remove_all_info fuel e s = some r) : r.2.mh = s.mh := by
  unfold CRYPTO_remove_all_info at hr
  split_ifs at hr
  · dsimp only at hr
    split at hr
    · simp at hr
    · rename_i ret s2 heq
      simp only [Option.some.injEq] at hr
      subst hr
      have hf := (remove_all_loop_frame e fuel 0 _ _ heq).2.2.1
      dsimp only at hf
      simp [hf]
  · simp only [Option.some.injEq] at hr
    subst hr; rfl

theorem TableOK_step (s : State) (op : Op) (s1 : State) (h : TableOK s)
    (hs : step s op = some s1) : TableOK s1 := by
  cases op with
  | mem_ctrl tid mode =>
    simp only [step, Option.some.injEq] at hs; subst hs
    exact TableOK_of_mh_eq s _ (by simp) h
  | set_options bits =>
    simp only [step, Option.some.injEq] at hs; subst hs
    exact TableOK_of_mh_eq s _ rfl h
  | add_info e file line info =>
    simp only [step, Option.some.injEq] at hs; subst hs
    exact TableOK_of_mh_eq s _ (add_info_mh e file line info s) h
  | remove_info e =>
    simp only [step, Option.some.injEq] at hs; subst hs
    exact TableOK_of_mh_eq s _ (CRYPTO_remove_info_mh e s) h
  | remove_all_info fuel e =>
    simp only [step, Option.map_eq_some'] at hs
    obtain ⟨r, hr, rfl⟩ := hs
    exact TableOK_of_mh_eq s _ (CRYPTO_remove_all_info_mh fuel e s r hr) h
  | dbg_malloc e addr num file line before_p =>
    simp only [step, Option.some.injEq] at hs; subst hs
    exact TableOK_dbg_malloc e addr num file line before_p s h
  | dbg_free e addr before_p =>
    simp only [step, Option.some.injEq] at hs; subst hs
    exact TableOK_dbg_free e addr before_p s h
  | dbg_realloc e addr1 addr2 num file line before_p =>
    simp only [step] at hs
    exact TableOK_dbg_realloc e addr1 addr2 num file line before_p s s1 h hs

theorem TableOK_init : TableOK init := by
  unfold TableOK table_addrs table init
  simp

theorem Reachable_TableOK (s : State) (h : Reachable s) : TableOK s := by
  obtain ⟨ops, hops⟩ := h
  exact run_invariant TableOK TableOK_step ops init s TableOK_init hops

/-! ## The hooks while tracking is active -/

/-- An operation that suspends, runs a body that leaves the mode alone, and resumes,
changes nothing but what the body changes. -/
theorem wrap_active (tid : Nat) (s : State) (body : State → State)
    (hb : ∀ x, (body x).mh_mode = x.mh_mode ∧ (body x).disabling_thread = x.disabling_thread)
    (hm : ModeOK s) (ha : CRYPTO_mem_check_on tid s = true) :
    MemCheck_on tid (body (MemCheck_off tid s)) =
      { body (MemCheck_off tid s) with
        mh_mode := s.mh_mode, disabling_thread := s.disabling_thread } := by
  obtain ⟨h1, h2, h3⟩ := check_on_of_ModeOK tid s hm ha
  have hoff := MemCheck_off_eq tid s h1 h2 h3
  have h4 : (body (MemCheck_off tid s)).mh_mode = 1 := by
    rw [(hb _).1, hoff]
  rw [MemCheck_on_eq tid _ h4, h1, h2]

theorem table_MemCheck_on (tid : Nat) (s : State) : table (MemCheck_on tid s) = table s := by
  simp [table]

theorem table_MemCheck_off (tid : Nat) (s : State) : table (MemCheck_off tid s) = table s := by
  simp [table]

theorem new_mem_MemCheck_off (e : Env) (addr : Nat) (num : Int) (file : String)
    (line : Int) (tid : Nat) (s : State) :
    new_mem e addr num file line (MemCheck_off tid s) = new_mem e addr num file line s := by
  simp [new_mem, current_info]

/-- The table after a successful `on_alloc` with tracking active. -/
theorem on_alloc_active (e : Env) (addr : Nat) (num : Int) (file : String) (line : Int)
    (s : State) (hm : ModeOK s) (ha : CRYPTO_mem_check_on e.tid s = true) (h0 : addr ≠ 0)
    (h1 : e.malloc_ok = true) (h2 : e.lh_new_ok = true) :
    on_alloc e addr num file line s =
      { dbg_malloc_record e addr num file line (table s) (MemCheck_off e.tid s) with
        mh_mode := s.mh_mode, disabling_thread := s.disabling_thread } := by
  unfold on_alloc CRYPTO_dbg_malloc
  have h127 : (1 : Nat) &&& 127 = 1 := by decide
  rw [if_pos h127, if_neg h0, if_pos ha]
  dsimp only
  rw [if_neg (by simp [h1])]
  have htbl : lh_new_if_null e.lh_new_ok (MemCheck_off e.tid s).mh = some (table s) := by
    unfold lh_new_if_null table
    rw [MemCheck_off_mh]
    cases s.mh with
    | none => simp [h2]
    | some t => simp
  rw [htbl]
  exact wrap_active e.tid s (dbg_malloc_record e addr num file line (table s))
    (fun x => ⟨(dbg_malloc_record_frame e addr num file line _ x).1,
      (dbg_malloc_record_frame e addr num file line _ x).2.1⟩) hm ha

/-- The result of `on_alloc` with tracking active when a bookkeeping allocation fails. -/
theorem on_alloc_failure (e : Env) (addr : Nat) (num : Int) (file : String) (line : Int)
    (s : State) (hm : ModeOK s) (ha : CRYPTO_mem_check_on e.tid s = true) (h0 : addr ≠ 0)
    (hfail : e.malloc_ok = false ∨ (s.mh = none ∧ e.lh_new_ok = false)) :
    on_alloc e addr num file line s = { s with released := addr :: s.released } := by
  have hw := wrap_active e.tid s (Free_addr addr) (fun _ => ⟨rfl, rfl⟩) hm ha
  obtain ⟨m1, m2, m3⟩ := check_on_of_ModeOK e.tid s hm ha
  have hres : MemCheck_on e.tid (Free_addr addr (MemCheck_off e.tid s)) =
      { s with released := addr :: s.released } := by
    rw [hw, MemCheck_off_eq e.tid s m1 m2 m3]
    rfl
  unfold on_alloc CRYPTO_dbg_malloc
  have h127 : (1 : Nat) &&& 127 = 1 := by decide
  rw [if_pos h127, if_neg h0, if_pos ha]
  dsimp only
  by_cases hmal : e.malloc_ok = false
  · rw [if_pos hmal]; exact hres
  · rw [if_neg hmal]
    rcases hfail with hf | ⟨hf1, hf2⟩
    · exact absurd hf hmal
    · have htbl : lh_new_if_null e.lh_new_ok (MemCheck_off e.tid s).mh = none := by
        unfold lh_new_if_null
        rw [MemCheck_off_mh, hf1, hf2]
        simp
      rw [htbl]
      exact hres

/-- The table after `on_free` with tracking active. -/
theorem on_free_active (e : Env) (addr : Nat) (s : State) (tbl : List MEM)
    (hm : ModeOK s) (ha : CRYPTO_mem_check_on e.tid s = true) (h0 : addr ≠ 0)
    (ht : s.mh = some tbl) :
    on_free e addr s =
      { dbg_free_record addr tbl (MemCheck_off e.tid s) with
        mh_mode := s.mh_mode, disabling_thread := s.disabling_thread } := by
  unfold on_free CRYPTO_dbg_free
  rw [if_pos rfl, if_neg h0, if_pos ha, ht]
  dsimp only
  exact wrap_active e.tid s (dbg_free_record addr tbl)
    (fun x => ⟨(dbg_free_record_frame addr tbl x).1,
      (dbg_free_record_frame addr tbl x).2.1⟩) hm ha

theorem on_free_no_table (e : Env) (addr : Nat) (s : State) (ht : s.mh = none) :
    on_free e addr s = s := by
  unfold on_free CRYPTO_dbg_free
  rw [ht]
  split_ifs <;> rfl

/-- The result of `on_realloc` with tracking active and an existing table. -/
theorem on_realloc_active (e : Env) (addr1 addr2 : Nat) (num : Int) (file : String)
    (line : Int) (s : State) (tbl : List MEM)
    (hm : ModeOK s) (ha : CRYPTO_mem_check_on e.tid s = true) (h1 : addr1 ≠ 0)
    (h2 : addr2 ≠ 0) (ht : s.mh = some tbl) :
    on_realloc e addr1 addr2 num file line s =
      some { dbg_realloc_record addr1 addr2 num tbl (MemCheck_off e.tid s) with
        mh_mode := s.mh_mode, disabling_thread := s.disabling_thread } := by
  unfold on_realloc CRYPTO_dbg_realloc
  rw [if_pos rfl, if_neg h2, if_neg h1, if_pos ha]
  dsimp only
  rw [MemCheck_off_mh, ht]
  dsimp only
  rw [wrap_active e.tid s (dbg_realloc_record addr1 addr2 num tbl)
    (fun x => ⟨(dbg_realloc_record_frame addr1 addr2 num tbl x).1,
      (dbg_realloc_record_frame addr1 addr2 num tbl x).2.1⟩) hm ha]

theorem table_dbg_malloc_record (e : Env) (addr : Nat) (num : Int) (file : String)
    (line : Int) (tbl : List MEM) (s : State) :
    (dbg_malloc_record e addr num file line tbl s).mh =
      some (lh_insert (same_addr (new_mem e addr num file line s))
        (new_mem e addr num file line s) tbl).2 := by
  simp [dbg_malloc_record]

theorem table_dbg_free_record (addr : Nat) (tbl : List MEM) (s : State)
    (ht : s.mh = some tbl) :
    (dbg_free_record addr tbl s).mh =
      some (lh_delete (same_addr (mem_key addr)) tbl).2 := by
  unfold dbg_free_record
  split
  · rename_i mp tbl1 heq
    simp [heq]
  · rename_i x heq
    have h1 : (lh_delete (same_addr (mem_key addr)) tbl).1 = none := by rw [heq]
    rw [lh_delete_of_none _ _ h1]
    exact ht

/-! ## Sequences of allocations and frees -/

theorem check_on_congr (tid : Nat) (s s1 : State) (h1 : s1.mh_mode = s.mh_mode)
    (h2 : s1.disabling_thread = s.disabling_thread) :
    CRYPTO_mem_check_on tid s1 = CRYPTO_mem_check_on tid s := by
  unfold CRYPTO_mem_check_on
  rw [h1, h2]

theorem allocated_not_freed_nil (a : Nat) : ¬ allocated_not_freed [] a := by
  rintro ⟨pre, post, tid, now, num, file, line, h, _⟩
  cases pre <;> simp at h

theorem allocated_not_freed_cons (ev : Event) (evs : List Event) (a : Nat) :
    allocated_not_freed (ev :: evs) a ↔
      allocated_not_freed evs a ∨
        ((ev.is_alloc = true ∧ ev.addr = a) ∧
          ∀ x ∈ evs, x.is_alloc = false → x.addr ≠ a) := by
  constructor
  · rintro ⟨pre, post, tid, now, num, file, line, h, hpost⟩
    cases pre with
    | nil =>
      simp only [List.nil_append, List.cons.injEq] at h
      obtain ⟨h1, h2⟩ := h
      right
      subst h1 h2
      exact ⟨⟨rfl, rfl⟩, hpost⟩
    | cons p pre1 =>
      simp only [List.cons_append, List.cons.injEq] at h
      obtain ⟨_, h2⟩ := h
      left
      exact ⟨pre1, post, tid, now, num, file, line, h2, hpost⟩
  · rintro (⟨pre, post, tid, now, num, file, line, h, hpost⟩ | ⟨⟨h1, h2⟩, h3⟩)
    · exact ⟨ev :: pre, post, tid, now, num, file, line, by rw [h]; rfl, hpost⟩
    · cases ev with
      | alloc tid now addr num file line =>
        simp only [Event.addr] at h2
        subst h2
        exact ⟨[], evs, tid, now, num, file, line, rfl, h3⟩
      | free tid addr => simp [Event.is_alloc] at h1

/-- One event with tracking active: the mode is as before and the keyed addresses gain
the allocated address or lose the freed one. -/
theorem apply_event_active (s : State) (ev : Event) (hm : ModeOK s) (ht : TableOK s)
    (ha : CRYPTO_mem_check_on ev.tid s = true) (h0 : ev.addr ≠ 0) :
    (apply_event s ev).mh_mode = s.mh_mode ∧
      (apply_event s ev).disabling_thread = s.disabling_thread ∧
      ∀ a, a ∈ table_addrs (apply_event s ev) ↔
        (ev.is_alloc = true ∧ (a = ev.addr ∨ a ∈ table_addrs s)) ∨
          (ev.is_alloc = false ∧ a ≠ ev.addr ∧ a ∈ table_addrs s) := by
  cases ev with
  | alloc tid now addr num file line =>
    simp only [Event.tid] at ha
    simp only [Event.addr] at h0
    have heq := on_alloc_active { tid := tid, now := now, malloc_ok := true, lh_new_ok := true }
      addr num file line s hm ha h0 rfl rfl
    simp only [apply_event]
    rw [heq]
    refine ⟨rfl, rfl, ?_⟩
    intro a
    unfold table_addrs table
    simp only [table_dbg_malloc_record, Option.getD_some, Event.is_alloc, Event.addr]
    rw [mem_addrs_lh_insert]
    simp [new_mem, table]
  | free tid addr =>
    simp only [Event.tid] at ha
    simp only [Event.addr] at h0
    simp only [apply_event]
    cases hmh : s.mh with
    | none =>
      rw [on_free_no_table _ addr s hmh]
      refine ⟨rfl, rfl, ?_⟩
      intro a
      simp [table_addrs, table, hmh, Event.is_alloc]
    | some tbl =>
      have heq := on_free_active { tid := tid, now := 0, malloc_ok := true, lh_new_ok := true }
        addr s tbl hm ha h0 hmh
      rw [heq]
      refine ⟨rfl, rfl, ?_⟩
      intro a
      have hnd : (tbl.map MEM.addr).Nodup := by
        have := ht.1
        unfold table_addrs table at this
        rw [hmh] at this
        exact this
      unfold table_addrs table
      simp only
      rw [table_dbg_free_record addr tbl _ (by simp [hmh])]
      simp only [Option.getD_some, Event.is_alloc, Event.addr]
      rw [mem_addrs_lh_delete addr tbl hnd, hmh]
      simp

theorem apply_event_ModeOK (s : State) (ev : Event) (hm : ModeOK s) :
    ModeOK (apply_event s ev) := by
  cases ev with
  | alloc tid now addr num file line => exact ModeOK_dbg_malloc _ _ _ _ _ _ s hm
  | free tid addr => exact ModeOK_dbg_free _ _ _ s hm

theorem apply_event_TableOK (s : State) (ev : Event) (ht : TableOK s) :
    TableOK (apply_event s ev) := by
  cases ev with
  | alloc tid now addr num file line => exact TableOK_dbg_malloc _ _ _ _ _ _ s ht
  | free tid addr => exact TableOK_dbg_free _ _ _ s ht

theorem table_addrs_apply_events (evs : List Event) :
    ∀ s : State, ModeOK s → TableOK s →
      (∀ ev ∈ evs, CRYPTO_mem_check_on ev.tid s = true) → (∀ ev ∈ evs, ev.addr ≠ 0) →
      ∀ a, a ∈ table_addrs (apply_events s evs) ↔
        allocated_not_freed evs a ∨
          (a ∈ table_addrs s ∧ ∀ x ∈ evs, x.is_alloc = false → x.addr ≠ a) := by
  induction evs with
  | nil =>
    intro s _ _ _ _ a
    simp [apply_events, allocated_not_freed_nil]
  | cons ev evs ih =>
    intro s hm ht hact hnn a
    have ha := hact ev (List.mem_cons_self _ _)
    have h0 := hnn ev (List.mem_cons_self _ _)
    obtain ⟨e1, e2, e3⟩ := apply_event_active s ev hm ht ha h0
    have hact1 : ∀ x ∈ evs, CRYPTO_mem_check_on x.tid (apply_event s ev) = true := by
      intro x hx
      rw [check_on_congr x.tid s _ e1 e2]
      exact hact x (List.mem_cons_of_mem _ hx)
    have hnn1 : ∀ x ∈ evs, x.addr ≠ 0 := fun x hx => hnn x (List.mem_cons_of_mem _ hx)
    have := ih (apply_event s ev) (apply_event_ModeOK s ev hm) (apply_event_TableOK s ev ht)
      hact1 hnn1 a
    unfold apply_events
    rw [this, allocated_not_freed_cons, e3 a]
    simp only [List.mem_cons, forall_eq_or_imp]
    cases hal : ev.is_alloc <;> simp <;> tauto

/-! ## Claims about the allocation table -/

/-- C1: for every sequence of `on_alloc` and `on_free` calls with non-null addresses,
issued from a reachable state with an empty table by threads for which tracking is
active, all bookkeeping allocations succeeding, an address is keyed in the allocation
table afterwards exactly when it was allocated and not freed afterwards. -/
theorem C1_table_is_allocated_not_freed (s0 : State) (evs : List Event) (a : Nat)
    (hr : Reachable s0) (he : table_addrs s0 = [])
    (hact : ∀ ev ∈ evs, CRYPTO_mem_check_on ev.tid s0 = true)
    (hnn : ∀ ev ∈ evs, ev.addr ≠ 0) :
    a ∈ table_addrs (apply_events s0 evs) ↔ allocated_not_freed evs a := by
  rw [table_addrs_apply_events evs s0 (Reachable_ModeOK s0 hr) (Reachable_TableOK s0 hr)
    hact hnn a, he]
  simp

/-- C1 at two allocations and the release of the first: only the second address is
keyed afterwards. -/
theorem C1_table_is_allocated_not_freed_witness :
    (0x200 ∈ table_addrs (apply_events example_on example_events) ↔
        allocated_not_freed example_events 0x200) ∧
      table_addrs (apply_events example_on example_events) = [0x200] :=
  ⟨C1_table_is_allocated_not_freed example_on example_events 0x200
      ⟨[Op.mem_ctrl 1 1], rfl⟩ (by decide) (by decide) (by decide),
    by decide⟩

theorem eq_of_addr_eq (tbl : List MEM) (hnd : (tbl.map MEM.addr).Nodup) (x y : MEM)
    (hx : x ∈ tbl) (hy : y ∈ tbl) (h : x.addr = y.addr) : x = y :=
  List.inj_on_of_nodup_map hnd hx hy h

/-- C2: for a reachable state in which `r` is the record of address `old`, and a
non-null address `new` that is `old` itself or not keyed, `on_realloc` with tracking
active returns, the records keyed by `new` afterwards are exactly the one record `r`
with its address set to `new` and its size to `num` (file, line, order, thread, time
and annotation reference as in `r`), and `old` is no longer keyed when it differs
from `new`. -/
theorem C2_realloc_preserves_identity (e : Env) (s : State) (old new : Nat) (num : Int)
    (file2 : String) (line2 : Int) (r : MEM)
    (hr : Reachable s) (ha : CRYPTO_mem_check_on e.tid s = true)
    (hold : r ∈ table s) (hro : r.addr = old) (hn0 : new ≠ 0)
    (hnew : new = old ∨ new ∉ table_addrs s) :
    ∃ s1, on_realloc e old new num file2 line2 s = some s1 ∧
      (table s1).filter (fun m => m.addr == new) = [{ r with addr := new, num := num }] ∧
      (old ≠ new → old ∉ table_addrs s1) := by
  have hm := Reachable_ModeOK s hr
  have ht := Reachable_TableOK s hr
  cases hmh : s.mh with
  | none => simp [table, hmh] at hold
  | some tbl =>
    have htbl : table s = tbl := by simp [table, hmh]
    rw [htbl] at hold
    have hnd : (tbl.map MEM.addr).Nodup := by
      have := ht.1
      rwa [table_addrs, htbl] at this
    have hz : 0 ∉ tbl.map MEM.addr := by
      have := ht.2
      rwa [table_addrs, htbl] at this
    have hold0 : old ≠ 0 := by
      intro h
      apply hz
      rw [← h, ← hro]
      exact List.mem_map_of_mem _ hold
    refine ⟨_, on_realloc_active e old new num file2 line2 s tbl hm ha hold0 hn0 hmh, ?_⟩
    rcases addrs_lh_delete old tbl with ⟨mp, h1, h2, h3⟩ | ⟨_, h2, _⟩
    · have hmp : mp = r := by
        apply eq_of_addr_eq tbl hnd mp r (h3.mem_iff.2 (List.mem_cons_self _ _)) hold
        rw [h2, hro]
      subst hmp
      have hdel : lh_delete (same_addr (mem_key old)) tbl =
          (some mp, (lh_delete (same_addr (mem_key old)) tbl).2) := by
        rw [← h1]
      have hnew1 : new ∉ (lh_delete (same_addr (mem_key old)) tbl).2.map MEM.addr := by
        rw [mem_addrs_lh_delete old tbl hnd]
        rintro ⟨h4, h5⟩
        rcases hnew with h6 | h6
        · exact h4 h6
        · apply h6
          rw [table_addrs, htbl]; exact h5
      have hold1 : old ∉ (lh_delete (same_addr (mem_key old)) tbl).2.map MEM.addr := by
        rw [mem_addrs_lh_delete old tbl hnd]
        exact fun h => h.1 rfl
      have hins : (lh_insert (same_addr { mp with addr := new, num := num })
          { mp with addr := new, num := num }
          (lh_delete (same_addr (mem_key old)) tbl).2).2 =
          (lh_delete (same_addr (mem_key old)) tbl).2 ++
            [{ mp with addr := new, num := num }] := by
        rcases addrs_lh_insert { mp with addr := new, num := num }
          (lh_delete (same_addr (mem_key old)) tbl).2 with ⟨mm, _, hmem, hma, _⟩ | ⟨_, _, h⟩
        · have hmm : mm.addr ∈ (lh_delete (same_addr (mem_key old)) tbl).2.map MEM.addr :=
            List.mem_map_of_mem MEM.addr hmem
          rw [hma] at hmm
          exact absurd hmm hnew1
        · exact h
      have hres : table { dbg_realloc_record old new num tbl (MemCheck_off e.tid s) with
          mh_mode := s.mh_mode, disabling_thread := s.disabling_thread } =
          (lh_delete (same_addr (mem_key old)) tbl).2 ++
            [{ mp with addr := new, num := num }] := by
        unfold dbg_realloc_record
        rw [hdel]
        simp only [table, Option.getD_some]
        exact hins
      rw [table_addrs, hres]
      constructor
      · rw [List.filter_append]
        have hnone : (lh_delete (same_addr (mem_key old)) tbl).2.filter
            (fun m => m.addr == new) = [] := by
          rw [List.filter_eq_nil_iff]
          intro m hm1 hm2
          apply hnew1
          rw [beq_iff_eq] at hm2
          exact hm2 ▸ List.mem_map_of_mem MEM.addr hm1
        rw [hnone]
        simp
      · intro hne
        simp only [List.map_append, List.map_cons, List.map_nil, List.mem_append,
          List.mem_singleton, not_or]
        exact ⟨hold1, hne⟩
    · exact absurd (hro ▸ List.mem_map_of_mem MEM.addr hold) h2

/-- C2 at the scenario `on_alloc(0x100, 10, "f.c", 5)` then
`on_realloc(0x100, 0x200, 20, "f.c", 9)`: one record, at 0x200, of size 20, with line 5
and the sequence number 0 of the allocation. -/
theorem C2_realloc_preserves_identity_witness :
    (∃ s1, on_realloc example_env 0x100 0x200 20 "f.c" 9
          (on_alloc example_env 0x100 10 "f.c" 5 example_on) = some s1 ∧
        (table s1).filter (fun m => m.addr == 0x200) =
          [{ addr := 0x200, num := 20, file := "f.c", line := 5, thread := 1, order := 0,
             time := 0, app_info := none }] ∧
        (0x100 ≠ 0x200 → 0x100 ∉ table_addrs s1)) ∧
      (on_realloc example_env 0x100 0x200 20 "f.c" 9
          (on_alloc example_env 0x100 10 "f.c" 5 example_on)).map table =
        some [{ addr := 0x200, num := 20, file := "f.c", line := 5, thread := 1, order := 0,
                time := 0, app_info := none }] :=
  ⟨C2_realloc_preserves_identity example_env
      (on_alloc example_env 0x100 10 "f.c" 5 example_on) 0x100 0x200 20 "f.c" 9
      { addr := 0x100, num := 10, file := "f.c", line := 5, thread := 1, order := 0,
        time := 0, app_info := none }
      ⟨[Op.mem_ctrl 1 1, Op.dbg_malloc example_env 0x100 10 "f.c" 5 1], rfl⟩
      (by decide) (by decide) rfl (by decide) (by decide),
    by decide⟩

/-- C3 on the code: in the fresh state with tracking turned on by thread 1,
`on_alloc(0x100, 10, "f.c", 5)` with `Malloc` of the record failing, and likewise with
`lh_new` failing, passes the caller's address 0x100 to `Free`; no record is added and
tracking is active again. -/
theorem C3_failure_releases_block :
    run init [Op.mem_ctrl 1 1] = some example_on ∧
      CRYPTO_mem_check_on 1 example_on = true ∧ example_on.released = [] ∧
      (on_alloc example_env_no_malloc 0x100 10 "f.c" 5 example_on).released = [0x100] ∧
      (on_alloc example_env_no_table 0x100 10 "f.c" 5 example_on).released = [0x100] ∧
      table (on_alloc example_env_no_malloc 0x100 10 "f.c" 5 example_on) = [] ∧
      table (on_alloc example_env_no_table 0x100 10 "f.c" 5 example_on) = [] ∧
      CRYPTO_mem_check_on 1 (on_alloc example_env_no_malloc 0x100 10 "f.c" 5 example_on) =
        true ∧
      CRYPTO_mem_check_on 1 (on_alloc example_env_no_table 0x100 10 "f.c" 5 example_on) =
        true := by
  decide

/-! ## The leak report -/

set_option maxRecDepth 100000 in
/-- The report on a record whose file name has 1024 characters: the main line does not
fit `buf` and the report has no result. -/
theorem report_long_file_name :
    CRYPTO_mem_leaks example_localtime
        (apply_events (CRYPTO_mem_ctrl 1 1 init).2 example_alloc_long_file) example_sink =
      none := by
  decide

/-- The report where `localtime` returns `NULL` while the time option is set: the main
line has no text and the report has no result. -/
theorem report_localtime_null :
    CRYPTO_mem_leaks (fun _ => none)
        (apply_events (CRYPTO_mem_ctrl 1 1 init).2 example_allocs) example_sink = none := by
  decide

/-! ## The heap of annotation records -/

theorem countP_set_add {α : Type} (p : α → Bool) (l : List α) :
    ∀ (i : Nat) (x d : α), i < l.length →
      (l.set i x).countP p + (if p (l.getD i d) then 1 else 0) =
        l.countP p + (if p x then 1 else 0) := by
  induction l with
  | nil => intro i x d h; simp at h
  | cons y ys ih =>
    intro i x d h
    cases i with
    | zero =>
      simp only [List.set_cons_zero, List.countP_cons, List.getD_cons_zero]
      omega
    | succ n =>
      simp only [List.set_cons_succ, List.countP_cons, List.getD_cons_succ]
      have := ih n x d (by simpa using h)
      omega

theorem length_heap_upd (heap : List APP_INFO) (p : Nat) (f : APP_INFO → APP_INFO) :
    (heap_upd heap p f).length = heap.length := by
  simp [heap_upd]

theorem deref_heap_upd_self (heap : List APP_INFO) (p : Nat) (f : APP_INFO → APP_INFO)
    (h : p < heap.length) : deref (heap_upd heap p f) p = f (deref heap p) := by
  simp [heap_upd, deref, List.getD_eq_getElem?_getD, List.getElem?_set, h]

theorem deref_heap_upd_ne (heap : List APP_INFO) (p : Nat) (f : APP_INFO → APP_INFO)
    (j : Nat) (h : j ≠ p) : deref (heap_upd heap p f) j = deref heap j := by
  have h1 : ¬ (p = j) := fun h2 => h h2.symm
  simp [heap_upd, deref, List.getD_eq_getElem?_getD, List.getElem?_set, h1]

theorem cnt_par_heap_upd (heap : List APP_INFO) (p : Nat) (f : APP_INFO → APP_INFO)
    (q : Nat) (h : p < heap.length) :
    cnt_par (heap_upd heap p f) q + (if links_to q (deref heap p) then 1 else 0) =
      cnt_par heap q + (if links_to q (f (deref heap p)) then 1 else 0) :=
  countP_set_add (links_to q) heap p _ default h

theorem length_heap_push (heap : List APP_INFO) (c : APP_INFO) :
    (heap ++ [c]).length = heap.length + 1 := by
  simp

theorem deref_heap_push_old (heap : List APP_INFO) (c : APP_INFO) (j : Nat)
    (h : j < heap.length) : deref (heap ++ [c]) j = deref heap j := by
  simp [deref, List.getD_eq_getElem?_getD, List.getElem?_append_left h]

theorem deref_heap_push_new (heap : List APP_INFO) (c : APP_INFO) :
    deref (heap ++ [c]) heap.length = c := by
  simp [deref, List.getD_eq_getElem?_getD]

theorem cnt_par_heap_push (heap : List APP_INFO) (c : APP_INFO) (q : Nat) :
    cnt_par (heap ++ [c]) q = cnt_par heap q + (if links_to q c then 1 else 0) := by
  simp [cnt_par, List.countP_append, List.countP_cons]

/-- Changing only the reference count of a record changes no `links_to`. -/
theorem links_to_refs (q : Nat) (c : APP_INFO) (r : Int) :
    links_to q { c with references := r } = links_to q c := rfl

theorem cnt_par_incr_ref (heap : List APP_INFO) (p q : Nat) :
    cnt_par (incr_ref heap p) q = cnt_par heap q := by
  by_cases h : p < heap.length
  · have := cnt_par_heap_upd heap p (fun c => { c with references := c.references + 1 }) q h
    have e : links_to q ((fun c : APP_INFO => { c with references := c.references + 1 })
        (deref heap p)) = links_to q (deref heap p) := rfl
    rw [e] at this
    unfold incr_ref
    omega
  · unfold incr_ref heap_upd
    rw [List.set_eq_of_length_le (by omega)]

theorem cnt_par_decr_ref (heap : List APP_INFO) (p q : Nat) :
    cnt_par (decr_ref heap p) q = cnt_par heap q := by
  by_cases h : p < heap.length
  · have := cnt_par_heap_upd heap p (fun c => { c with references := c.references - 1 }) q h
    have e : links_to q ((fun c : APP_INFO => { c with references := c.references - 1 })
        (deref heap p)) = links_to q (deref heap p) := rfl
    rw [e] at this
    unfold decr_ref
    omega
  · unfold decr_ref heap_upd
    rw [List.set_eq_of_length_le (by omega)]

theorem length_incr_ref (heap : List APP_INFO) (p : Nat) :
    (incr_ref heap p).length = heap.length := length_heap_upd _ _ _

theorem length_decr_ref (heap : List APP_INFO) (p : Nat) :
    (decr_ref heap p).length = heap.length := length_heap_upd _ _ _

/-- The fields of a record after `p->references++` on the heap. -/
theorem deref_incr_ref (heap : List APP_INFO) (p j : Nat) (hp : p < heap.length) :
    deref (incr_ref heap p) j =
      { deref heap j with
        references := (deref heap j).references + (if j = p then 1 else 0) } := by
  by_cases h : j = p
  · subst h
    rw [incr_ref, deref_heap_upd_self _ _ _ hp]
    simp
  · rw [incr_ref, deref_heap_upd_ne _ _ _ _ h]
    simp [h]

/-- The fields of a record after `p->references--` on the heap. -/
theorem deref_decr_ref (heap : List APP_INFO) (p j : Nat) (hp : p < heap.length) :
    deref (decr_ref heap p) j =
      { deref heap j with
        references := (deref heap j).references - (if j = p then 1 else 0) } := by
  by_cases h : j = p
  · subst h
    rw [decr_ref, deref_heap_upd_self _ _ _ hp]
    simp
  · rw [decr_ref, deref_heap_upd_ne _ _ _ _ h]
    simp [h]

/-! ## Reference counts under the hooks -/

theorem countP_eq_of_pointwise {α : Type} (p : α → Bool) (d : α) (l : List α) :
    ∀ l1 : List α, l1.length = l.length →
      (∀ j, j < l.length → p (l1.getD j d) = p (l.getD j d)) →
      l1.countP p = l.countP p := by
  induction l with
  | nil =>
    intro l1 hlen _
    rw [List.length_nil, List.length_eq_zero] at hlen
    rw [hlen]
  | cons x xs ih =>
    intro l1 hlen h
    cases l1 with
    | nil => simp at hlen
    | cons y ys =>
      have h0 := h 0 (by simp)
      simp only [List.getD_cons_zero] at h0
      have h1 := ih ys (by simpa using hlen) (fun j hj => by
        have := h (j + 1) (by simpa using hj)
        simpa only [List.getD_cons_succ] using this)
      simp only [List.countP_cons, h0, h1]

/-- Two heaps whose records agree in `next` and `freed` have the same link counts. -/
theorem cnt_par_eq_of_shape (heap heap1 : List APP_INFO) (q : Nat)
    (hlen : heap1.length = heap.length)
    (hsh : ∀ j, (deref heap1 j).next = (deref heap j).next ∧
      (deref heap1 j).freed = (deref heap j).freed) :
    cnt_par heap1 q = cnt_par heap q := by
  apply countP_eq_of_pointwise (links_to q) default heap heap1 hlen
  intro j _
  have := hsh j
  unfold deref at this
  unfold links_to
  rw [this.1, this.2]

theorem live_of_shape (heap heap1 : List APP_INFO) (p : Nat)
    (hlen : heap1.length = heap.length)
    (hsh : ∀ j, (deref heap1 j).next = (deref heap j).next ∧
      (deref heap1 j).freed = (deref heap j).freed) :
    live heap1 p ↔ live heap p := by
  unfold live
  rw [hlen, (hsh p).2]

/-- The invariant carries over to a state whose heap has the same shape, once the new
table, the new annotation table and the new counts are accounted for. -/
theorem HeapInv_of_shape (s s1 : State) (h : HeapInv s)
    (hlen : s1.heap.length = s.heap.length)
    (hsh : ∀ j, (deref s1.heap j).next = (deref s.heap j).next ∧
      (deref s1.heap j).freed = (deref s.heap j).freed)
    (hA : ∀ m ∈ table s1, ∀ q, m.app_info = some q → live s.heap q)
    (hC : ∀ p ∈ heads s1, live s.heap p)
    (hD : ∀ q, live s.heap q →
      (cnt_mem (table s1) q : Int) + (cnt_par s.heap q : Int) + ((heads s1).count q : Int) ≤
        (deref s1.heap q).references) :
    HeapInv s1 := by
  obtain ⟨_, hB, _, _⟩ := h
  refine ⟨?_, ?_, ?_, ?_⟩
  · intro m hm q hq
    exact (live_of_shape _ _ q hlen hsh).2 (hA m hm q hq)
  · intro p hp q hq
    rw [live_of_shape _ _ p hlen hsh] at hp
    rw [(hsh p).1] at hq
    obtain ⟨h1, h2⟩ := hB p hp q hq
    exact ⟨h1, (live_of_shape _ _ q hlen hsh).2 h2⟩
  · intro p hp
    exact (live_of_shape _ _ p hlen hsh).2 (hC p hp)
  · intro q hq
    rw [live_of_shape _ _ q hlen hsh] at hq
    rw [cnt_par_eq_of_shape _ _ q hlen hsh]
    exact hD q hq

/-- The heap after `if (p != NULL) p->references++`. -/
theorem deref_incr_opt (heap : List APP_INFO) (a : Option Nat)
    (ha : ∀ x, a = some x → x < heap.length) :
    (incr_ref_opt heap a).length = heap.length ∧
    ∀ j, deref (incr_ref_opt heap a) j =
        { deref heap j with
          references := (deref heap j).references + (if a = some j then 1 else 0) } := by
  cases a with
  | none => simp [incr_ref_opt]
  | some x =>
    refine ⟨length_incr_ref _ _, fun j => ?_⟩
    simp only [incr_ref_opt]
    rw [deref_incr_ref heap x j (ha x rfl)]
    by_cases h : j = x
    · subst h; simp
    · have h1 : ¬ (x = j) := fun h2 => h h2.symm
      simp [h, h1]

/-- The heap after `if (p != NULL) p->references--`. -/
theorem deref_decr_opt (heap : List APP_INFO) (a : Option Nat)
    (ha : ∀ x, a = some x → x < heap.length) :
    (decr_ref_opt heap a).length = heap.length ∧
    ∀ j, deref (decr_ref_opt heap a) j =
        { deref heap j with
          references := (deref heap j).references - (if a = some j then 1 else 0) } := by
  cases a with
  | none => simp [decr_ref_opt]
  | some x =>
    refine ⟨length_decr_ref _ _, fun j => ?_⟩
    simp only [decr_ref_opt]
    rw [deref_decr_ref heap x j (ha x rfl)]
    by_cases h : j = x
    · subst h; simp
    · have h1 : ¬ (x = j) := fun h2 => h h2.symm
      simp [h, h1]

theorem cnt_mem_cons (m : MEM) (tbl : List MEM) (q : Nat) :
    cnt_mem (m :: tbl) q = cnt_mem tbl q + (if m.app_info = some q then 1 else 0) := by
  simp [cnt_mem, List.countP_cons]

theorem cnt_mem_perm (l l1 : List MEM) (q : Nat) (h : l.Perm l1) :
    cnt_mem l q = cnt_mem l1 q :=
  h.countP_eq _

theorem cnt_mem_append_one (m : MEM) (tbl : List MEM) (q : Nat) :
    cnt_mem (tbl ++ [m]) q = cnt_mem tbl q + (if m.app_info = some q then 1 else 0) := by
  simp [cnt_mem, List.countP_append, List.countP_cons]

/-- The count of records pointing to `q` after `lh_insert` of `m`. -/
theorem cnt_mem_lh_insert (m : MEM) (tbl : List MEM) (q : Nat) :
    cnt_mem (lh_insert (same_addr m) m tbl).2 q +
        (if ((lh_insert (same_addr m) m tbl).1.bind MEM.app_info) = some q then 1 else 0) =
      cnt_mem tbl q + (if m.app_info = some q then 1 else 0) := by
  rcases addrs_lh_insert m tbl with ⟨mm, h1, _, _, hp⟩ | ⟨h1, _, h2⟩
  · have := cnt_mem_perm _ _ q hp
    rw [cnt_mem_cons, cnt_mem_cons] at this
    rw [h1]
    simp only [Option.some_bind]
    omega
  · rw [h1, h2, cnt_mem_append_one]
    simp

/-- The count of records pointing to `q` after `lh_delete` of the record of `a`. -/
theorem cnt_mem_lh_delete (a : Nat) (tbl : List MEM) (q : Nat) :
    cnt_mem (lh_delete (same_addr (mem_key a)) tbl).2 q +
        (if ((lh_delete (same_addr (mem_key a)) tbl).1.bind MEM.app_info) = some q
          then 1 else 0) =
      cnt_mem tbl q := by
  rcases addrs_lh_delete a tbl with ⟨mp, h1, _, hp⟩ | ⟨h1, _, h2⟩
  · have := cnt_mem_perm _ _ q hp
    rw [cnt_mem_cons] at this
    rw [h1]
    simp only [Option.some_bind]
    omega
  · rw [h1, h2]
    simp

theorem mem_lh_insert_snd {α : Type} (same : α → Bool) (x : α) (l : List α) (y : α)
    (h : y ∈ (lh_insert same x l).2) : y = x ∨ y ∈ l := by
  cases h1 : (lh_insert same x l).1 with
  | none =>
    rw [lh_insert_of_none same x l h1] at h
    simp only [List.mem_append, List.mem_singleton] at h
    tauto
  | some z =>
    have hp := lh_insert_perm same x l z h1
    have : y ∈ z :: (lh_insert same x l).2 := List.mem_cons_of_mem _ h
    rw [← hp.mem_iff] at this
    simpa using this

theorem HeapInv_of_eq (s s1 : State) (h1 : s1.mh = s.mh) (h2 : s1.amih = s.amih)
    (h3 : s1.heap = s.heap) (h : HeapInv s) : HeapInv s1 := by
  unfold HeapInv heads table at h ⊢
  rw [h1, h2, h3]; exact h

theorem current_info_mem (e : Env) (s : State) (x : Nat) (h : current_info e s = some x) :
    x ∈ heads s := by
  unfold current_info at h
  unfold heads
  cases hamih : s.amih with
  | none => rw [hamih] at h; simp at h
  | some atbl =>
    rw [hamih] at h
    simp only [Option.getD_some]
    exact List.mem_of_find?_eq_some h

theorem dbg_malloc_record_heap (e : Env) (addr : Nat) (num : Int) (file : String)
    (line : Int) (tbl : List MEM) (s : State) :
    (dbg_malloc_record e addr num file line tbl s).heap =
      decr_ref_opt (incr_ref_opt s.heap (current_info e s))
        ((lh_insert (same_addr (new_mem e addr num file line s))
          (new_mem e addr num file line s) tbl).1.bind MEM.app_info) := rfl

theorem HeapInv_dbg_malloc_record (e : Env) (addr : Nat) (num : Int) (file : String)
    (line : Int) (s : State) (h : HeapInv s) :
    HeapInv (dbg_malloc_record e addr num file line (table s) s) := by
  have hinv := h
  obtain ⟨hA, hB, hC, hD⟩ := h
  have ha : ∀ x, current_info e s = some x → live s.heap x :=
    fun x hx => hC x (current_info_mem e s x hx)
  have hb : ∀ x, (lh_insert (same_addr (new_mem e addr num file line s))
      (new_mem e addr num file line s) (table s)).1.bind MEM.app_info = some x →
      live s.heap x := by
    intro x hx
    cases h1 : (lh_insert (same_addr (new_mem e addr num file line s))
        (new_mem e addr num file line s) (table s)).1 with
    | none => rw [h1] at hx; simp at hx
    | some mm =>
      rw [h1] at hx
      simp only [Option.some_bind] at hx
      exact hA mm (lh_insert_same _ _ _ _ h1).2 x hx
  obtain ⟨i1, i2⟩ := deref_incr_opt s.heap (current_info e s) (fun x hx => (ha x hx).1)
  obtain ⟨d1, d2⟩ := deref_decr_opt
    (incr_ref_opt s.heap (current_info e s))
    ((lh_insert (same_addr (new_mem e addr num file line s))
      (new_mem e addr num file line s) (table s)).1.bind MEM.app_info)
    (fun x hx => by rw [i1]; exact (hb x hx).1)
  have hheap := dbg_malloc_record_heap e addr num file line (table s) s
  have htab : table (dbg_malloc_record e addr num file line (table s) s) =
      (lh_insert (same_addr (new_mem e addr num file line s))
        (new_mem e addr num file line s) (table s)).2 := by
    simp [table, table_dbg_malloc_record]
  have hheads : heads (dbg_malloc_record e addr num file line (table s) s) = heads s := by
    unfold heads
    rw [(dbg_malloc_record_frame e addr num file line (table s) s).2.2.1]
  apply HeapInv_of_shape s _ hinv
  · rw [hheap, d1, i1]
  · intro j
    rw [hheap, d2 j, i2 j]
    exact ⟨rfl, rfl⟩
  · intro m hm q hq
    rw [htab] at hm
    rcases mem_lh_insert_snd _ _ _ _ hm with h1 | h1
    · rw [h1] at hq
      exact ha q hq
    · exact hA m h1 q hq
  · intro p hp
    rw [hheads] at hp
    exact hC p hp
  · intro q hq
    rw [htab, hheads, hheap, d2 q, i2 q]
    have hcnt := cnt_mem_lh_insert (new_mem e addr num file line s) (table s) q
    have hinfo : (new_mem e addr num file line s).app_info = current_info e s := rfl
    rw [hinfo] at hcnt
    have := hD q hq
    simp only
    split_ifs at hcnt ⊢ <;> omega

theorem dbg_free_record_heap (addr : Nat) (tbl : List MEM) (s : State) :
    (dbg_free_record addr tbl s).heap =
      decr_ref_opt s.heap ((lh_delete (same_addr (mem_key addr)) tbl).1.bind MEM.app_info) := by
  unfold dbg_free_record
  split
  · rename_i mp tbl1 heq
    rw [heq]
    rfl
  · rename_i x heq
    rw [heq]
    rfl

theorem HeapInv_dbg_free_record (addr : Nat) (s : State) (tbl : List MEM)
    (ht : s.mh = some tbl) (h : HeapInv s) :
    HeapInv (dbg_free_record addr tbl s) := by
  have hinv := h
  obtain ⟨hA, hB, hC, hD⟩ := h
  have htbl : table s = tbl := by simp [table, ht]
  have hb : ∀ x, (lh_delete (same_addr (mem_key addr)) tbl).1.bind MEM.app_info = some x →
      live s.heap x := by
    intro x hx
    cases h1 : (lh_delete (same_addr (mem_key addr)) tbl).1 with
    | none => rw [h1] at hx; simp at hx
    | some mp =>
      rw [h1] at hx
      simp only [Option.some_bind] at hx
      have hmem : mp ∈ tbl := (lh_delete_perm _ _ _ h1).mem_iff.2 (List.mem_cons_self _ _)
      exact hA mp (htbl ▸ hmem) x hx
  obtain ⟨d1, d2⟩ := deref_decr_opt s.heap
    ((lh_delete (same_addr (mem_key addr)) tbl).1.bind MEM.app_info)
    (fun x hx => (hb x hx).1)
  have hheap := dbg_free_record_heap addr tbl s
  have htab : table (dbg_free_record addr tbl s) =
      (lh_delete (same_addr (mem_key addr)) tbl).2 := by
    simp [table, table_dbg_free_record addr tbl s ht]
  have hheads : heads (dbg_free_record addr tbl s) = heads s := by
    unfold heads
    rw [(dbg_free_record_frame addr tbl s).2.2.1]
  apply HeapInv_of_shape s _ hinv
  · rw [hheap, d1]
  · intro j
    rw [hheap, d2 j]
    exact ⟨rfl, rfl⟩
  · intro m hm q hq
    rw [htab] at hm
    exact hA m (htbl ▸ mem_lh_delete_snd addr tbl m hm) q hq
  · intro p hp
    rw [hheads] at hp
    exact hC p hp
  · intro q hq
    rw [htab, hheads, hheap, d2 q]
    have hcnt := cnt_mem_lh_delete addr tbl q
    have := hD q hq
    rw [htbl] at this
    simp only
    split_ifs at hcnt ⊢ <;> omega

theorem HeapInv_dbg_realloc_record (addr1 addr2 : Nat) (num : Int) (s : State)
    (tbl : List MEM) (ht : s.mh = some tbl) (h : HeapInv s) :
    HeapInv (dbg_realloc_record addr1 addr2 num tbl s) := by
  have hinv := h
  obtain ⟨hA, hB, hC, hD⟩ := h
  have htbl : table s = tbl := by simp [table, ht]
  unfold dbg_realloc_record
  split
  · rename_i mp tbl1 heq
    have h1 : (lh_delete (same_addr (mem_key addr1)) tbl).1 = some mp := by rw [heq]
    have h2 : tbl1 = (lh_delete (same_addr (mem_key addr1)) tbl).2 := by rw [heq]
    have hp := lh_delete_perm _ _ _ h1
    rw [← h2] at hp
    dsimp only
    refine HeapInv_of_shape s _ hinv rfl (fun j => ⟨rfl, rfl⟩) ?_ ?_ ?_
    · intro m hm q hq
      simp only [table, Option.getD_some] at hm
      rcases mem_lh_insert_snd _ _ _ _ hm with h3 | h3
      · rw [h3] at hq
        exact hA mp (htbl ▸ hp.mem_iff.2 (List.mem_cons_self _ _)) q hq
      · exact hA m (htbl ▸ hp.mem_iff.2 (List.mem_cons_of_mem _ h3)) q hq
    · intro p hp1
      exact hC p hp1
    · intro q hq
      have hcnt := cnt_mem_lh_insert { mp with addr := addr2, num := num } tbl1 q
      have hcnt2 := cnt_mem_perm _ _ q hp
      rw [cnt_mem_cons] at hcnt2
      have := hD q hq
      rw [htbl] at this
      simp only [table, Option.getD_some, heads] at this ⊢
      split_ifs at hcnt hcnt2 <;> omega
  · exact hinv

/-! ## Reference counts under `CRYPTO_add_info` -/

theorem heap_upd_push (heap : List APP_INFO) (c : APP_INFO) (f : APP_INFO → APP_INFO) :
    heap_upd (heap ++ [c]) heap.length f = heap ++ [f c] := by
  unfold heap_upd
  rw [deref_heap_push_new]
  simp [List.set_append]

theorem live_push_old (heap : List APP_INFO) (c : APP_INFO) (p : Nat)
    (h : live heap p) : live (heap ++ [c]) p := by
  unfold live at h ⊢
  rw [length_heap_push, deref_heap_push_old heap c p h.1]
  exact ⟨by omega, h.2⟩

theorem live_push_inv (heap : List APP_INFO) (c : APP_INFO) (p : Nat)
    (h : live (heap ++ [c]) p) : live heap p ∨ p = heap.length := by
  unfold live at h ⊢
  rw [length_heap_push] at h
  by_cases hp : p < heap.length
  · rw [deref_heap_push_old heap c p hp] at h
    exact Or.inl ⟨hp, h.2⟩
  · right; omega

/-- What `add_info_record` does: the new record is appended to the heap with its
`next` link set to the entry it replaces in the annotation table. -/
theorem add_info_record_spec (e : Env) (file : String) (line : Int) (info : String)
    (tbl : List Nat) (s : State) :
    ∃ (r1 : Option Nat) (tbl1 : List Nat),
      ((r1 = none ∧ tbl1 = tbl ++ [s.heap.length]) ∨
        (∃ amim, r1 = some amim ∧ amim ∈ tbl ∧
          (s.heap.length :: tbl).Perm (amim :: tbl1))) ∧
      (add_info_record e file line info tbl s).heap =
        s.heap ++ [{ thread := e.tid, file := file, line := line, info := info,
                     references := 1, next := r1, freed := false }] ∧
      (add_info_record e file line info tbl s).amih = some tbl1 ∧
      (add_info_record e file line info tbl s).mh = s.mh := by
  unfold add_info_record
  dsimp only
  generalize hsame : same_thread
    (s.heap ++ [{ thread := e.tid, file := file, line := line, info := info,
                  references := 1, next := none, freed := false }])
    (deref (s.heap ++ [{ thread := e.tid, file := file, line := line, info := info,
                         references := 1, next := none, freed := false }]) s.heap.length) = same
  cases h1 : (lh_insert same s.heap.length tbl).1 with
  | none =>
    refine ⟨none, _, Or.inl ⟨rfl, lh_insert_of_none _ _ _ h1⟩, rfl, rfl, rfl⟩
  | some amim =>
    refine ⟨some amim, _, Or.inr ⟨amim, rfl, (lh_insert_same _ _ _ _ h1).2,
      lh_insert_perm _ _ _ _ h1⟩, ?_, rfl, rfl⟩
    dsimp only
    rw [heap_upd_push]

theorem cnt_par_zero_of_fresh (s : State) (h : HeapInv s) :
    cnt_par s.heap s.heap.length = 0 := by
  unfold cnt_par
  rw [List.countP_eq_zero]
  intro c hc hl
  obtain ⟨p, hp, hpc⟩ := List.getElem_of_mem hc
  have hd : deref s.heap p = c := by
    unfold deref
    rw [List.getD_eq_getElem?_getD, List.getElem?_eq_getElem hp, hpc]
    rfl
  unfold links_to at hl
  simp only [Bool.and_eq_true, Bool.not_eq_true', beq_iff_eq] at hl
  have hlive : live s.heap p := ⟨hp, by rw [hd]; exact hl.1⟩
  have := (h.2.1 p hlive s.heap.length (by rw [hd]; exact hl.2)).1
  omega

theorem cnt_mem_zero_of_fresh (s : State) (h : HeapInv s) :
    cnt_mem (table s) s.heap.length = 0 := by
  unfold cnt_mem
  rw [List.countP_eq_zero]
  intro m hm hq
  simp only [beq_iff_eq] at hq
  have := (h.1 m hm _ hq).1
  omega

theorem HeapInv_add_info_record (e : Env) (file : String) (line : Int) (info : String)
    (s : State) (h : HeapInv s) :
    HeapInv (add_info_record e file line info (heads s) s) := by
  obtain ⟨r1, tbl1, hcase, hheap, hamih, hmh⟩ :=
    add_info_record_spec e file line info (heads s) s
  have hfreshP := cnt_par_zero_of_fresh s h
  have hfreshM := cnt_mem_zero_of_fresh s h
  obtain ⟨hA, hB, hC, hD⟩ := h
  have hr1 : ∀ a, r1 = some a → a ∈ heads s := by
    intro a ha
    rcases hcase with ⟨h1, _⟩ | ⟨amim, h1, h2, _⟩
    · rw [h1] at ha; simp at ha
    · rw [h1] at ha
      simp only [Option.some.injEq] at ha
      exact ha ▸ h2
  have hfresh : s.heap.length ∉ heads s := fun hmem => by
    have := (hC _ hmem).1
    omega
  have htab : table (add_info_record e file line info (heads s) s) = table s := by
    simp only [table, hmh]
  have hheads : heads (add_info_record e file line info (heads s) s) = tbl1 := by
    simp only [heads] at hamih ⊢
    rw [hamih]; rfl
  have hcount : ∀ q, (tbl1.count q : Int) + (if r1 = some q then 1 else 0) =
      ((heads s).count q : Int) + (if q = s.heap.length then 1 else 0) := by
    intro q
    rcases hcase with ⟨h1, h2⟩ | ⟨amim, h1, _, h3⟩
    · rw [h1, h2, List.count_append]
      by_cases hq : q = s.heap.length
      · subst hq; simp
      · have : ¬ (s.heap.length = q) := fun h4 => hq h4.symm
        simp [hq, this]
    · have := h3.count_eq q
      rw [List.count_cons, List.count_cons] at this
      rw [h1]
      simp only [Option.some.injEq, beq_iff_eq] at this ⊢
      by_cases hq : q = s.heap.length
      · by_cases hq2 : amim = q
        · simp [hq, hq2] at this ⊢; omega
        · simp [hq, hq2] at this ⊢
          have h5 : ¬ (amim = s.heap.length) := fun h6 => hq2 (h6.trans hq.symm)
          simp [h5] at this; omega
      · have h4 : ¬ (s.heap.length = q) := fun h4 => hq h4.symm
        by_cases hq2 : amim = q
        · simp [hq, hq2, h4] at this ⊢; omega
        · simp [hq, hq2, h4] at this ⊢; omega
  refine ⟨?_, ?_, ?_, ?_⟩
  · intro m hm q hq
    rw [htab] at hm
    rw [hheap]
    exact live_push_old _ _ _ (hA m hm q hq)
  · intro p hp q hq
    rw [hheap] at hp hq ⊢
    rcases live_push_inv _ _ _ hp with h1 | h1
    · rw [deref_heap_push_old _ _ _ h1.1] at hq
      obtain ⟨h2, h3⟩ := hB p h1 q hq
      exact ⟨h2, live_push_old _ _ _ h3⟩
    · subst h1
      rw [deref_heap_push_new] at hq
      have h2 := hC q (hr1 q hq)
      exact ⟨h2.1, live_push_old _ _ _ h2⟩
  · intro p hp
    rw [hheads] at hp
    rw [hheap]
    have hmem : p = s.heap.length ∨ p ∈ heads s := by
      rcases hcase with ⟨_, h2⟩ | ⟨amim, _, _, h3⟩
      · rw [h2] at hp
        simp only [List.mem_append, List.mem_singleton] at hp
        tauto
      · have : p ∈ amim :: tbl1 := List.mem_cons_of_mem _ hp
        rw [← h3.mem_iff] at this
        simpa using this
    rcases hmem with h1 | h1
    · subst h1
      unfold live
      rw [length_heap_push, deref_heap_push_new]
      exact ⟨by omega, rfl⟩
    · exact live_push_old _ _ _ (hC p h1)
  · intro q hq
    rw [htab, hheads, hheap] at *
    rw [cnt_par_heap_push]
    have hc := hcount q
    have hlink : ∀ c : APP_INFO, c.freed = false → links_to q c = (c.next == some q) := by
      intro c hc
      simp [links_to, hc]
    rw [hlink _ rfl]
    dsimp only
    rcases live_push_inv _ _ _ hq with h1 | h1
    · rw [deref_heap_push_old _ _ _ h1.1]
      have := hD q h1
      have hne : q ≠ s.heap.length := by have := h1.1; omega
      simp only [hne, if_false] at hc
      simp only [beq_iff_eq]
      split_ifs at hc ⊢ <;> omega
    · subst h1
      rw [deref_heap_push_new, hfreshP, hfreshM]
      simp only [beq_iff_eq]
      have hno : r1 ≠ some s.heap.length := fun h2 => hfresh (hr1 _ h2)
      have h0 : (heads s).count s.heap.length = 0 := List.count_eq_zero.2 hfresh
      simp only [hno, if_false, if_true, h0] at hc ⊢
      omega

/-- A record that is allocated and released at once leaves the invariant alone. -/
theorem HeapInv_push_freed (s : State) (c : APP_INFO) (hc : c.freed = true)
    (h : HeapInv s) : HeapInv { s with heap := s.heap ++ [c] } := by
  obtain ⟨hA, hB, hC, hD⟩ := h
  have hnew : ∀ p, live (s.heap ++ [c]) p → live s.heap p := by
    intro p hp
    rcases live_push_inv _ _ _ hp with h1 | h1
    · exact h1
    · subst h1
      unfold live at hp
      rw [deref_heap_push_new, hc] at hp
      exact absurd hp.2 (by simp)
  have hlink : ∀ q, links_to q c = false := by
    intro q; simp [links_to, hc]
  refine ⟨?_, ?_, ?_, ?_⟩
  · intro m hm q hq
    exact live_push_old _ _ _ (hA m hm q hq)
  · intro p hp q hq
    have h1 := hnew p hp
    dsimp only at hq
    rw [deref_heap_push_old _ _ _ h1.1] at hq
    obtain ⟨h2, h3⟩ := hB p h1 q hq
    exact ⟨h2, live_push_old _ _ _ h3⟩
  · intro p hp
    exact live_push_old _ _ _ (hC p hp)
  · intro q hq
    have h1 := hnew q hq
    dsimp only [table, heads] at *
    rw [cnt_par_heap_push, hlink, deref_heap_push_old _ _ _ h1.1]
    have := hD q h1
    simp only [Bool.false_eq_true, if_false, Nat.add_zero]
    exact this

/-! ## Reference counts under `remove_info` -/

/-- The heap of `remove_info` after `next->references++` and `--(ret->references)`. -/
theorem remove_info_heap2 (heap : List APP_INFO) (next : Option Nat) (ret : Nat)
    (hret : ret < heap.length) (hnx : ∀ nx, next = some nx → nx < heap.length) :
    (decr_ref (incr_ref_opt heap next) ret).length = heap.length ∧
    ∀ j, deref (decr_ref (incr_ref_opt heap next) ret) j =
      { deref heap j with
        references := (deref heap j).references + (if next = some j then 1 else 0) -
          (if j = ret then 1 else 0) } := by
  obtain ⟨i1, i2⟩ := deref_incr_opt heap next hnx
  refine ⟨by rw [length_decr_ref, i1], fun j => ?_⟩
  rw [deref_decr_ref _ ret j (by rw [i1]; exact hret), i2 j]

/-- The heap of `remove_info` after the branch that releases `ret`. -/
theorem remove_info_heap5 (heap : List APP_INFO) (next : Option Nat) (ret : Nat)
    (hret : ret < heap.length) (hnx : ∀ nx, next = some nx → nx < heap.length ∧ nx ≠ ret) :
    (heap_upd (decr_ref_opt (heap_upd (decr_ref (incr_ref_opt heap next) ret) ret
        (fun c => { c with next := none })) next) ret
        (fun c => { c with freed := true })).length = heap.length ∧
    ∀ j, deref (heap_upd (decr_ref_opt (heap_upd (decr_ref (incr_ref_opt heap next) ret) ret
        (fun c => { c with next := none })) next) ret
        (fun c => { c with freed := true })) j =
      if j = ret then
        { deref heap ret with
          references := (deref heap ret).references - 1, next := none, freed := true }
      else deref heap j := by
  obtain ⟨a1, a2⟩ := remove_info_heap2 heap next ret hret (fun nx h => (hnx nx h).1)
  have b1 : (heap_upd (decr_ref (incr_ref_opt heap next) ret) ret
      (fun c => { c with next := none })).length = heap.length := by
    rw [length_heap_upd, a1]
  obtain ⟨c1, c2⟩ := deref_decr_opt (heap_upd (decr_ref (incr_ref_opt heap next) ret) ret
      (fun c => { c with next := none })) next
      (fun nx h => by rw [b1]; exact (hnx nx h).1)
  refine ⟨by rw [length_heap_upd, c1, b1], fun j => ?_⟩
  have hnr : next ≠ some ret := fun h => (hnx ret h).2 rfl
  by_cases hj : j = ret
  · subst hj
    rw [deref_heap_upd_self _ _ _ (by rw [c1, b1]; exact hret), c2 j,
      deref_heap_upd_self _ _ _ (by rw [a1]; exact hret), a2 j]
    simp [hnr]
  · rw [deref_heap_upd_ne _ _ _ _ hj, c2 j, deref_heap_upd_ne _ _ _ _ hj, a2 j]
    simp only [hj, if_false]
    cases hd : deref heap j
    simp only [APP_INFO.mk.injEq, true_and, and_true]
    split_ifs <;> omega

theorem count_lh_insert_le (same : Nat → Bool) (x : Nat) (l : List Nat) (q : Nat) :
    (lh_insert same x l).2.count q ≤ l.count q + (if x = q then 1 else 0) := by
  cases h1 : (lh_insert same x l).1 with
  | none =>
    rw [lh_insert_of_none same x l h1, List.count_append]
    simp [List.count_cons]
  | some z =>
    have := (lh_insert_perm same x l z h1).count_eq q
    rw [List.count_cons, List.count_cons] at this
    simp only [beq_iff_eq] at this
    split_ifs at this ⊢ <;> omega

/-- What a call of `remove_info` that finds an entry does to the annotation table and
the heap. -/
theorem remove_info_spec (e : Env) (s : State) (tbl tbl1 : List Nat) (ret : Nat)
    (hamih : s.amih = some tbl)
    (hdel : lh_delete (same_thread s.heap (app_info_key e.tid)) tbl = (some ret, tbl1))
    (hret : ret < s.heap.length)
    (hnx : ∀ nx, (deref s.heap ret).next = some nx → nx < s.heap.length ∧ nx ≠ ret) :
    ∃ tbl2, (remove_info e s).2.amih = some tbl2 ∧ (remove_info e s).2.mh = s.mh ∧
      (∀ p ∈ tbl2, p ∈ tbl1 ∨ (deref s.heap ret).next = some p) ∧
      (∀ q, tbl2.count q ≤ tbl1.count q +
        (if (deref s.heap ret).next = some q then 1 else 0)) ∧
      (remove_info e s).2.heap.length = s.heap.length ∧
      (((deref s.heap ret).references - 1 ≤ 0 ∧
          ∀ j, deref (remove_info e s).2.heap j =
            if j = ret then
              { deref s.heap ret with
                references := (deref s.heap ret).references - 1, next := none
                freed := true }
            else deref s.heap j) ∨
        (¬ ((deref s.heap ret).references - 1 ≤ 0) ∧
          ∀ j, deref (remove_info e s).2.heap j =
            { deref s.heap j with
              references := (deref s.heap j).references +
                (if (deref s.heap ret).next = some j then 1 else 0) -
                (if j = ret then 1 else 0) })) := by
  obtain ⟨a1, a2⟩ := remove_info_heap2 s.heap (deref s.heap ret).next ret hret
    (fun nx h => (hnx nx h).1)
  obtain ⟨b1, b2⟩ := remove_info_heap5 s.heap (deref s.heap ret).next ret hret hnx
  have hnr : (deref s.heap ret).next ≠ some ret := fun h => (hnx ret h).2 rfl
  have hrefs : (deref (decr_ref (incr_ref_opt s.heap (deref s.heap ret).next) ret) ret).references =
      (deref s.heap ret).references - 1 := by
    rw [a2 ret]
    simp [hnr]
  unfold remove_info
  rw [hamih]
  dsimp only
  rw [hdel]
  dsimp only
  rw [hrefs]
  have htbl2 : ∃ tbl2, insert_next (incr_ref_opt s.heap (deref s.heap ret).next)
      (deref s.heap ret).next tbl1 = tbl2 ∧
      (∀ p ∈ tbl2, p ∈ tbl1 ∨ (deref s.heap ret).next = some p) ∧
      (∀ q, tbl2.count q ≤ tbl1.count q +
        (if (deref s.heap ret).next = some q then 1 else 0)) := by
    cases hnext : (deref s.heap ret).next with
    | none => exact ⟨tbl1, rfl, fun p hp => Or.inl hp, fun q => by simp⟩
    | some nx =>
      refine ⟨_, rfl, ?_, ?_⟩
      · intro p hp
        rcases mem_lh_insert_snd _ _ _ _ hp with h1 | h1
        · right; rw [h1]
        · left; exact h1
      · intro q
        have := count_lh_insert_le (same_thread (incr_ref_opt s.heap (some nx))
          (deref (incr_ref_opt s.heap (some nx)) nx)) nx tbl1 q
        simp only [Option.some.injEq]
        exact this
  obtain ⟨tbl2, e1, e2, e3⟩ := htbl2
  rw [e1]
  by_cases hc : (deref s.heap ret).references - 1 ≤ 0
  · rw [if_pos hc]
    exact ⟨tbl2, rfl, rfl, e2, e3, b1, Or.inl ⟨hc, b2⟩⟩
  · rw [if_neg hc]
    exact ⟨tbl2, rfl, rfl, e2, e3, a1, Or.inr ⟨hc, a2⟩⟩

theorem cnt_par_change_at (heap heap1 : List APP_INFO) (i q : Nat)
    (hlen : heap1.length = heap.length) (hi : i < heap.length)
    (h : ∀ j, j ≠ i → deref heap1 j = deref heap j) :
    cnt_par heap1 q + (if links_to q (deref heap i) then 1 else 0) =
      cnt_par heap q + (if links_to q (deref heap1 i) then 1 else 0) := by
  have h1 := cnt_par_heap_upd heap i (fun _ => deref heap1 i) q hi
  have h2 : cnt_par heap1 q = cnt_par (heap_upd heap i (fun _ => deref heap1 i)) q := by
    apply cnt_par_eq_of_shape _ _ q (by rw [hlen, length_heap_upd])
    intro j
    by_cases hj : j = i
    · subst hj
      rw [deref_heap_upd_self _ _ _ hi]
      exact ⟨rfl, rfl⟩
    · rw [deref_heap_upd_ne _ _ _ _ hj, h j hj]
      exact ⟨rfl, rfl⟩
  rw [h2]
  exact h1

theorem cnt_par_pos_of_link (heap : List APP_INFO) (p q : Nat) (hp : p < heap.length)
    (h : links_to q (deref heap p) = true) : 0 < cnt_par heap q := by
  unfold cnt_par
  rw [List.countP_pos_iff]
  refine ⟨deref heap p, ?_, h⟩
  unfold deref
  rw [List.getD_eq_getElem?_getD, List.getElem?_eq_getElem hp]
  exact List.getElem_mem hp

theorem cnt_mem_pos_of_mem (tbl : List MEM) (m : MEM) (q : Nat) (hm : m ∈ tbl)
    (h : m.app_info = some q) : 0 < cnt_mem tbl q := by
  unfold cnt_mem
  rw [List.countP_pos_iff]
  exact ⟨m, hm, by simp [h]⟩

theorem HeapInv_remove_info (e : Env) (s : State) (h : HeapInv s) :
    HeapInv (remove_info e s).2 := by
  cases hamih : s.amih with
  | none =>
    have : (remove_info e s).2 = s := by
      unfold remove_info; rw [hamih]
    rw [this]; exact h
  | some tbl =>
    cases hdel1 : (lh_delete (same_thread s.heap (app_info_key e.tid)) tbl).1 with
    | none =>
      have : (remove_info e s).2 = s := by
        unfold remove_info
        rw [hamih]
        dsimp only
        split
        · rfl
        · rename_i ret tbl1 heq
          rw [heq] at hdel1
          simp at hdel1
      rw [this]; exact h
    | some ret =>
      have hdel : lh_delete (same_thread s.heap (app_info_key e.tid)) tbl =
          (some ret, (lh_delete (same_thread s.heap (app_info_key e.tid)) tbl).2) := by
        rw [← hdel1]
      have hperm := lh_delete_perm _ _ _ hdel1
      have hinv := h
      obtain ⟨hA, hB, hC, hD⟩ := h
      have hheads : heads s = tbl := by simp [heads, hamih]
      have hretmem : ret ∈ heads s := by
        rw [hheads]; exact hperm.mem_iff.2 (List.mem_cons_self _ _)
      have hretlive := hC ret hretmem
      have hnxlive : ∀ nx, (deref s.heap ret).next = some nx → nx < ret ∧ live s.heap nx :=
        fun nx hnx => hB ret hretlive nx hnx
      obtain ⟨tbl2, s1, s2, s3, s4, s5, s6⟩ := remove_info_spec e s tbl _ ret hamih hdel
        hretlive.1 (fun nx hnx => ⟨(hnxlive nx hnx).2.1, by
          have := (hnxlive nx hnx).1
          omega⟩)
      have hcnt : ∀ q, (heads s).count q =
          (if q = ret then 1 else 0) +
            (lh_delete (same_thread s.heap (app_info_key e.tid)) tbl).2.count q := by
        intro q
        rw [hheads, hperm.count_eq q, List.count_cons]
        by_cases hq : q = ret
        · subst hq; simp; omega
        · have hne : ¬ (ret = q) := fun h => hq h.symm
          simp [hq, hne]
      have htab1 : table (remove_info e s).2 = table s := by
        simp only [table, s2]
      have hheads1 : heads (remove_info e s).2 = tbl2 := by
        simp only [heads, s1, Option.getD_some]
      rcases s6 with ⟨hc, hd⟩ | ⟨hc, hd⟩
      · -- the record `ret` is released
        have hDret := hD ret hretlive
        have hcr := hcnt ret
        simp only [if_true] at hcr
        have hm0 : cnt_mem (table s) ret = 0 := by omega
        have hp0 : cnt_par s.heap ret = 0 := by omega
        have ht0 : (lh_delete (same_thread s.heap (app_info_key e.tid)) tbl).2.count ret = 0 := by
          omega
        have hlive1 : ∀ p, live (remove_info e s).2.heap p ↔ (live s.heap p ∧ p ≠ ret) := by
          intro p
          unfold live
          rw [s5, hd p]
          by_cases hp : p = ret
          · subst hp; simp
          · simp [hp]
        have hpar : ∀ q, (cnt_par (remove_info e s).2.heap q : Int) +
            (if (deref s.heap ret).next = some q then 1 else 0) = cnt_par s.heap q := by
          intro q
          have := cnt_par_change_at s.heap (remove_info e s).2.heap ret q s5 hretlive.1
            (fun j hj => by rw [hd j, if_neg hj])
          rw [hd ret] at this
          simp only [if_true] at this
          have hf : links_to q
              { deref s.heap ret with
                references := (deref s.heap ret).references - 1, next := none
                freed := true } = false := by
            simp [links_to]
          rw [hf] at this
          by_cases hn : (deref s.heap ret).next = some q
          · have hl : links_to q (deref s.heap ret) = true := by
              unfold links_to
              rw [hretlive.2, hn]
              simp
            rw [hl] at this
            simp only [hn, if_true, Bool.false_eq_true, if_false] at this ⊢
            omega
          · have hl : links_to q (deref s.heap ret) = false := by
              unfold links_to
              rw [hretlive.2]
              simp [hn]
            rw [hl] at this
            simp only [hn, Bool.false_eq_true, if_false] at this ⊢
            omega
        refine ⟨?_, ?_, ?_, ?_⟩
        · intro m hm q hq
          rw [htab1] at hm
          rw [hlive1]
          refine ⟨hA m hm q hq, ?_⟩
          intro hqr
          subst hqr
          have := cnt_mem_pos_of_mem _ m q hm hq
          omega
        · intro p hp q hq
          rw [hlive1] at hp
          rw [hd p, if_neg hp.2] at hq
          obtain ⟨h1, h2⟩ := hB p hp.1 q hq
          refine ⟨h1, (hlive1 q).2 ⟨h2, ?_⟩⟩
          intro hqr
          subst hqr
          have := cnt_par_pos_of_link s.heap p q hp.1.1 (by
            unfold links_to
            rw [hp.1.2, hq]
            simp)
          omega
        · intro p hp
          rw [hheads1] at hp
          rw [hlive1]
          rcases s3 p hp with h1 | h1
          · refine ⟨hC p (hheads ▸ hperm.mem_iff.2 (List.mem_cons_of_mem _ h1)), ?_⟩
            intro hpr
            subst hpr
            exact absurd h1 (List.count_eq_zero.1 ht0)
          · have := hnxlive p h1
            exact ⟨this.2, by omega⟩
        · intro q hq
          rw [hlive1] at hq
          rw [htab1, hheads1, hd q, if_neg hq.2]
          have h1 := hD q hq.1
          have h2 := hpar q
          have h3 := s4 q
          have h4 := hcnt q
          simp only [hq.2, if_false] at h4
          split_ifs at h2 h3 <;> omega
      · -- the record `ret` stays allocated
        refine HeapInv_of_shape s _ hinv s5 (fun j => by rw [hd j]; exact ⟨rfl, rfl⟩) ?_ ?_ ?_
        · intro m hm q hq
          rw [htab1] at hm
          exact hA m hm q hq
        · intro p hp
          rw [hheads1] at hp
          rcases s3 p hp with h1 | h1
          · exact hC p (hheads ▸ hperm.mem_iff.2 (List.mem_cons_of_mem _ h1))
          · exact (hnxlive p h1).2
        · intro q hq
          rw [htab1, hheads1, hd q]
          have h1 := hD q hq
          have h3 := s4 q
          have h4 := hcnt q
          simp only
          split_ifs at h3 h4 ⊢ <;> omega

/-! ## The reference-count discipline holds in every reachable state -/

theorem HeapInv_MemCheck_on (tid : Nat) (s : State) (h : HeapInv s) :
    HeapInv (MemCheck_on tid s) :=
  HeapInv_of_eq s _ (by simp) (by simp) (by simp) h

theorem HeapInv_MemCheck_off (tid : Nat) (s : State) (h : HeapInv s) :
    HeapInv (MemCheck_off tid s) :=
  HeapInv_of_eq s _ (by simp) (by simp) (by simp) h

theorem HeapInv_init : HeapInv init := by
  unfold HeapInv table heads live init
  simp

theorem HeapInv_add_info (e : Env) (file : String) (line : Int) (info : String)
    (s : State) (h : HeapInv s) : HeapInv (CRYPTO_add_info e file line info s).2 := by
  unfold CRYPTO_add_info
  split_ifs
  · exact HeapInv_MemCheck_on _ _ (HeapInv_MemCheck_off _ _ h)
  · dsimp only
    split
    · exact HeapInv_MemCheck_on _ _
        (HeapInv_push_freed _ _ rfl (HeapInv_MemCheck_off _ _ h))
    · rename_i tbl heq
      have htbl : tbl = heads (MemCheck_off e.tid s) := lh_new_if_null_some _ _ _ heq
      rw [htbl]
      exact HeapInv_MemCheck_on _ _
        (HeapInv_add_info_record e file line info _ (HeapInv_MemCheck_off _ _ h))
  · exact h

theorem HeapInv_CRYPTO_remove_info (e : Env) (s : State) (h : HeapInv s) :
    HeapInv (CRYPTO_remove_info e s).2 := by
  unfold CRYPTO_remove_info
  split_ifs
  · exact HeapInv_MemCheck_on _ _ (HeapInv_remove_info e _ (HeapInv_MemCheck_off _ _ h))
  · exact h

theorem HeapInv_remove_all_loop (e : Env) (fuel : Nat) :
    ∀ (ret : Int) (s : State) (r : Int × State), HeapInv s →
      remove_all_loop e fuel ret s = some r → HeapInv r.2 := by
  induction fuel with
  | zero => intro ret s r _ h; simp [remove_all_loop] at h
  | succ n ih =>
    intro ret s r hs h
    unfold remove_all_loop at h
    have hf := HeapInv_remove_info e s hs
    split at h
    · rename_i s1 heq
      rw [heq] at hf
      simp only [Option.some.injEq] at h
      subst h
      exact hf
    · rename_i x s1 heq
      rw [heq] at hf
      exact ih _ _ _ hf h

theorem HeapInv_remove_all_info (fuel : Nat) (e : Env) (s : State) (r : Int × State)
    (h : HeapInv s) (hr : CRYPTO_remove_all_info fuel e s = some r) : HeapInv r.2 := by
  unfold CRYPTO_remove_all_info at hr
  split_ifs at hr
  · dsimp only at hr
    split at hr
    · simp at hr
    · rename_i ret s2 heq
      simp only [Option.some.injEq] at hr
      subst hr
      exact HeapInv_MemCheck_on _ _
        (HeapInv_remove_all_loop e fuel 0 _ _ (HeapInv_MemCheck_off _ _ h) heq)
  · simp only [Option.some.injEq] at hr
    subst hr; exact h

theorem HeapInv_dbg_malloc (e : Env) (addr : Nat) (num : Int) (file : String) (line : Int)
    (before_p : Nat) (s : State) (h : HeapInv s) :
    HeapInv (CRYPTO_dbg_malloc e addr num file line before_p s) := by
  unfold CRYPTO_dbg_malloc
  split_ifs
  · exact h
  · exact HeapInv_MemCheck_on _ _
      (HeapInv_of_eq _ _ rfl rfl rfl (HeapInv_MemCheck_off e.tid s h))
  · dsimp only
    split
    · exact HeapInv_MemCheck_on _ _
        (HeapInv_of_eq _ _ rfl rfl rfl (HeapInv_MemCheck_off e.tid s h))
    · rename_i tbl heq
      have htbl : tbl = table (MemCheck_off e.tid s) := lh_new_if_null_some _ _ _ heq
      rw [htbl]
      exact HeapInv_MemCheck_on _ _
        (HeapInv_dbg_malloc_record e addr num file line _ (HeapInv_MemCheck_off _ _ h))
  · exact h
  · exact h

theorem HeapInv_dbg_free (e : Env) (addr : Nat) (before_p : Nat) (s : State)
    (h : HeapInv s) : HeapInv (CRYPTO_dbg_free e addr before_p s) := by
  unfold CRYPTO_dbg_free
  split_ifs
  · exact h
  · split
    · exact h
    · rename_i tbl heq
      exact HeapInv_MemCheck_on _ _
        (HeapInv_dbg_free_record addr _ tbl (by simp [heq]) (HeapInv_MemCheck_off _ _ h))
  · exact h
  · exact h

theorem HeapInv_dbg_realloc (e : Env) (addr1 addr2 : Nat) (num : Int) (file : String)
    (line : Int) (before_p : Nat) (s s1 : State) (h : HeapInv s)
    (hr : CRYPTO_dbg_realloc e addr1 addr2 num file line before_p s = some s1) :
    HeapInv s1 := by
  unfold CRYPTO_dbg_realloc at hr
  split_ifs at hr
  · simp only [Option.some.injEq] at hr; subst hr; exact h
  · simp only [Option.some.injEq] at hr; subst hr
    exact HeapInv_dbg_malloc e addr2 num file line _ s h
  · dsimp only at hr
    split at hr
    · simp at hr
    · rename_i tbl heq
      simp only [Option.some.injEq] at hr; subst hr
      exact HeapInv_MemCheck_on _ _
        (HeapInv_dbg_realloc_record addr1 addr2 num _ tbl heq (HeapInv_MemCheck_off _ _ h))
  · simp only [Option.some.injEq] at hr; subst hr; exact h
  · simp only [Option.some.injEq] at hr; subst hr; exact h

theorem HeapInv_step (s : State) (op : Op) (s1 : State) (h : HeapInv s)
    (hs : step s op = some s1) : HeapInv s1 := by
  cases op with
  | mem_ctrl tid mode =>
    simp only [step, Option.some.injEq] at hs; subst hs
    exact HeapInv_of_eq s _ (by simp) (by simp) (by simp) h
  | set_options bits =>
    simp only [step, Option.some.injEq] at hs; subst hs
    exact HeapInv_of_eq s _ rfl rfl rfl h
  | add_info e file line info =>
    simp only [step, Option.some.injEq] at hs; subst hs
    exact HeapInv_add_info e file line info s h
  | remove_info e =>
    simp only [step, Option.some.injEq] at hs; subst hs
    exact HeapInv_CRYPTO_remove_info e s h
  | remove_all_info fuel e =>
    simp only [step, Option.map_eq_some'] at hs
    obtain ⟨r, hr, rfl⟩ := hs
    exact HeapInv_remove_all_info fuel e s r h hr
  | dbg_malloc e addr num file line before_p =>
    simp only [step, Option.some.injEq] at hs; subst hs
    exact HeapInv_dbg_malloc e addr num file line before_p s h
  | dbg_free e addr before_p =>
    simp only [step, Option.some.injEq] at hs; subst hs
    exact HeapInv_dbg_free e addr before_p s h
  | dbg_realloc e addr1 addr2 num file line before_p =>
    simp only [step] at hs
    exact HeapInv_dbg_realloc e addr1 addr2 num file line before_p s s1 h hs

theorem Reachable_HeapInv (s : State) (h : Reachable s) : HeapInv s := by
  obtain ⟨ops, hops⟩ := h
  exact run_invariant HeapInv HeapInv_step ops init s HeapInv_init hops

/-- Every record on a chain of `next` links that starts at a live record is live. -/
theorem next_chain_live (s : State) (h : HeapInv s) (fuel : Nat) :
    ∀ (start : Option Nat), (∀ q, start = some q → live s.heap q) →
      ∀ p ∈ next_chain s.heap fuel start, live s.heap p := by
  induction fuel with
  | zero => intro start _ p hp; simp [next_chain] at hp
  | succ n ih =>
    intro start hstart p hp
    cases start with
    | none => simp [next_chain] at hp
    | some q =>
      simp only [next_chain, List.mem_cons] at hp
      have hq := hstart q rfl
      rcases hp with hp | hp
      · rw [hp]; exact hq
      · exact ih (deref s.heap q).next (fun x hx => (h.2.1 q hq x hx).2) p hp

/-- C10: in every state reachable through the public functions (the mode controller,
`push`, `pop`, `pop_all`, `on_alloc`, `on_free`, `on_realloc`, with any outcome of the
bookkeeping allocations), every annotation record reached from the `app_info` of a
record in the allocation table, directly or through any number of `next` links, is
allocated and has not been released. -/
theorem C10_no_released_annotation_referenced (s : State) (m : MEM) (fuel p : Nat)
    (hr : Reachable s) (hm : m ∈ table s) (hp : p ∈ next_chain s.heap fuel m.app_info) :
    p < s.heap.length ∧ (deref s.heap p).freed = false :=
  next_chain_live s (Reachable_HeapInv s hr) fuel m.app_info
    (fun q hq => (Reachable_HeapInv s hr).1 m hm q hq) p hp

/-- C10 after two pushes, an allocation and two pops: annotation 0, reached from the
record of 0x100 through annotation 1, is still allocated. -/
theorem C10_no_released_annotation_referenced_witness :
    next_chain example_chain.heap 2 (some 1) = [1, 0] ∧
      (0 < example_chain.heap.length ∧ (deref example_chain.heap 0).freed = false) :=
  ⟨by decide,
    C10_no_released_annotation_referenced example_chain
      { addr := 0x100, num := 10, file := "f.c", line := 5, thread := 1, order := 0,
        time := 0, app_info := some 1 } 2 0
      ⟨example_chain_ops, by decide⟩ (by decide) (by decide)⟩

/-! ## Further claims about the mode controller and the hooks -/

theorem lor_enable_land_on (m : Nat) : (m ||| 2) &&& 1 = m &&& 1 := by
  apply Nat.eq_of_testBit_eq
  intro i
  simp only [Nat.testBit_and, Nat.testBit_or]
  cases i with
  | zero => simp
  | succ n =>
    have : Nat.testBit 1 (n + 1) = false := by
      simp [Nat.testBit_succ]
    simp [this]

theorem lor_enable_land_enable (m : Nat) : (m ||| 2) &&& 2 = 2 := by
  apply Nat.eq_of_testBit_eq
  intro i
  simp only [Nat.testBit_and, Nat.testBit_or]
  cases h : Nat.testBit 2 i <;> simp

/-- C19: in an enabled state where thread `t` holds the suspension, `set_mode(RESUME)`
issued by a different thread `u` sets `active`, clears the suspending thread, and makes
`is_tracking_active` true for `t`. -/
theorem C19_resume_by_other_thread (s : State) (t u : Nat) (he : enabled s = true)
    (hd : s.disabling_thread = t) (ht : t ≠ 0) (_hu : u ≠ t) :
    active (CRYPTO_mem_ctrl u 2 s).2 = true ∧
      (CRYPTO_mem_ctrl u 2 s).2.disabling_thread = 0 ∧
      CRYPTO_mem_check_on t (CRYPTO_mem_ctrl u 2 s).2 = true := by
  have hon : s.mh_mode &&& 1 ≠ 0 := by
    simpa [enabled, CRYPTO_MEM_CHECK_ON] using he
  have hdt : s.disabling_thread ≠ 0 := by rw [hd]; exact ht
  have hres : (CRYPTO_mem_ctrl u 2 s).2 =
      { s with mh_mode := s.mh_mode ||| 2, disabling_thread := 0 } := by
    unfold CRYPTO_mem_ctrl
    rw [if_neg (by decide), if_neg (by decide), if_neg (by decide), if_pos rfl,
      if_pos (by simpa [CRYPTO_MEM_CHECK_ON] using hon)]
    dsimp only
    rw [if_pos hdt]
    rfl
  rw [hres]
  have h0 : ¬ (0 = t) := fun h => ht h.symm
  refine ⟨?_, rfl, ?_⟩
  · simp [active, CRYPTO_MEM_CHECK_ENABLE, lor_enable_land_enable]
  · unfold CRYPTO_mem_check_on
    simp only [CRYPTO_MEM_CHECK_ON, CRYPTO_MEM_CHECK_ENABLE, lor_enable_land_on,
      lor_enable_land_enable]
    rw [if_pos hon]
    simp [h0]

/-- C19 where thread 1 holds the suspension and thread 2 issues RESUME. -/
theorem C19_resume_by_other_thread_witness :
    (enabled example_suspended = true ∧ example_suspended.disabling_thread = 1) ∧
      (active (CRYPTO_mem_ctrl 2 2 example_suspended).2 = true ∧
        (CRYPTO_mem_ctrl 2 2 example_suspended).2.disabling_thread = 0 ∧
        CRYPTO_mem_check_on 1 (CRYPTO_mem_ctrl 2 2 example_suspended).2 = true) :=
  ⟨by decide,
    C19_resume_by_other_thread example_suspended 1 2 (by decide) (by decide) (by decide)
      (by decide)⟩

/-- C20: `push` (`CRYPTO_add_info`) returns 0 for every input, every calling thread,
every outcome of the bookkeeping allocations and every state. -/
theorem C20_push_returns_zero (e : Env) (file : String) (line : Int) (info : String)
    (s : State) : (CRYPTO_add_info e file line info s).1 = 0 := by
  unfold CRYPTO_add_info
  split_ifs
  · rfl
  · dsimp only
    split <;> rfl
  · rfl

/-- The result of `on_free` with tracking active when the address has no record. -/
theorem on_free_no_record (e : Env) (addr : Nat) (s : State) (hm : ModeOK s)
    (ha : CRYPTO_mem_check_on e.tid s = true) (hno : addr ∉ table_addrs s) :
    on_free e addr s = s := by
  by_cases h0 : addr = 0
  · unfold on_free CRYPTO_dbg_free
    rw [if_pos rfl, if_pos h0]
  · cases hmh : s.mh with
    | none => exact on_free_no_table e addr s hmh
    | some tbl =>
      rw [on_free_active e addr s tbl hm ha h0 hmh]
      have hnone : (lh_delete (same_addr (mem_key addr)) tbl).1 = none := by
        rcases addrs_lh_delete addr tbl with ⟨mp, h1, h2, h3⟩ | ⟨h1, _, _⟩
        · exfalso
          apply hno
          rw [table_addrs, table, hmh, Option.getD_some, ← h2]
          exact List.mem_map_of_mem MEM.addr (h3.mem_iff.2 (List.mem_cons_self _ _))
        · exact h1
      have hrec : dbg_free_record addr tbl (MemCheck_off e.tid s) = MemCheck_off e.tid s := by
        unfold dbg_free_record
        split
        · rename_i mp tbl1 heq
          rw [heq] at hnone
          simp at hnone
        · rfl
      rw [hrec]
      obtain ⟨h1, h2, h3⟩ := check_on_of_ModeOK e.tid s hm ha
      rw [MemCheck_off_eq e.tid s h1 h2 h3]

/-- C16: in a reachable state, `on_free` returns the state it was given (allocation
table, annotation records with their reference counts, sequence counter and mode state)
whenever the address is null, tracking is not active for the calling thread, the table
has never been created, or the address has no record in the table. -/
theorem C16_free_without_effect (e : Env) (s : State) (addr : Nat) (hr : Reachable s)
    (h : addr = 0 ∨ CRYPTO_mem_check_on e.tid s = false ∨ s.mh = none ∨
      addr ∉ table_addrs s) :
    on_free e addr s = s := by
  rcases h with h | h | h | h
  · unfold on_free CRYPTO_dbg_free
    rw [if_pos rfl, if_pos h]
  · unfold on_free CRYPTO_dbg_free
    rw [if_pos rfl, h]
    by_cases h0 : addr = 0
    · rw [if_pos h0]
    · rw [if_neg h0, if_neg (by decide)]
  · exact on_free_no_table e addr s h
  · by_cases ha : CRYPTO_mem_check_on e.tid s = true
    · exact on_free_no_record e addr s (Reachable_ModeOK s hr) ha h
    · unfold on_free CRYPTO_dbg_free
      rw [if_pos rfl]
      by_cases h0 : addr = 0
      · rw [if_pos h0]
      · rw [if_neg h0, if_neg ha]

/-- C16 after `set_mode(OFF)` with the record of 0x100 still in the table: freeing
0x100 changes nothing. -/
theorem C16_free_without_effect_witness :
    table_addrs example_off_with_record = [0x100] ∧
      on_free example_env 0x100 example_off_with_record = example_off_with_record :=
  ⟨by decide,
    C16_free_without_effect example_env example_off_with_record 0x100
      ⟨[Op.mem_ctrl 1 1, Op.dbg_malloc example_env 0x100 10 "f.c" 5 1, Op.mem_ctrl 1 0], rfl⟩
      (Or.inr (Or.inl (by decide)))⟩

/-- C11 on the code: after push(A), on_alloc(0x100), pop(), on_free(0x100) by thread 1
the annotation table and the allocation table are empty, and the record of A has
reference count 0 and has not been released. -/
theorem C11_annotation_not_released :
    (run init example_leak_ops).map
        (fun s => (heads s, table s, (deref s.heap 0).references, (deref s.heap 0).freed)) =
      some ([], [], 0, false) := by
  decide

/-- The length of the header of an annotation line. -/
theorem info_header_length (cnt : Nat) (a : APP_INFO) :
    (info_header cnt a).length =
      cnt + (toString a.thread).length + a.file.length + (toString a.line).length + 29 := by
  unfold info_header
  simp only [String.length_append, String.length_mk, List.length_replicate]
  have h1 : "thread=".length = 7 := by decide
  have h2 : ", file=".length = 7 := by decide
  have h3 : ", line=".length = 7 := by decide
  have h4 : ", info=\"".length = 8 := by decide
  rw [h1, h2, h3, h4]
  omega

/-- Where the header of an annotation line has at most 125 bytes, the line is written,
has at most 127 bytes, between 0 and 125 bytes of the info text are copied, and the
text is copied in full when it fits. -/
theorem info_line_short_header (cnt : Nat) (a : APP_INFO)
    (h : (info_header cnt a).length ≤ 125) :
    0 ≤ info_copied (info_header cnt a).length a.info.length ∧
      info_copied (info_header cnt a).length a.info.length ≤ 125 ∧
      (∃ text, info_line cnt a = some text ∧ text.length ≤ 127) ∧
      ((info_header cnt a).length + a.info.length ≤ 125 →
        info_line cnt a = some (info_header cnt a ++ a.info ++ "\"\n")) := by
  have hq : "\"\n".length = 2 := by decide
  unfold info_copied info_line
  dsimp only
  by_cases hc : (128 : Int) - ((info_header cnt a).length : Int) - 3 < (a.info.length : Int)
  · rw [if_pos hc, if_pos hc]
    have hn : ¬ ((128 : Int) - ((info_header cnt a).length : Int) - 3 < 0) := by omega
    rw [if_neg hn]
    refine ⟨by omega, by omega, ⟨_, rfl, ?_⟩, fun hfit => by omega⟩
    rw [String.length_append, String.length_append, hq, String.take_eq]
    simp only [String.length, List.length_take] at h hc hn ⊢
    omega
  · rw [if_neg hc, if_neg hc]
    refine ⟨by omega, by omega, ⟨_, rfl, ?_⟩, fun _ => rfl⟩
    rw [String.length_append, String.length_append, hq]
    omega

/-- Where the header of an annotation line has more than 125 bytes, the count handed to
`memcpy` is negative and no line is written. -/
theorem info_line_long_header (cnt : Nat) (a : APP_INFO)
    (h : 125 < (info_header cnt a).length) :
    info_copied (info_header cnt a).length a.info.length < 0 ∧ info_line cnt a = none := by
  unfold info_copied info_line
  dsimp only
  have hc : (128 : Int) - ((info_header cnt a).length : Int) - 3 < (a.info.length : Int) := by
    omega
  rw [if_pos hc, if_pos hc, if_pos (by omega)]
  exact ⟨by omega, rfl⟩

set_option maxRecDepth 20000 in
/-- C18 on the code: for an annotation at depth 1 whose file name has 120 characters
the header has 152 bytes, the count handed to `memcpy` is -27, and the line has no
defined text. -/
theorem C18_long_file_name :
    (info_header 1 example_long_file).length = 152 ∧
      info_copied (info_header 1 example_long_file).length
        example_long_file.info.length = -27 ∧
      info_line 1 example_long_file = none := by
  decide

/-- C17 on the code: in the fresh state with tracking turned on (no table yet),
`on_realloc` of an untracked address by thread 1 hands the `NULL` table to `lh_delete`
and does not return. -/
theorem C17_realloc_without_table :
    run init [Op.mem_ctrl 1 1] = some example_on ∧
      CRYPTO_mem_check_on 1 example_on = true ∧ example_on.mh = none ∧
      on_realloc example_env 0x100 0x200 20 "f.c" 9 example_on = none := by
  decide

/-- While an operation runs between its `MemCheck_off()` and its `MemCheck_on()`,
tracking is active for no thread. -/
theorem suspended_inactive (tid u : Nat) (s : State) (hm : ModeOK s)
    (ha : CRYPTO_mem_check_on tid s = true) :
    CRYPTO_mem_check_on u (MemCheck_off tid s) = false := by
  obtain ⟨h1, h2, h3⟩ := check_on_of_ModeOK tid s hm ha
  rw [MemCheck_off_eq tid s h1 h2 h3]
  simp [CRYPTO_mem_check_on, CRYPTO_MEM_CHECK_ON, CRYPTO_MEM_CHECK_ENABLE]

/-! ## The sequence counter -/

theorem add_info_order (e : Env) (file : String) (line : Int) (info : String) (s : State) :
    (CRYPTO_add_info e file line info s).2.order = s.order := by
  unfold CRYPTO_add_info
  split_ifs
  · simp
  · dsimp only
    split
    · simp
    · simp [(add_info_record_frame e file line info _ _).2.2.2.1]
  · rfl

theorem CRYPTO_remove_info_order (e : Env) (s : State) :
    (CRYPTO_remove_info e s).2.order = s.order := by
  unfold CRYPTO_remove_info
  split_ifs
  · simp [(remove_info_frame e _).2.2.2.1]
  · rfl

theorem CRYPTO_remove_all_info_order (fuel : Nat) (e : Env) (s : State) (r : Int × State)
    (hr : CRYPTO_remove_all_info fuel e s = some r) : r.2.order = s.order := by
  unfold CRYPTO_remove_all_info at hr
  split_ifs at hr
  · dsimp only at hr
    split at hr
    · simp at hr
    · rename_i ret s2 heq
      simp only [Option.some.injEq] at hr
      subst hr
      have hf := (remove_all_loop_frame e fuel 0 _ _ heq).2.2.2.1
      dsimp only at hf
      simp [hf]
  · simp only [Option.some.injEq] at hr
    subst hr; rfl

theorem dbg_malloc_order (e : Env) (addr : Nat) (num : Int) (file : String) (line : Int)
    (before_p : Nat) (s : State) :
    (CRYPTO_dbg_malloc e addr num file line before_p s).order = s.order ∨
      (CRYPTO_dbg_malloc e addr num file line before_p s).order =
        (s.order + 1) % 2 ^ ULONG_BITS := by
  unfold CRYPTO_dbg_malloc
  split_ifs
  · exact Or.inl rfl
  · left; simp [Free_addr]
  · dsimp only
    split
    · left; simp [Free_addr]
    · right; simp [dbg_malloc_record]
  · exact Or.inl rfl
  · exact Or.inl rfl

theorem dbg_free_order (e : Env) (addr : Nat) (before_p : Nat) (s : State) :
    (CRYPTO_dbg_free e addr before_p s).order = s.order := by
  unfold CRYPTO_dbg_free
  split_ifs
  · rfl
  · split
    · rfl
    · simp [(dbg_free_record_frame addr _ _).2.2.2.1]
  · rfl
  · rfl

theorem dbg_realloc_order (e : Env) (addr1 addr2 : Nat) (num : Int) (file : String)
    (line : Int) (before_p : Nat) (s s1 : State)
    (hr : CRYPTO_dbg_realloc e addr1 addr2 num file line before_p s = some s1) :
    s1.order = s.order ∨ s1.order = (s.order + 1) % 2 ^ ULONG_BITS := by
  unfold CRYPTO_dbg_realloc at hr
  split_ifs at hr
  · simp only [Option.some.injEq] at hr; subst hr; exact Or.inl rfl
  · simp only [Option.some.injEq] at hr; subst hr
    exact dbg_malloc_order e addr2 num file line _ s
  · dsimp only at hr
    split at hr
    · simp at hr
    · rename_i tbl heq
      simp only [Option.some.injEq] at hr; subst hr
      left
      simp [(dbg_realloc_record_frame addr1 addr2 num tbl _).2.2.2.2.1]
  · simp only [Option.some.injEq] at hr; subst hr; exact Or.inl rfl
  · simp only [Option.some.injEq] at hr; subst hr; exact Or.inl rfl

/-- One call leaves the counter alone or adds one to it (modulo `2 ^ ULONG_BITS`). -/
theorem step_order (s : State) (op : Op) (s1 : State) (hs : step s op = some s1) :
    s1.order = s.order ∨ s1.order = (s.order + 1) % 2 ^ ULONG_BITS := by
  cases op with
  | mem_ctrl tid mode =>
    simp only [step, Option.some.injEq] at hs; subst hs
    left; simp
  | set_options bits =>
    simp only [step, Option.some.injEq] at hs; subst hs
    exact Or.inl rfl
  | add_info e file line info =>
    simp only [step, Option.some.injEq] at hs; subst hs
    exact Or.inl (add_info_order e file line info s)
  | remove_info e =>
    simp only [step, Option.some.injEq] at hs; subst hs
    exact Or.inl (CRYPTO_remove_info_order e s)
  | remove_all_info fuel e =>
    simp only [step, Option.map_eq_some'] at hs
    obtain ⟨r, hr, rfl⟩ := hs
    exact Or.inl (CRYPTO_remove_all_info_order fuel e s r hr)
  | dbg_malloc e addr num file line before_p =>
    simp only [step, Option.some.injEq] at hs; subst hs
    exact dbg_malloc_order e addr num file line before_p s
  | dbg_free e addr before_p =>
    simp only [step, Option.some.injEq] at hs; subst hs
    exact Or.inl (dbg_free_order e addr before_p s)
  | dbg_realloc e addr1 addr2 num file line before_p =>
    simp only [step] at hs
    exact dbg_realloc_order e addr1 addr2 num file line before_p s s1 hs

/-- A run of fewer calls than the counter has room for never decreases the counter. -/
theorem run_order (ops : List Op) :
    ∀ (s s2 : State), run s ops = some s2 → s.order + ops.length < 2 ^ ULONG_BITS →
      s.order ≤ s2.order ∧ s2.order ≤ s.order + ops.length := by
  induction ops with
  | nil =>
    intro s s2 h _
    simp only [run, Option.some.injEq] at h
    subst h
    exact ⟨Nat.le_refl _, by simp⟩
  | cons op ops ih =>
    intro s s2 h hnw
    unfold run at h
    split at h
    · simp at h
    · rename_i s1 heq
      simp only [List.length_cons] at hnw
      have h1 : s.order ≤ s1.order ∧ s1.order ≤ s.order + 1 := by
        rcases step_order s op s1 heq with h2 | h2
        · omega
        · rw [h2, Nat.mod_eq_of_lt (by omega)]
          omega
      have h3 := ih s1 s2 h (by omega)
      simp only [List.length_cons]
      omega

theorem mem_lh_insert_self {α : Type} (same : α → Bool) (x : α) (l : List α) :
    x ∈ (lh_insert same x l).2 := by
  induction l with
  | nil => simp [lh_insert]
  | cons y ys ih =>
    by_cases h : same y = true
    · simp [lh_insert, h]
    · simp only [lh_insert, h, Bool.false_eq_true, if_false]
      exact List.mem_cons_of_mem _ ih

/-- The result of `on_alloc` with tracking active when the table exists. -/
theorem on_alloc_active_table (e : Env) (addr : Nat) (num : Int) (file : String)
    (line : Int) (s : State) (tbl : List MEM) (hm : ModeOK s)
    (ha : CRYPTO_mem_check_on e.tid s = true) (h0 : addr ≠ 0)
    (h1 : e.malloc_ok = true) (h2 : s.mh = some tbl) :
    on_alloc e addr num file line s =
      { dbg_malloc_record e addr num file line (table s) (MemCheck_off e.tid s) with
        mh_mode := s.mh_mode, disabling_thread := s.disabling_thread } := by
  unfold on_alloc CRYPTO_dbg_malloc
  have h127 : (1 : Nat) &&& 127 = 1 := by decide
  rw [if_pos h127, if_neg h0, if_pos ha]
  dsimp only
  rw [if_neg (by simp [h1])]
  have htbl : lh_new_if_null e.lh_new_ok (MemCheck_off e.tid s).mh = some (table s) := by
    unfold lh_new_if_null table
    rw [MemCheck_off_mh, h2]
    rfl
  rw [htbl]
  exact wrap_active e.tid s (dbg_malloc_record e addr num file line (table s))
    (fun x => ⟨(dbg_malloc_record_frame e addr num file line _ x).1,
      (dbg_malloc_record_frame e addr num file line _ x).2.1⟩) hm ha

/-- C13: a call that does not wrap the counter never decreases it; a record created by
`on_alloc` is in the table with the counter value of the call as its sequence number;
and after any further calls that leave the counter room, the record the next `on_alloc`
creates has a strictly greater sequence number. -/
theorem C13_sequence_numbers_increase (s s2 t t1 : State) (op : Op) (ops : List Op)
    (e1 e2 : Env) (a1 a2 : Nat) (n1 n2 : Int) (f1 f2 : String) (l1 l2 : Int)
    (hstep : step t op = some t1) (hroom : t.order + 1 < 2 ^ ULONG_BITS)
    (hr : Reachable s) (hact : CRYPTO_mem_check_on e1.tid s = true) (ha : a1 ≠ 0)
    (hmal : e1.malloc_ok = true) (hnew : e1.lh_new_ok = true)
    (hrun : run (on_alloc e1 a1 n1 f1 l1 s) ops = some s2)
    (hnw : s.order + 1 + ops.length < 2 ^ ULONG_BITS) :
    t.order ≤ t1.order ∧
      new_mem e1 a1 n1 f1 l1 s ∈ table (on_alloc e1 a1 n1 f1 l1 s) ∧
      (new_mem e1 a1 n1 f1 l1 s).order = s.order ∧
      (on_alloc e1 a1 n1 f1 l1 s).order = s.order + 1 ∧
      (new_mem e1 a1 n1 f1 l1 s).order < (new_mem e2 a2 n2 f2 l2 s2).order := by
  have heq := on_alloc_active e1 a1 n1 f1 l1 s (Reachable_ModeOK s hr) hact ha hmal hnew
  have hord : (on_alloc e1 a1 n1 f1 l1 s).order = s.order + 1 := by
    rw [heq]
    simp only [dbg_malloc_record, MemCheck_off_order]
    exact Nat.mod_eq_of_lt (by omega)
  refine ⟨?_, ?_, rfl, hord, ?_⟩
  · rcases step_order t op t1 hstep with h | h
    · omega
    · rw [h, Nat.mod_eq_of_lt hroom]
      omega
  · rw [heq]
    simp only [table, table_dbg_malloc_record, Option.getD_some, new_mem_MemCheck_off]
    exact mem_lh_insert_self _ _ _
  · have := run_order ops _ s2 hrun (by rw [hord]; omega)
    rw [hord] at this
    show s.order < s2.order
    omega

/-- C13 at `on_alloc(0x100)`, `on_free(0x100)`, `on_alloc(0x100)` from the fresh state
with tracking on: the first record has sequence number 0, the second one 1. -/
theorem C13_sequence_numbers_increase_witness :
    (example_on.order ≤ (on_alloc example_env 0x100 10 "f.c" 5 example_on).order ∧
      new_mem example_env 0x100 10 "f.c" 5 example_on ∈
        table (on_alloc example_env 0x100 10 "f.c" 5 example_on) ∧
      (new_mem example_env 0x100 10 "f.c" 5 example_on).order = example_on.order ∧
      (on_alloc example_env 0x100 10 "f.c" 5 example_on).order = example_on.order + 1 ∧
      (new_mem example_env 0x100 10 "f.c" 5 example_on).order <
        (new_mem example_env 0x100 12 "g.c" 6
          (on_free example_env 0x100
            (on_alloc example_env 0x100 10 "f.c" 5 example_on))).order) ∧
      (table (on_alloc example_env 0x100 12 "g.c" 6
          (on_free example_env 0x100
            (on_alloc example_env 0x100 10 "f.c" 5 example_on)))).map MEM.order = [1] :=
  ⟨C13_sequence_numbers_increase example_on
      (on_free example_env 0x100 (on_alloc example_env 0x100 10 "f.c" 5 example_on))
      example_on (on_alloc example_env 0x100 10 "f.c" 5 example_on)
      (Op.dbg_malloc example_env 0x100 10 "f.c" 5 1) [Op.dbg_free example_env 0x100 0]
      example_env example_env 0x100 0x100 10 12 "f.c" "g.c" 5 6
      rfl (by decide) ⟨[Op.mem_ctrl 1 1], rfl⟩ (by decide) (by decide) rfl rfl rfl
      (by decide),
    by decide⟩

/-! ## Replacing a record of the allocation table -/

theorem filter_addr_eq (tbl : List MEM) (hnd : (tbl.map MEM.addr).Nodup) (m : MEM)
    (hm : m ∈ tbl) : tbl.filter (fun x => x.addr == m.addr) = [m] := by
  induction tbl with
  | nil => simp at hm
  | cons y ys ih =>
    simp only [List.map_cons, List.nodup_cons, List.mem_map, not_exists, not_and] at hnd
    rcases List.mem_cons.1 hm with h | h
    · subst h
      rw [List.filter_cons_of_pos (by simp)]
      congr 1
      rw [List.filter_eq_nil_iff]
      intro x hx hax
      exact hnd.1 x hx (by simpa using hax)
    · have hne : ¬ ((y.addr == m.addr) = true) := by
        intro hax
        have hax2 : y.addr = m.addr := by simpa using hax
        exact hnd.1 m h hax2.symm
      have hstep : (y :: ys).filter (fun x => x.addr == m.addr) =
          ys.filter (fun x => x.addr == m.addr) := by
        simp only [List.filter, hne]
      rw [hstep]
      exact ih hnd.2 h

theorem current_info_MemCheck_off (e : Env) (tid : Nat) (s : State) :
    current_info e (MemCheck_off tid s) = current_info e s := by
  unfold current_info
  rw [MemCheck_off_amih, MemCheck_off_heap]

theorem mh_of_mem_table (s : State) (m : MEM) (h : m ∈ table s) : s.mh = some (table s) := by
  unfold table at h ⊢
  cases hmh : s.mh with
  | none => rw [hmh] at h; simp at h
  | some tbl => rfl

/-- C14: when `on_alloc` is called with tracking active for an address that has a record
`mm` in the table, afterwards the only record of the table for that address is the new
one (size, file, line of the call, the counter value of the call as sequence number and
the current annotation of the caller), and the heap of annotations is the old one with
the count of the current annotation raised by one and the count of the annotation of
`mm`, if it has one, lowered by one. -/
theorem C14_alloc_replaces_record (e : Env) (addr : Nat) (num : Int) (file : String)
    (line : Int) (s : State) (mm : MEM) (hr : Reachable s)
    (hact : CRYPTO_mem_check_on e.tid s = true) (hmal : e.malloc_ok = true)
    (hmm : mm ∈ table s) (haddr : mm.addr = addr) :
    (table (on_alloc e addr num file line s)).filter (fun m => m.addr == addr) =
        [{ addr := addr, file := file, line := line, num := num,
           thread := if s.options &&& V_CRYPTO_MDEBUG_THREAD ≠ 0 then e.tid else 0,
           order := s.order,
           time := if s.options &&& V_CRYPTO_MDEBUG_TIME ≠ 0 then e.now else 0,
           app_info := current_info e s }] ∧
      (on_alloc e addr num file line s).heap =
        decr_ref_opt (incr_ref_opt s.heap (current_info e s)) mm.app_info ∧
      ∀ q, mm.app_info = some q →
        (deref (on_alloc e addr num file line s).heap q).references =
          (deref s.heap q).references + (if current_info e s = some q then 1 else 0) - 1 := by
  have hT := Reachable_TableOK s hr
  have hH := Reachable_HeapInv s hr
  have h0 : addr ≠ 0 := by
    intro h
    apply hT.2
    rw [← h, ← haddr]
    exact List.mem_map_of_mem _ hmm
  have heq := on_alloc_active_table e addr num file line s (table s) (Reachable_ModeOK s hr)
    hact h0 hmal (mh_of_mem_table s mm hmm)
  have hfst : (lh_insert (same_addr (new_mem e addr num file line s))
      (new_mem e addr num file line s) (table s)).1 = some mm := by
    rw [lh_insert_fst]
    cases hf : (table s).find? (same_addr (new_mem e addr num file line s)) with
    | none =>
      rw [List.find?_eq_none] at hf
      exact absurd ((same_addr_iff _ _).2 haddr) (hf mm hmm)
    | some y =>
      have hy := List.find?_some hf
      have hy2 := List.mem_of_find?_eq_some hf
      rw [eq_of_addr_eq (table s) hT.1 y mm hy2 hmm
        (((same_addr_iff _ _).1 hy).trans haddr.symm)]
  have hheap : (on_alloc e addr num file line s).heap =
      decr_ref_opt (incr_ref_opt s.heap (current_info e s)) mm.app_info := by
    rw [heq]
    show (dbg_malloc_record e addr num file line (table s) (MemCheck_off e.tid s)).heap = _
    rw [dbg_malloc_record_heap, new_mem_MemCheck_off, hfst, current_info_MemCheck_off,
      MemCheck_off_heap]
    rfl
  refine ⟨?_, hheap, ?_⟩
  · have htab : table (on_alloc e addr num file line s) =
        (lh_insert (same_addr (new_mem e addr num file line s))
          (new_mem e addr num file line s) (table s)).2 := by
      rw [heq]
      simp only [table, table_dbg_malloc_record, Option.getD_some, new_mem_MemCheck_off]
    rw [htab]
    exact filter_addr_eq _ (nodup_addrs_lh_insert _ _ hT.1) (new_mem e addr num file line s)
      (mem_lh_insert_self _ _ _)
  · intro q hq
    have hb1 : ∀ x, current_info e s = some x → x < s.heap.length :=
      fun x hx => (hH.2.2.1 x (current_info_mem e s x hx)).1
    have h1 := deref_incr_opt s.heap (current_info e s) hb1
    have hb2 : ∀ x, mm.app_info = some x →
        x < (incr_ref_opt s.heap (current_info e s)).length := by
      intro x hx
      rw [h1.1]
      exact (hH.1 mm hmm x hx).1
    have h2 := deref_decr_opt (incr_ref_opt s.heap (current_info e s)) mm.app_info hb2
    rw [hheap, h2.2 q, h1.2 q]
    simp [hq]

/-- C14 after `push("a.c", 1, "A")` and `on_alloc(0x100, 10, "f.c", 5)` by thread 1: a
second `on_alloc(0x100, 20, "g.c", 7)` leaves one record for 0x100, the new one, and
the count of annotation 0 is 2 + 1 - 1. -/
theorem C14_alloc_replaces_record_witness :
    (table (on_alloc example_env 0x100 20 "g.c" 7
        (on_alloc example_env 0x100 10 "f.c" 5 example_pushed))).filter
          (fun m => m.addr == 0x100) =
        [{ addr := 0x100, file := "g.c", line := 7, num := 20,
           thread := if (on_alloc example_env 0x100 10 "f.c" 5 example_pushed).options &&&
             V_CRYPTO_MDEBUG_THREAD ≠ 0 then example_env.tid else 0,
           order := (on_alloc example_env 0x100 10 "f.c" 5 example_pushed).order,
           time := if (on_alloc example_env 0x100 10 "f.c" 5 example_pushed).options &&&
             V_CRYPTO_MDEBUG_TIME ≠ 0 then example_env.now else 0,
           app_info := current_info example_env
             (on_alloc example_env 0x100 10 "f.c" 5 example_pushed) }] ∧
      (on_alloc example_env 0x100 20 "g.c" 7
          (on_alloc example_env 0x100 10 "f.c" 5 example_pushed)).heap =
        decr_ref_opt (incr_ref_opt (on_alloc example_env 0x100 10 "f.c" 5 example_pushed).heap
          (current_info example_env (on_alloc example_env 0x100 10 "f.c" 5 example_pushed)))
          (some 0) ∧
      ∀ q, (some 0 : Option Nat) = some q →
        (deref (on_alloc example_env 0x100 20 "g.c" 7
            (on_alloc example_env 0x100 10 "f.c" 5 example_pushed)).heap q).references =
          (deref (on_alloc example_env 0x100 10 "f.c" 5 example_pushed).heap q).references +
            (if current_info example_env
              (on_alloc example_env 0x100 10 "f.c" 5 example_pushed) = some q
              then 1 else 0) - 1 :=
  C14_alloc_replaces_record example_env 0x100 20 "g.c" 7
    (on_alloc example_env 0x100 10 "f.c" 5 example_pushed)
    { addr := 0x100, file := "f.c", line := 5, num := 10, thread := 1, order := 0, time := 0,
      app_info := some 0 }
    ⟨[Op.mem_ctrl 1 1, Op.add_info example_env "a.c" 1 "A",
      Op.dbg_malloc example_env 0x100 10 "f.c" 5 1], by decide⟩
    (by decide) rfl (by decide) rfl

/-! ## Pushing over a head annotation -/

theorem lh_insert_congr {α : Type} (p q : α → Bool) (x : α) (l : List α)
    (h : ∀ y ∈ l, p y = q y) : lh_insert p x l = lh_insert q x l := by
  induction l with
  | nil => rfl
  | cons y ys ih =>
    have hy := h y (List.mem_cons_self _ _)
    have ih2 := ih (fun z hz => h z (List.mem_cons_of_mem _ hz))
    simp only [lh_insert, hy, ih2]

theorem find_congr {α : Type} (p q : α → Bool) (l : List α) (h : ∀ y ∈ l, p y = q y) :
    l.find? p = l.find? q := by
  induction l with
  | nil => rfl
  | cons y ys ih =>
    have hy := h y (List.mem_cons_self _ _)
    have ih2 := ih (fun z hz => h z (List.mem_cons_of_mem _ hz))
    simp only [List.find?, hy, ih2]

theorem find_lh_insert {α : Type} (same same2 : α → Bool) (x : α) (l : List α)
    (hc : ∀ y ∈ l, same2 y = same y) (hx : same2 x = true) :
    (lh_insert same x l).2.find? same2 = some x := by
  induction l with
  | nil => simp [lh_insert, hx]
  | cons y ys ih =>
    have hy := hc y (List.mem_cons_self _ _)
    have ih2 := ih (fun z hz => hc z (List.mem_cons_of_mem _ hz))
    by_cases h : same y = true
    · simp [lh_insert, h, hx]
    · have h2 : same2 y = false := by rw [hy]; simpa using h
      simp only [lh_insert, h, Bool.false_eq_true, if_false, List.find?, h2]
      exact ih2

theorem same_thread_push (heap : List APP_INFO) (c key : APP_INFO) (p : Nat)
    (h : p < heap.length) : same_thread (heap ++ [c]) key p = same_thread heap key p := by
  unfold same_thread
  rw [deref_heap_push_old heap c p h]

theorem current_info_eq_head_of (e : Env) (s : State) :
    current_info e s = head_of s e.tid := by
  unfold current_info head_of heads
  cases s.amih with
  | none => rfl
  | some t => rfl

/-- The effect of `add_info_record` on the annotation table `heads s`: the record is
appended to the heap with `next` set to the caller's previous head, and takes the place
of that head in the table. -/
theorem add_info_record_head (e : Env) (file : String) (line : Int) (info : String)
    (s : State) (hlt : ∀ p ∈ heads s, p < s.heap.length) :
    (add_info_record e file line info (heads s) s).heap =
        s.heap ++ [{ thread := e.tid, file := file, line := line, info := info,
                     references := 1, next := head_of s e.tid, freed := false }] ∧
      (add_info_record e file line info (heads s) s).amih =
        some (lh_insert (same_thread s.heap (app_info_key e.tid)) s.heap.length (heads s)).2 := by
  have hcongr : lh_insert (same_thread (s.heap ++
        [{ thread := e.tid, file := file, line := line, info := info,
           references := 1, next := none, freed := false }])
        (deref (s.heap ++
        [{ thread := e.tid, file := file, line := line, info := info,
           references := 1, next := none, freed := false }]) s.heap.length))
        s.heap.length (heads s) =
      lh_insert (same_thread s.heap (app_info_key e.tid)) s.heap.length (heads s) := by
    apply lh_insert_congr
    intro y hy
    rw [deref_heap_push_new, same_thread_push _ _ _ _ (hlt y hy)]
    rfl
  unfold add_info_record
  dsimp only
  rw [hcongr, lh_insert_fst]
  refine ⟨?_, rfl⟩
  show (match (heads s).find? (same_thread s.heap (app_info_key e.tid)) with
    | some amim => _
    | none => _) = _
  unfold head_of lh_retrieve
  cases (heads s).find? (same_thread s.heap (app_info_key e.tid)) with
  | none => rfl
  | some amim => exact heap_upd_push _ _ _

theorem heads_MemCheck_off (tid : Nat) (s : State) : heads (MemCheck_off tid s) = heads s := by
  unfold heads
  rw [MemCheck_off_amih]

theorem head_of_MemCheck_off (tid u : Nat) (s : State) :
    head_of (MemCheck_off tid s) u = head_of s u := by
  unfold head_of
  rw [heads_MemCheck_off, MemCheck_off_heap]

/-- The result of `CRYPTO_add_info` with tracking active when the table can be had. -/
theorem add_info_active (e : Env) (file : String) (line : Int) (info : String) (s : State)
    (hm : ModeOK s) (ha : CRYPTO_mem_check_on e.tid s = true) (hmal : e.malloc_ok = true)
    (ht : s.amih ≠ none ∨ e.lh_new_ok = true) :
    (CRYPTO_add_info e file line info s).2 =
      { add_info_record e file line info (heads s) (MemCheck_off e.tid s) with
        mh_mode := s.mh_mode, disabling_thread := s.disabling_thread } := by
  unfold CRYPTO_add_info
  rw [if_pos ha]
  dsimp only
  rw [if_neg (by simp [hmal])]
  have htbl : lh_new_if_null e.lh_new_ok (MemCheck_off e.tid s).amih = some (heads s) := by
    unfold lh_new_if_null heads
    rw [MemCheck_off_amih]
    cases hs : s.amih with
    | some t => rfl
    | none =>
      rcases ht with h | h
      · exact absurd hs h
      · simp [h]
  rw [htbl]
  exact wrap_active e.tid s (add_info_record e file line info (heads s))
    (fun x => ⟨(add_info_record_frame e file line info _ x).1,
      (add_info_record_frame e file line info _ x).2.1⟩) hm ha

/-- C15 (counterexample): thread 1 has the head annotation 0 with reference count 1 and
tracking is active; after its `push("b.c", 2, "B")` the new record 1 is the head and
links to record 0, whose reference count is still 1, not 2. -/
theorem C15_counterexample :
    head_of example_pushed 1 = some 0 ∧
      CRYPTO_mem_check_on 1 example_pushed = true ∧
      (deref example_pushed.heap 0).references = 1 ∧
      head_of (CRYPTO_add_info example_env "b.c" 2 "B" example_pushed).2 1 = some 1 ∧
      (deref (CRYPTO_add_info example_env "b.c" 2 "B" example_pushed).2.heap 1).next =
        some 0 ∧
      (deref (CRYPTO_add_info example_env "b.c" 2 "B" example_pushed).2.heap 0).references
        = 1 := by
  decide

/-- C15 (amended): when `push` is called with tracking active by a thread that has a
head annotation `H`, afterwards the new record is the thread's head in the annotation
table, its reference count is 1, its previous-link points to `H`, and `H` is unchanged:
its reference count is the same as before the push. -/
theorem C15_push_over_head (e : Env) (file : String) (line : Int) (info : String)
    (s : State) (H : Nat) (hr : Reachable s) (hact : CRYPTO_mem_check_on e.tid s = true)
    (hmal : e.malloc_ok = true) (hH : head_of s e.tid = some H) :
    head_of (CRYPTO_add_info e file line info s).2 e.tid = some s.heap.length ∧
      deref (CRYPTO_add_info e file line info s).2.heap s.heap.length =
        { thread := e.tid, file := file, line := line, info := info,
          references := 1, next := some H, freed := false } ∧
      deref (CRYPTO_add_info e file line info s).2.heap H = deref s.heap H ∧
      (deref (CRYPTO_add_info e file line info s).2.heap H).references =
        (deref s.heap H).references := by
  have hI := Reachable_HeapInv s hr
  have hlt : ∀ p ∈ heads s, p < s.heap.length := fun p hp => (hI.2.2.1 p hp).1
  have hHm : H ∈ heads s := by
    unfold head_of lh_retrieve at hH
    exact List.mem_of_find?_eq_some hH
  have hne : s.amih ≠ none := by
    intro h
    unfold heads at hHm
    rw [h] at hHm
    simp at hHm
  have heq := add_info_active e file line info s (Reachable_ModeOK s hr) hact hmal (Or.inl hne)
  have hrec := add_info_record_head e file line info (MemCheck_off e.tid s)
    (by rw [heads_MemCheck_off, MemCheck_off_heap]; exact hlt)
  rw [heads_MemCheck_off, MemCheck_off_heap, head_of_MemCheck_off, hH] at hrec
  have hheap : (CRYPTO_add_info e file line info s).2.heap =
      s.heap ++ [{ thread := e.tid, file := file, line := line, info := info,
                   references := 1, next := some H, freed := false }] := by
    rw [heq]
    exact hrec.1
  have hamih : heads (CRYPTO_add_info e file line info s).2 =
      (lh_insert (same_thread s.heap (app_info_key e.tid)) s.heap.length (heads s)).2 := by
    rw [heq]
    show (add_info_record e file line info (heads s) (MemCheck_off e.tid s)).amih.getD [] = _
    rw [hrec.2]
    rfl
  have hold : deref (CRYPTO_add_info e file line info s).2.heap H = deref s.heap H := by
    rw [hheap]
    exact deref_heap_push_old _ _ _ (hlt H hHm)
  refine ⟨?_, ?_, hold, by rw [hold]⟩
  · unfold head_of lh_retrieve
    rw [hamih, hheap]
    apply find_lh_insert
    · intro y hy
      exact same_thread_push _ _ _ _ (hlt y hy)
    · rw [same_thread_iff, deref_heap_push_new]
      rfl
  · rw [hheap]
    exact deref_heap_push_new _ _

/-- C15 (amended) at the second push of thread 1: record 1 becomes the head, links to
record 0, and record 0 keeps its reference count 1. -/
theorem C15_push_over_head_witness :
    head_of (CRYPTO_add_info example_env "b.c" 2 "B" example_pushed).2 example_env.tid =
        some example_pushed.heap.length ∧
      deref (CRYPTO_add_info example_env "b.c" 2 "B" example_pushed).2.heap
          example_pushed.heap.length =
        { thread := example_env.tid, file := "b.c", line := 2, info := "B",
          references := 1, next := some 0, freed := false } ∧
      deref (CRYPTO_add_info example_env "b.c" 2 "B" example_pushed).2.heap 0 =
        deref example_pushed.heap 0 ∧
      (deref (CRYPTO_add_info example_env "b.c" 2 "B" example_pushed).2.heap 0).references =
        (deref example_pushed.heap 0).references :=
  C15_push_over_head example_env "b.c" 2 "B" example_pushed 0
    ⟨[Op.mem_ctrl 1 1, Op.add_info example_env "a.c" 1 "A"], by decide⟩
    (by decide) rfl (by decide)

/-! ## Lookups in a table after a deletion or an insertion -/

theorem find_lh_delete {α : Type} (same p : α → Bool) (l : List α)
    (h : ∀ y ∈ l, same y = true → p y = false) :
    (lh_delete same l).2.find? p = l.find? p := by
  induction l with
  | nil => rfl
  | cons y ys ih =>
    have ih2 := ih (fun z hz => h z (List.mem_cons_of_mem _ hz))
    by_cases hy : same y = true
    · have hp := h y (List.mem_cons_self _ _) hy
      simp [lh_delete, hy, List.find?, hp]
    · simp only [lh_delete, hy, Bool.false_eq_true, if_false, List.find?]
      rw [ih2]

theorem find_lh_insert_other {α : Type} (same p : α → Bool) (x : α) (l : List α)
    (h : ∀ y ∈ l, same y = true → p y = false) (hx : p x = false) :
    (lh_insert same x l).2.find? p = l.find? p := by
  induction l with
  | nil => simp [lh_insert, List.find?, hx]
  | cons y ys ih =>
    have ih2 := ih (fun z hz => h z (List.mem_cons_of_mem _ hz))
    by_cases hy : same y = true
    · have hp := h y (List.mem_cons_self _ _) hy
      simp [lh_insert, hy, List.find?, hp, hx]
    · simp only [lh_insert, hy, Bool.false_eq_true, if_false, List.find?]
      rw [ih2]

theorem nodup_keys_lh_insert {α κ : Type} (f : α → κ) (same : α → Bool) (x : α)
    (l : List α) (hs : ∀ y ∈ l, (same y = true ↔ f y = f x)) (hnd : (l.map f).Nodup) :
    ((lh_insert same x l).2.map f).Nodup := by
  induction l with
  | nil => simp [lh_insert]
  | cons y ys ih =>
    have ih2 := ih (fun z hz => hs z (List.mem_cons_of_mem _ hz))
    simp only [List.map_cons, List.nodup_cons, List.mem_map, not_exists, not_and] at hnd
    by_cases hy : same y = true
    · have hfy := (hs y (List.mem_cons_self _ _)).1 hy
      simp only [lh_insert, hy, if_true, List.map_cons, List.nodup_cons, List.mem_map,
        not_exists, not_and]
      rw [← hfy]
      exact hnd
    · have hfy : ¬ (f y = f x) := fun h => hy ((hs y (List.mem_cons_self _ _)).2 h)
      simp only [lh_insert, hy, Bool.false_eq_true, if_false, List.map_cons, List.nodup_cons,
        List.mem_map, not_exists, not_and]
      refine ⟨?_, ih2 hnd.2⟩
      intro z hz hfz
      rcases mem_lh_insert_snd _ _ _ _ hz with h1 | h1
      · rw [h1] at hfz
        exact hfy hfz.symm
      · exact hnd.1 z h1 hfz

theorem keys_lh_delete {α κ : Type} (f : α → κ) (same : α → Bool) (l : List α) (ret : α)
    (hnd : (l.map f).Nodup) (h : (lh_delete same l).1 = some ret) :
    ((lh_delete same l).2.map f).Nodup ∧ ∀ y ∈ (lh_delete same l).2, f y ≠ f ret := by
  have hperm := (lh_delete_perm same l ret h).map f
  have hnd2 := hperm.nodup_iff.1 hnd
  simp only [List.map_cons, List.nodup_cons, List.mem_map, not_exists, not_and] at hnd2
  exact ⟨hnd2.2, fun y hy => hnd2.1 y hy⟩

theorem same_thread_congr (h1 h2 : List APP_INFO) (k1 k2 : APP_INFO) (y : Nat)
    (ht : (deref h1 y).thread = (deref h2 y).thread) (hk : k1.thread = k2.thread) :
    same_thread h1 k1 y = same_thread h2 k2 y := by
  rw [Bool.eq_iff_iff, same_thread_iff, same_thread_iff, ht, hk]

theorem same_thread_false (heap : List APP_INFO) (key : APP_INFO) (y : Nat)
    (h : (deref heap y).thread ≠ key.thread) : same_thread heap key y = false := by
  rw [Bool.eq_false_iff]
  intro h2
  exact h ((same_thread_iff _ _ _).1 h2)

theorem head_of_thread (s : State) (tid p : Nat) (h : head_of s tid = some p) :
    p ∈ heads s ∧ (deref s.heap p).thread = tid := by
  unfold head_of lh_retrieve at h
  exact ⟨List.mem_of_find?_eq_some h, (same_thread_iff _ _ _).1 (List.find?_some h)⟩

/-- The head of a thread in a table read through another heap and table, when the
thread fields agree and the two lookups agree. -/
theorem head_of_eq (s s1 : State) (u : Nat)
    (h : (heads s1).find? (same_thread s1.heap (app_info_key u)) =
      (heads s).find? (same_thread s.heap (app_info_key u))) :
    head_of s1 u = head_of s u := by
  unfold head_of lh_retrieve
  exact h

theorem remove_info_amih (e : Env) (s : State) (tbl tbl1 : List Nat) (ret : Nat)
    (hamih : s.amih = some tbl)
    (hdel : lh_delete (same_thread s.heap (app_info_key e.tid)) tbl = (some ret, tbl1)) :
    (remove_info e s).1 = some ret ∧
      (remove_info e s).2.amih =
        some (insert_next (incr_ref_opt s.heap (deref s.heap ret).next)
          (deref s.heap ret).next tbl1) := by
  unfold remove_info
  rw [hamih]
  dsimp only
  rw [hdel]
  dsimp only
  split_ifs <;> exact ⟨rfl, rfl⟩

theorem remove_info_none (e : Env) (s : State) (h : head_of s e.tid = none) :
    remove_info e s = (none, s) := by
  unfold head_of lh_retrieve heads at h
  unfold remove_info
  cases hamih : s.amih with
  | none => rfl
  | some tbl =>
    rw [hamih] at h
    simp only [Option.getD_some] at h
    have h1 : (lh_delete (same_thread s.heap (app_info_key e.tid)) tbl).1 = none := by
      rw [lh_delete_fst]; exact h
    dsimp only
    split
    · rfl
    · rename_i ret tbl1 heq
      rw [heq] at h1
      simp at h1

theorem amih_of_mem_heads (s : State) (p : Nat) (h : p ∈ heads s) :
    s.amih = some (heads s) := by
  unfold heads at h ⊢
  cases hamih : s.amih with
  | none => rw [hamih] at h; simp at h
  | some tbl => rfl

/-- One call of `remove_info` by a thread whose head annotation is `ret`: the call
returns `ret`, the head of the thread becomes the record `ret` linked to, and the heads
and records of the other threads are as before. -/
theorem remove_info_pop (e : Env) (s : State) (ret : Nat) (hI : HeapInv s) (hS : StackInv s)
    (hh : head_of s e.tid = some ret) :
    (remove_info e s).1 = some ret ∧
    (remove_info e s).2.heap.length = s.heap.length ∧
    (∀ j, (deref (remove_info e s).2.heap j).thread = (deref s.heap j).thread) ∧
    (∀ j, j ≠ ret → (deref (remove_info e s).2.heap j).next = (deref s.heap j).next) ∧
    (∀ j q, (deref (remove_info e s).2.heap j).next = some q →
      (deref s.heap j).next = some q) ∧
    (∀ j, live (remove_info e s).2.heap j → live s.heap j) ∧
    (∀ j, (deref s.heap j).thread ≠ e.tid →
      deref (remove_info e s).2.heap j = deref s.heap j) ∧
    head_of (remove_info e s).2 e.tid = (deref s.heap ret).next ∧
    (∀ u, u ≠ e.tid → head_of (remove_info e s).2 u = head_of s u) ∧
    ((heads (remove_info e s).2).map (fun p => (deref s.heap p).thread)).Nodup := by
  obtain ⟨hretmem, hthr⟩ := head_of_thread s e.tid ret hh
  have hamih := amih_of_mem_heads s ret hretmem
  have hdel1 : (lh_delete (same_thread s.heap (app_info_key e.tid)) (heads s)).1 = some ret := by
    rw [lh_delete_fst]; exact hh
  have hdel : lh_delete (same_thread s.heap (app_info_key e.tid)) (heads s) =
      (some ret, (lh_delete (same_thread s.heap (app_info_key e.tid)) (heads s)).2) := by
    rw [← hdel1]
  obtain ⟨_, hB, hC, _⟩ := hI
  have hretlive := hC ret hretmem
  have hnxlive : ∀ nx, (deref s.heap ret).next = some nx → nx < ret ∧ live s.heap nx :=
    fun nx hnx => hB ret hretlive nx hnx
  obtain ⟨tbl2, _, _, _, _, s5, s6⟩ := remove_info_spec e s (heads s) _ ret hamih hdel
    hretlive.1 (fun nx hnx => ⟨(hnxlive nx hnx).2.1, by
      have := (hnxlive nx hnx).1
      omega⟩)
  obtain ⟨am1, am2⟩ := remove_info_amih e s (heads s) _ ret hamih hdel
  have hheads1 : heads (remove_info e s).2 =
      insert_next (incr_ref_opt s.heap (deref s.heap ret).next) (deref s.heap ret).next
        (lh_delete (same_thread s.heap (app_info_key e.tid)) (heads s)).2 := by
    simp only [heads, am2, Option.getD_some]
  have hT : ∀ j, (deref (remove_info e s).2.heap j).thread = (deref s.heap j).thread := by
    intro j
    rcases s6 with ⟨_, hd⟩ | ⟨_, hd⟩
    · rw [hd j]
      by_cases hj : j = ret
      · subst hj; simp
      · simp [hj]
    · rw [hd j]
  have hT1 : ∀ j, (deref (incr_ref_opt s.heap (deref s.heap ret).next) j).thread =
      (deref s.heap j).thread := by
    intro j
    rw [(deref_incr_opt s.heap (deref s.heap ret).next
      (fun x hx => (hnxlive x hx).2.1)).2 j]
  have hkeys := keys_lh_delete (fun p => (deref s.heap p).thread)
    (same_thread s.heap (app_info_key e.tid)) (heads s) ret hS.1 hdel1
  have hkey : (app_info_key e.tid).thread = e.tid := rfl
  have hother : ∀ u, u ≠ e.tid → ∀ y, same_thread s.heap (app_info_key e.tid) y = true →
      same_thread s.heap (app_info_key u) y = false := by
    intro u hu y hy
    apply same_thread_false
    rw [(same_thread_iff _ _ _).1 hy]
    exact fun h => hu h.symm
  refine ⟨am1, s5, hT, ?_, ?_, ?_, ?_, ?_, ?_, ?_⟩
  · intro j hj
    rcases s6 with ⟨_, hd⟩ | ⟨_, hd⟩
    · rw [hd j, if_neg hj]
    · rw [hd j]
  · intro j q hq
    rcases s6 with ⟨_, hd⟩ | ⟨_, hd⟩
    · rw [hd j] at hq
      by_cases hj : j = ret
      · rw [if_pos hj] at hq
        simp at hq
      · rw [if_neg hj] at hq
        exact hq
    · rw [hd j] at hq
      exact hq
  · intro j hj
    unfold live at hj ⊢
    rw [s5] at hj
    refine ⟨hj.1, ?_⟩
    have hj2 := hj.2
    rcases s6 with ⟨_, hd⟩ | ⟨_, hd⟩
    · rw [hd j] at hj2
      by_cases hjr : j = ret
      · rw [if_pos hjr] at hj2
        simp at hj2
      · rw [if_neg hjr] at hj2
        exact hj2
    · rw [hd j] at hj2
      exact hj2
  · intro j hj
    have hjr : j ≠ ret := by
      intro h
      rw [h] at hj
      exact hj hthr
    rcases s6 with ⟨_, hd⟩ | ⟨_, hd⟩
    · rw [hd j, if_neg hjr]
    · rw [hd j]
      have hn : (deref s.heap ret).next ≠ some j := by
        intro h
        apply hj
        rw [hS.2 ret j hretlive h]
        exact hthr
      simp [hn, hjr]
  · unfold head_of lh_retrieve
    rw [hheads1]
    cases hnext : (deref s.heap ret).next with
    | none =>
      show List.find? _ (lh_delete (same_thread s.heap (app_info_key e.tid)) (heads s)).2 = none
      rw [List.find?_eq_none]
      intro y hy hsame
      have h1 := (same_thread_iff _ _ _).1 hsame
      rw [hT y] at h1
      exact hkeys.2 y hy (h1.trans hthr.symm)
    | some nx =>
      have hnxt : (deref s.heap nx).thread = e.tid := (hS.2 ret nx hretlive hnext).trans hthr
      rw [hnext] at hT1
      show List.find? _ (lh_insert _ nx _).2 = some nx
      apply find_lh_insert
      · intro y _
        apply same_thread_congr
        · rw [hT y, hT1 y]
        · rw [hT1 nx, hnxt]; rfl
      · rw [same_thread_iff, hT nx, hnxt]; rfl
  · intro u hu
    apply head_of_eq
    rw [hheads1]
    rw [find_congr (same_thread (remove_info e s).2.heap (app_info_key u))
      (same_thread s.heap (app_info_key u)) _
      (fun y _ => same_thread_congr _ _ _ _ y (hT y) rfl)]
    cases hnext : (deref s.heap ret).next with
    | none =>
      show List.find? _ (lh_delete (same_thread s.heap (app_info_key e.tid)) (heads s)).2 = _
      exact find_lh_delete _ _ _ (fun y _ hy => hother u hu y hy)
    | some nx =>
      have hnxt : (deref s.heap nx).thread = e.tid := (hS.2 ret nx hretlive hnext).trans hthr
      rw [hnext] at hT1
      show List.find? _ (lh_insert _ nx _).2 = _
      rw [find_lh_insert_other]
      · exact find_lh_delete _ _ _ (fun y _ hy => hother u hu y hy)
      · intro y _ hy
        apply same_thread_false
        have h1 := (same_thread_iff _ _ _).1 hy
        rw [hT1 y, hT1 nx, hnxt] at h1
        rw [h1]
        exact fun h => hu h.symm
      · apply same_thread_false
        rw [hnxt]
        exact fun h => hu h.symm
  · rw [hheads1]
    cases hnext : (deref s.heap ret).next with
    | none => exact hkeys.1
    | some nx =>
      rw [hnext] at hT1
      show (List.map _ (lh_insert _ nx _).2).Nodup
      apply nodup_keys_lh_insert
      · intro y _
        rw [same_thread_iff, hT1 y, hT1 nx]
      · exact hkeys.1

theorem StackInv_of_eq (s s1 : State) (h2 : s1.amih = s.amih) (h3 : s1.heap = s.heap)
    (h : StackInv s) : StackInv s1 := by
  unfold StackInv heads at h ⊢
  rw [h2, h3]; exact h

/-- The stack invariant carries over to a state with the same annotation table whose
heap has the same thread and `next` fields. -/
theorem StackInv_of_shape (s s1 : State) (h : StackInv s) (h2 : s1.amih = s.amih)
    (hlen : s1.heap.length = s.heap.length)
    (hsh : ∀ j, (deref s1.heap j).thread = (deref s.heap j).thread ∧
      (deref s1.heap j).next = (deref s.heap j).next ∧
      (deref s1.heap j).freed = (deref s.heap j).freed) : StackInv s1 := by
  unfold StackInv heads at h ⊢
  rw [h2]
  refine ⟨?_, ?_⟩
  · have : (fun p => (deref s1.heap p).thread) = (fun p => (deref s.heap p).thread) := by
      funext p; exact (hsh p).1
    rw [this]; exact h.1
  · intro p q hlive hpq
    rw [(hsh p).2.1] at hpq
    rw [(hsh q).1, (hsh p).1]
    exact h.2 p q ((live_of_shape s.heap s1.heap p hlen
      (fun j => ⟨(hsh j).2.1, (hsh j).2.2⟩)).1 hlive) hpq

theorem StackInv_remove_info (e : Env) (s : State) (hI : HeapInv s) (hS : StackInv s) :
    StackInv (remove_info e s).2 := by
  cases hh : head_of s e.tid with
  | none => rw [remove_info_none e s hh]; exact hS
  | some ret =>
    obtain ⟨_, _, hT, _, hN, hL, _, _, _, hnd⟩ := remove_info_pop e s ret hI hS hh
    refine ⟨?_, ?_⟩
    · have : (fun p => (deref (remove_info e s).2.heap p).thread) =
          (fun p => (deref s.heap p).thread) := by
        funext p; exact hT p
      rw [this]; exact hnd
    · intro p q hlive hpq
      rw [hT q, hT p]
      exact hS.2 p q (hL p hlive) (hN p q hpq)

/-! ## The stack invariant holds in every reachable state -/

theorem heap_upd_fields (heap : List APP_INFO) (p : Nat) (f : APP_INFO → APP_INFO)
    (hf : ∀ c, (f c).thread = c.thread ∧ (f c).next = c.next ∧ (f c).freed = c.freed)
    (j : Nat) :
    (deref (heap_upd heap p f) j).thread = (deref heap j).thread ∧
      (deref (heap_upd heap p f) j).next = (deref heap j).next ∧
      (deref (heap_upd heap p f) j).freed = (deref heap j).freed := by
  by_cases hj : j = p
  · by_cases hp : p < heap.length
    · rw [hj, deref_heap_upd_self _ _ _ hp]
      exact hf _
    · have : heap_upd heap p f = heap := by
        unfold heap_upd
        exact List.set_eq_of_length_le (by omega)
      rw [this]
      exact ⟨rfl, rfl, rfl⟩
  · rw [deref_heap_upd_ne _ _ _ _ hj]
    exact ⟨rfl, rfl, rfl⟩

theorem incr_ref_opt_fields (heap : List APP_INFO) (a : Option Nat) :
    (incr_ref_opt heap a).length = heap.length ∧
    ∀ j, (deref (incr_ref_opt heap a) j).thread = (deref heap j).thread ∧
      (deref (incr_ref_opt heap a) j).next = (deref heap j).next ∧
      (deref (incr_ref_opt heap a) j).freed = (deref heap j).freed := by
  cases a with
  | none => exact ⟨rfl, fun _ => ⟨rfl, rfl, rfl⟩⟩
  | some q =>
    have h0 : incr_ref_opt heap (some q) =
        heap_upd heap q (fun c => { c with references := c.references + 1 }) := rfl
    rw [h0]
    refine ⟨length_heap_upd _ _ _, fun j => ?_⟩
    apply heap_upd_fields
    intro c
    exact ⟨rfl, rfl, rfl⟩

theorem decr_ref_opt_fields (heap : List APP_INFO) (a : Option Nat) :
    (decr_ref_opt heap a).length = heap.length ∧
    ∀ j, (deref (decr_ref_opt heap a) j).thread = (deref heap j).thread ∧
      (deref (decr_ref_opt heap a) j).next = (deref heap j).next ∧
      (deref (decr_ref_opt heap a) j).freed = (deref heap j).freed := by
  cases a with
  | none => exact ⟨rfl, fun _ => ⟨rfl, rfl, rfl⟩⟩
  | some q =>
    have h0 : decr_ref_opt heap (some q) =
        heap_upd heap q (fun c => { c with references := c.references - 1 }) := rfl
    rw [h0]
    refine ⟨length_heap_upd _ _ _, fun j => ?_⟩
    apply heap_upd_fields
    intro c
    exact ⟨rfl, rfl, rfl⟩

theorem StackInv_init : StackInv init := by
  refine ⟨by simp [heads, init], ?_⟩
  intro p q h
  exact absurd h.1 (by simp [init])

theorem StackInv_MemCheck_on (tid : Nat) (s : State) (h : StackInv s) :
    StackInv (MemCheck_on tid s) :=
  StackInv_of_eq s _ (by simp) (by simp) h

theorem StackInv_MemCheck_off (tid : Nat) (s : State) (h : StackInv s) :
    StackInv (MemCheck_off tid s) :=
  StackInv_of_eq s _ (by simp) (by simp) h

/-- Appending a record keeps the link part of the stack invariant when the appended
record, if unreleased, links to a record of the heap of the same thread or to none. -/
theorem links_push (heap : List APP_INFO) (c : APP_INFO)
    (hB : ∀ p, live heap p → ∀ q, (deref heap p).next = some q → q < p ∧ live heap q)
    (h : ∀ p q, live heap p → (deref heap p).next = some q →
      (deref heap q).thread = (deref heap p).thread)
    (hc : c.freed = false → ∀ q, c.next = some q →
      q < heap.length ∧ (deref heap q).thread = c.thread) :
    ∀ p q, live (heap ++ [c]) p → (deref (heap ++ [c]) p).next = some q →
      (deref (heap ++ [c]) q).thread = (deref (heap ++ [c]) p).thread := by
  intro p q hlive hpq
  rcases live_push_inv _ _ _ hlive with hp | hp
  · rw [deref_heap_push_old _ _ _ hp.1] at hpq ⊢
    have hq := hB p hp q hpq
    rw [deref_heap_push_old _ _ _ (by have := hp.1; omega)]
    exact h p q hp hpq
  · subst hp
    have hf := hlive.2
    rw [deref_heap_push_new] at hpq hf ⊢
    obtain ⟨hq, ht⟩ := hc hf q hpq
    rw [deref_heap_push_old _ _ _ hq]
    exact ht

theorem map_thread_push (heap : List APP_INFO) (c : APP_INFO) (l : List Nat)
    (hl : ∀ p ∈ l, p < heap.length) :
    l.map (fun p => (deref (heap ++ [c]) p).thread) =
      l.map (fun p => (deref heap p).thread) := by
  apply List.map_congr_left
  intro p hp
  rw [deref_heap_push_old _ _ _ (hl p hp)]

theorem StackInv_push_freed (s : State) (c : APP_INFO) (hc : c.freed = true)
    (hI : HeapInv s) (hS : StackInv s) : StackInv { s with heap := s.heap ++ [c] } := by
  refine ⟨?_, ?_⟩
  · show ((heads s).map (fun p => (deref (s.heap ++ [c]) p).thread)).Nodup
    rw [map_thread_push _ _ _ (fun p hp => (hI.2.2.1 p hp).1)]
    exact hS.1
  · exact links_push s.heap c hI.2.1 hS.2 (fun hf => by rw [hc] at hf; simp at hf)

theorem StackInv_add_info_record (e : Env) (file : String) (line : Int) (info : String)
    (s : State) (hI : HeapInv s) (hS : StackInv s) :
    StackInv (add_info_record e file line info (heads s) s) := by
  have hlt : ∀ p ∈ heads s, p < s.heap.length := fun p hp => (hI.2.2.1 p hp).1
  obtain ⟨hheap, hamih⟩ := add_info_record_head e file line info s hlt
  unfold StackInv
  have hheads : heads (add_info_record e file line info (heads s) s) =
      (lh_insert (same_thread s.heap (app_info_key e.tid)) s.heap.length (heads s)).2 := by
    show (add_info_record e file line info (heads s) s).amih.getD [] = _
    rw [hamih]
    rfl
  rw [hheads, hheap]
  refine ⟨?_, ?_⟩
  · apply nodup_keys_lh_insert
    · intro y hy
      rw [same_thread_iff, deref_heap_push_old _ _ _ (hlt y hy), deref_heap_push_new]
      rfl
    · rw [map_thread_push _ _ _ hlt]
      exact hS.1
  · apply links_push s.heap _ hI.2.1 hS.2
    intro _ q hq
    have := head_of_thread s e.tid q hq
    exact ⟨hlt q this.1, this.2⟩

theorem StackInv_add_info (e : Env) (file : String) (line : Int) (info : String)
    (s : State) (hI : HeapInv s) (hS : StackInv s) :
    StackInv (CRYPTO_add_info e file line info s).2 := by
  unfold CRYPTO_add_info
  split_ifs
  · exact StackInv_MemCheck_on _ _ (StackInv_MemCheck_off _ _ hS)
  · dsimp only
    split
    · exact StackInv_MemCheck_on _ _
        (StackInv_push_freed _ _ rfl (HeapInv_MemCheck_off _ _ hI)
          (StackInv_MemCheck_off _ _ hS))
    · rename_i tbl heq
      have htbl : tbl = heads (MemCheck_off e.tid s) := lh_new_if_null_some _ _ _ heq
      rw [htbl]
      exact StackInv_MemCheck_on _ _
        (StackInv_add_info_record e file line info _ (HeapInv_MemCheck_off _ _ hI)
          (StackInv_MemCheck_off _ _ hS))
  · exact hS

theorem StackInv_CRYPTO_remove_info (e : Env) (s : State) (hI : HeapInv s)
    (hS : StackInv s) : StackInv (CRYPTO_remove_info e s).2 := by
  unfold CRYPTO_remove_info
  split_ifs
  · exact StackInv_MemCheck_on _ _
      (StackInv_remove_info e _ (HeapInv_MemCheck_off _ _ hI) (StackInv_MemCheck_off _ _ hS))
  · exact hS

theorem StackInv_remove_all_loop (e : Env) (fuel : Nat) :
    ∀ (ret : Int) (s : State) (r : Int × State), HeapInv s → StackInv s →
      remove_all_loop e fuel ret s = some r → StackInv r.2 := by
  induction fuel with
  | zero => intro ret s r _ _ h; simp [remove_all_loop] at h
  | succ n ih =>
    intro ret s r hI hS h
    unfold remove_all_loop at h
    have hf := StackInv_remove_info e s hI hS
    have hg := HeapInv_remove_info e s hI
    split at h
    · rename_i s1 heq
      rw [heq] at hf
      simp only [Option.some.injEq] at h
      subst h
      exact hf
    · rename_i x s1 heq
      rw [heq] at hf hg
      exact ih _ _ _ hg hf h

theorem StackInv_remove_all_info (fuel : Nat) (e : Env) (s : State) (r : Int × State)
    (hI : HeapInv s) (hS : StackInv s) (hr : CRYPTO_remove_all_info fuel e s = some r) :
    StackInv r.2 := by
  unfold CRYPTO_remove_all_info at hr
  split_ifs at hr
  · dsimp only at hr
    split at hr
    · simp at hr
    · rename_i ret s2 heq
      simp only [Option.some.injEq] at hr
      subst hr
      exact StackInv_MemCheck_on _ _
        (StackInv_remove_all_loop e fuel 0 _ _ (HeapInv_MemCheck_off _ _ hI)
          (StackInv_MemCheck_off _ _ hS) heq)
  · simp only [Option.some.injEq] at hr
    subst hr; exact hS

theorem StackInv_dbg_malloc_record (e : Env) (addr : Nat) (num : Int) (file : String)
    (line : Int) (tbl : List MEM) (s : State) (hS : StackInv s) :
    StackInv (dbg_malloc_record e addr num file line tbl s) := by
  apply StackInv_of_shape s _ hS (dbg_malloc_record_frame e addr num file line tbl s).2.2.1
  · rw [dbg_malloc_record_heap, (decr_ref_opt_fields _ _).1, (incr_ref_opt_fields _ _).1]
  · intro j
    rw [dbg_malloc_record_heap]
    have h1 := (incr_ref_opt_fields s.heap (current_info e s)).2 j
    have h2 := (decr_ref_opt_fields (incr_ref_opt s.heap (current_info e s))
      ((lh_insert (same_addr (new_mem e addr num file line s))
          (new_mem e addr num file line s) tbl).1.bind MEM.app_info)).2 j
    exact ⟨h2.1.trans h1.1, h2.2.1.trans h1.2.1, h2.2.2.trans h1.2.2⟩

theorem StackInv_dbg_free_record (addr : Nat) (tbl : List MEM) (s : State)
    (hS : StackInv s) : StackInv (dbg_free_record addr tbl s) := by
  unfold dbg_free_record
  split
  · rename_i mp tbl1 heq
    exact StackInv_of_shape s _ hS rfl (decr_ref_opt_fields _ _).1
      (decr_ref_opt_fields _ _).2
  · exact hS

theorem StackInv_dbg_malloc (e : Env) (addr : Nat) (num : Int) (file : String) (line : Int)
    (before_p : Nat) (s : State) (hS : StackInv s) :
    StackInv (CRYPTO_dbg_malloc e addr num file line before_p s) := by
  unfold CRYPTO_dbg_malloc
  split_ifs
  · exact hS
  · exact StackInv_MemCheck_on _ _
      (StackInv_of_eq _ _ rfl rfl (StackInv_MemCheck_off e.tid s hS))
  · dsimp only
    split
    · exact StackInv_MemCheck_on _ _
        (StackInv_of_eq _ _ rfl rfl (StackInv_MemCheck_off e.tid s hS))
    · exact StackInv_MemCheck_on _ _
        (StackInv_dbg_malloc_record e addr num file line _ _ (StackInv_MemCheck_off _ _ hS))
  · exact hS
  · exact hS

theorem StackInv_dbg_free (e : Env) (addr : Nat) (before_p : Nat) (s : State)
    (hS : StackInv s) : StackInv (CRYPTO_dbg_free e addr before_p s) := by
  unfold CRYPTO_dbg_free
  split_ifs
  · exact hS
  · split
    · exact hS
    · exact StackInv_MemCheck_on _ _
        (StackInv_dbg_free_record addr _ _ (StackInv_MemCheck_off _ _ hS))
  · exact hS
  · exact hS

theorem StackInv_dbg_realloc (e : Env) (addr1 addr2 : Nat) (num : Int) (file : String)
    (line : Int) (before_p : Nat) (s s1 : State) (hS : StackInv s)
    (hr : CRYPTO_dbg_realloc e addr1 addr2 num file line before_p s = some s1) :
    StackInv s1 := by
  unfold CRYPTO_dbg_realloc at hr
  split_ifs at hr
  · simp only [Option.some.injEq] at hr; subst hr; exact hS
  · simp only [Option.some.injEq] at hr; subst hr
    exact StackInv_dbg_malloc e addr2 num file line _ s hS
  · dsimp only at hr
    split at hr
    · simp at hr
    · rename_i tbl heq
      simp only [Option.some.injEq] at hr; subst hr
      exact StackInv_MemCheck_on _ _
        (StackInv_of_eq _ _ (dbg_realloc_record_frame addr1 addr2 num tbl _).2.2.1
          (dbg_realloc_record_frame addr1 addr2 num tbl _).2.2.2.1
          (StackInv_MemCheck_off _ _ hS))
  · simp only [Option.some.injEq] at hr; subst hr; exact hS
  · simp only [Option.some.injEq] at hr; subst hr; exact hS

theorem Inv_step (s : State) (op : Op) (s1 : State) (h : HeapInv s ∧ StackInv s)
    (hs : step s op = some s1) : HeapInv s1 ∧ StackInv s1 := by
  refine ⟨HeapInv_step s op s1 h.1 hs, ?_⟩
  obtain ⟨hI, hS⟩ := h
  cases op with
  | mem_ctrl tid mode =>
    simp only [step, Option.some.injEq] at hs; subst hs
    exact StackInv_of_eq s _ (by simp) (by simp) hS
  | set_options bits =>
    simp only [step, Option.some.injEq] at hs; subst hs
    exact StackInv_of_eq s _ rfl rfl hS
  | add_info e file line info =>
    simp only [step, Option.some.injEq] at hs; subst hs
    exact StackInv_add_info e file line info s hI hS
  | remove_info e =>
    simp only [step, Option.some.injEq] at hs; subst hs
    exact StackInv_CRYPTO_remove_info e s hI hS
  | remove_all_info fuel e =>
    simp only [step, Option.map_eq_some'] at hs
    obtain ⟨r, hr, rfl⟩ := hs
    exact StackInv_remove_all_info fuel e s r hI hS hr
  | dbg_malloc e addr num file line before_p =>
    simp only [step, Option.some.injEq] at hs; subst hs
    exact StackInv_dbg_malloc e addr num file line before_p s hS
  | dbg_free e addr before_p =>
    simp only [step, Option.some.injEq] at hs; subst hs
    exact StackInv_dbg_free e addr before_p s hS
  | dbg_realloc e addr1 addr2 num file line before_p =>
    simp only [step] at hs
    exact StackInv_dbg_realloc e addr1 addr2 num file line before_p s s1 hS hs

theorem Reachable_StackInv (s : State) (h : Reachable s) : StackInv s := by
  obtain ⟨ops, hops⟩ := h
  exact (run_invariant (fun x => HeapInv x ∧ StackInv x) Inv_step ops init s
    ⟨HeapInv_init, StackInv_init⟩ hops).2

/-! ## Chains of `next` links -/

theorem next_chain_none (heap : List APP_INFO) (fuel : Nat) :
    next_chain heap fuel none = [] := by
  cases fuel <;> rfl

theorem next_chain_congr (heap heap1 : List APP_INFO) (fuel : Nat) :
    ∀ (start : Option Nat),
      (∀ p ∈ next_chain heap fuel start, (deref heap1 p).next = (deref heap p).next) →
      next_chain heap1 fuel start = next_chain heap fuel start := by
  induction fuel with
  | zero => intro start _; rfl
  | succ n ih =>
    intro start h
    cases start with
    | none => rfl
    | some p =>
      simp only [next_chain] at h ⊢
      rw [h p (List.mem_cons_self _ _)]
      congr 1
      exact ih _ (fun q hq => h q (List.mem_cons_of_mem _ hq))

theorem next_chain_fuel (heap : List APP_INFO)
    (hB : ∀ p, live heap p → ∀ q, (deref heap p).next = some q → q < p ∧ live heap q)
    (fuel : Nat) :
    ∀ (fuel1 : Nat) (start : Option Nat),
      (∀ q, start = some q → live heap q ∧ q < fuel ∧ q < fuel1) →
      next_chain heap fuel start = next_chain heap fuel1 start := by
  induction fuel with
  | zero =>
    intro fuel1 start h
    cases start with
    | none => rw [next_chain_none, next_chain_none]
    | some q => exact absurd (h q rfl).2.1 (by omega)
  | succ n ih =>
    intro fuel1 start h
    cases start with
    | none => rw [next_chain_none, next_chain_none]
    | some q =>
      obtain ⟨hl, h1, h2⟩ := h q rfl
      cases fuel1 with
      | zero => exact absurd h2 (by omega)
      | succ m =>
        simp only [next_chain]
        congr 1
        apply ih
        intro r hr
        have := hB q hl r hr
        exact ⟨this.2, by omega, by omega⟩

theorem next_chain_lt (heap : List APP_INFO)
    (hB : ∀ p, live heap p → ∀ q, (deref heap p).next = some q → q < p ∧ live heap q)
    (fuel : Nat) :
    ∀ (start : Option Nat) (b : Nat), (∀ q, start = some q → live heap q ∧ q < b) →
      ∀ p ∈ next_chain heap fuel start, live heap p ∧ p < b := by
  induction fuel with
  | zero => intro start b _ p hp; simp [next_chain] at hp
  | succ n ih =>
    intro start b h p hp
    cases start with
    | none => simp [next_chain] at hp
    | some q =>
      simp only [next_chain, List.mem_cons] at hp
      obtain ⟨hl, hq⟩ := h q rfl
      rcases hp with hp | hp
      · rw [hp]; exact ⟨hl, hq⟩
      · apply ih (deref heap q).next b _ p hp
        intro r hr
        have := hB q hl r hr
        exact ⟨this.2, by omega⟩

theorem next_chain_thread (heap : List APP_INFO)
    (hB : ∀ p, live heap p → ∀ q, (deref heap p).next = some q → q < p ∧ live heap q)
    (hL : ∀ p q, live heap p → (deref heap p).next = some q →
      (deref heap q).thread = (deref heap p).thread)
    (fuel : Nat) :
    ∀ (start : Option Nat) (t : Nat),
      (∀ q, start = some q → live heap q ∧ (deref heap q).thread = t) →
      ∀ p ∈ next_chain heap fuel start, (deref heap p).thread = t := by
  induction fuel with
  | zero => intro start t _ p hp; simp [next_chain] at hp
  | succ n ih =>
    intro start t h p hp
    cases start with
    | none => simp [next_chain] at hp
    | some q =>
      simp only [next_chain, List.mem_cons] at hp
      obtain ⟨hl, hq⟩ := h q rfl
      rcases hp with hp | hp
      · rw [hp]; exact hq
      · apply ih (deref heap q).next t _ p hp
        intro r hr
        exact ⟨(hB q hl r hr).2, (hL q r hl hr).trans hq⟩

/-! ## The annotation stack of a thread -/

theorem stack_of_head_none (s : State) (tid : Nat) (h : head_of s tid = none) :
    stack s tid = [] := by
  unfold stack
  rw [h, next_chain_none]

theorem stack_of_head_some (s : State) (tid h : Nat) (hI : HeapInv s)
    (hh : head_of s tid = some h) :
    stack s tid = h :: next_chain s.heap (s.heap.length - 1) (deref s.heap h).next := by
  have hlt := (hI.2.2.1 h (head_of_thread s tid h hh).1).1
  unfold stack
  rw [hh]
  obtain ⟨m, hm⟩ : ∃ m, s.heap.length = m + 1 := ⟨s.heap.length - 1, by omega⟩
  rw [hm]
  rfl

theorem head_of_none_of_stack (s : State) (tid : Nat) (hI : HeapInv s)
    (h : stack s tid = []) : head_of s tid = none := by
  cases hh : head_of s tid with
  | none => rfl
  | some p =>
    rw [stack_of_head_some s tid p hI hh] at h
    simp at h

/-- One call of `remove_info` takes the head off the caller's annotation stack. -/
theorem stack_pop (e : Env) (s : State) (ret : Nat) (hI : HeapInv s) (hS : StackInv s)
    (hh : head_of s e.tid = some ret) :
    stack s e.tid = ret :: stack (remove_info e s).2 e.tid := by
  obtain ⟨_, hlen, _, hN, _, _, _, hhead, _, _⟩ := remove_info_pop e s ret hI hS hh
  have hretlive := hI.2.2.1 ret (head_of_thread s e.tid ret hh).1
  rw [stack_of_head_some s e.tid ret hI hh]
  congr 1
  unfold stack
  rw [hlen, hhead]
  have hstart : ∀ q, (deref s.heap ret).next = some q → live s.heap q ∧ q < ret := by
    intro q hq
    have := hI.2.1 ret hretlive q hq
    exact ⟨this.2, this.1⟩
  rw [next_chain_congr s.heap (remove_info e s).2.heap s.heap.length]
  · apply next_chain_fuel s.heap hI.2.1
    intro q hq
    have := hstart q hq
    have := hretlive.1
    exact ⟨(hstart q hq).1, by omega, by omega⟩
  · intro p hp
    have := next_chain_lt s.heap hI.2.1 s.heap.length _ ret hstart p hp
    exact hN p (by omega)

/-- A state change that keeps the heads and the records of thread `u` keeps its stack. -/
theorem stack_eq_of_records (s s1 : State) (u : Nat) (hI : HeapInv s) (hS : StackInv s)
    (hlen : s1.heap.length = s.heap.length) (hhead : head_of s1 u = head_of s u)
    (hrec : ∀ j, (deref s.heap j).thread = u → deref s1.heap j = deref s.heap j) :
    stack s1 u = stack s u := by
  unfold stack
  rw [hlen, hhead]
  apply next_chain_congr
  intro p hp
  have := next_chain_thread s.heap hI.2.1 hS.2 s.heap.length (head_of s u) u
    (fun q hq => ⟨hI.2.2.1 q (head_of_thread s u q hq).1, (head_of_thread s u q hq).2⟩) p hp
  rw [hrec p this]

theorem stack_thread (s : State) (u : Nat) (hI : HeapInv s) (hS : StackInv s) :
    ∀ p ∈ stack s u, (deref s.heap p).thread = u :=
  next_chain_thread s.heap hI.2.1 hS.2 s.heap.length (head_of s u) u
    (fun q hq => ⟨hI.2.2.1 q (head_of_thread s u q hq).1, (head_of_thread s u q hq).2⟩)

/-- The loop of `CRYPTO_remove_all_info` on a stack of `k` records: with more than `k`
calls allowed it ends after `k` pops with the caller's head gone, and the heads and
records of the other threads as before. -/
theorem remove_all_loop_pops (e : Env) :
    ∀ (k fuel : Nat) (ret : Int) (s : State), HeapInv s → StackInv s →
      (stack s e.tid).length = k → k < fuel →
      ∃ s1, remove_all_loop e fuel ret s = some (ret + (k : Int), s1) ∧
        head_of s1 e.tid = none ∧ s1.heap.length = s.heap.length ∧
        (∀ j, (deref s1.heap j).thread = (deref s.heap j).thread) ∧
        (∀ j, (deref s.heap j).thread ≠ e.tid → deref s1.heap j = deref s.heap j) ∧
        (∀ u, u ≠ e.tid → head_of s1 u = head_of s u) := by
  intro k
  induction k with
  | zero =>
    intro fuel ret s hI _ hk hf
    have hh := head_of_none_of_stack s e.tid hI (List.length_eq_zero.1 hk)
    obtain ⟨f, rfl⟩ : ∃ f, fuel = f + 1 := ⟨fuel - 1, by omega⟩
    refine ⟨s, ?_, hh, rfl, fun _ => rfl, fun _ _ => rfl, fun _ _ => rfl⟩
    rw [remove_all_loop, remove_info_none e s hh]
    simp
  | succ k ih =>
    intro fuel ret s hI hS hk hf
    obtain ⟨f, rfl⟩ : ∃ f, fuel = f + 1 := ⟨fuel - 1, by omega⟩
    cases hh : head_of s e.tid with
    | none =>
      rw [stack_of_head_none s e.tid hh] at hk
      simp at hk
    | some h =>
      obtain ⟨p1, plen, pT, _, _, _, prec, _, pother, _⟩ := remove_info_pop e s h hI hS hh
      have hpop := stack_pop e s h hI hS hh
      have hk1 : (stack (remove_info e s).2 e.tid).length = k := by
        rw [hpop] at hk
        simpa using hk
      obtain ⟨s1, q1, q2, q3, q4, q5, q6⟩ := ih f (ret + 1) (remove_info e s).2
        (HeapInv_remove_info e s hI) (StackInv_remove_info e s hI hS) hk1 (by omega)
      have hpair : remove_info e s = (some h, (remove_info e s).2) := Prod.ext p1 rfl
      refine ⟨s1, ?_, q2, q3.trans plen, fun j => (q4 j).trans (pT j), ?_, ?_⟩
      · rw [remove_all_loop, hpair]
        dsimp only
        rw [q1]
        congr 2
        push_cast
        ring
      · intro j hj
        rw [q5 j (by rw [pT j]; exact hj), prec j hj]
      · intro u hu
        rw [q6 u hu, pother u hu]

theorem heads_MemCheck_on (tid : Nat) (s : State) : heads (MemCheck_on tid s) = heads s := by
  unfold heads
  rw [MemCheck_on_amih]

theorem head_of_MemCheck_on (tid u : Nat) (s : State) :
    head_of (MemCheck_on tid s) u = head_of s u := by
  unfold head_of
  rw [heads_MemCheck_on, MemCheck_on_heap]

theorem stack_MemCheck_off (tid u : Nat) (s : State) :
    stack (MemCheck_off tid s) u = stack s u := by
  unfold stack
  rw [head_of_MemCheck_off, MemCheck_off_heap]

/-- C12: in a reachable state in which tracking is active for the calling thread, whose
annotation stack holds `k` records, `CRYPTO_remove_all_info` ends as soon as more than
`k` calls of `remove_info` are allowed and returns `k`; afterwards no entry of the
annotation table belongs to the calling thread, its stack is empty, and every other
thread has the stack it had, made of the same unchanged records. -/
theorem C12_pop_all_empties_own_stack (e : Env) (s : State) (fuel : Nat)
    (hr : Reachable s) (hact : CRYPTO_mem_check_on e.tid s = true)
    (hfuel : (stack s e.tid).length < fuel) :
    ∃ s1, CRYPTO_remove_all_info fuel e s = some (((stack s e.tid).length : Int), s1) ∧
      (∀ p ∈ heads s1, (deref s1.heap p).thread ≠ e.tid) ∧
      stack s1 e.tid = [] ∧
      ∀ u, u ≠ e.tid →
        stack s1 u = stack s u ∧ ∀ p ∈ stack s u, deref s1.heap p = deref s.heap p := by
  have hI := Reachable_HeapInv s hr
  have hS := Reachable_StackInv s hr
  obtain ⟨s1, q1, q2, q3, q4, q5, q6⟩ := remove_all_loop_pops e (stack s e.tid).length fuel 0
    (MemCheck_off e.tid s) (HeapInv_MemCheck_off _ _ hI) (StackInv_MemCheck_off _ _ hS)
    (by rw [stack_MemCheck_off]) hfuel
  rw [MemCheck_off_heap] at q3
  simp only [MemCheck_off_heap] at q4 q5
  simp only [head_of_MemCheck_off] at q6
  have hhead : head_of (MemCheck_on e.tid s1) e.tid = none := by
    rw [head_of_MemCheck_on]; exact q2
  refine ⟨MemCheck_on e.tid s1, ?_, ?_, stack_of_head_none _ _ hhead, ?_⟩
  · unfold CRYPTO_remove_all_info
    rw [if_pos hact]
    dsimp only
    rw [q1]
    simp
  · intro p hp hthr
    unfold head_of lh_retrieve at hhead
    rw [List.find?_eq_none] at hhead
    exact hhead p hp ((same_thread_iff _ _ _).2 hthr)
  · intro u hu
    have hrec : ∀ j, (deref s.heap j).thread = u →
        deref (MemCheck_on e.tid s1).heap j = deref s.heap j := by
      intro j hj
      rw [MemCheck_on_heap]
      exact q5 j (by rw [hj]; exact hu)
    refine ⟨stack_eq_of_records s _ u hI hS (by rw [MemCheck_on_heap]; exact q3)
      (by rw [head_of_MemCheck_on]; exact q6 u hu) hrec, ?_⟩
    intro p hp
    exact hrec p (stack_thread s u hI hS p hp)

/-- C12 where thread 1 has the stack of records 1 and 0 and thread 2 the stack of
record 2: `CRYPTO_remove_all_info` by thread 1 with three calls allowed returns 2 and
leaves the stack of thread 2 as it was. -/
theorem C12_pop_all_empties_own_stack_witness :
    (stack example_two_threads 1 = [1, 0] ∧ stack example_two_threads 2 = [2]) ∧
    ∃ s1, CRYPTO_remove_all_info 3 example_env example_two_threads =
        some (((stack example_two_threads example_env.tid).length : Int), s1) ∧
      (∀ p ∈ heads s1, (deref s1.heap p).thread ≠ example_env.tid) ∧
      stack s1 example_env.tid = [] ∧
      ∀ u, u ≠ example_env.tid →
        stack s1 u = stack example_two_threads u ∧
          ∀ p ∈ stack example_two_threads u,
            deref s1.heap p = deref example_two_threads.heap p :=
  ⟨by decide,
    C12_pop_all_empties_own_stack example_env example_two_threads 3
      ⟨[Op.mem_ctrl 1 1, Op.add_info example_env "a.c" 1 "A",
        Op.add_info example_env "b.c" 2 "B", Op.add_info example_env2 "c.c" 3 "C"],
        by decide⟩
      (by decide) (by decide)⟩

/-! ## The mode after a hook or stack operation -/

/-- The call `MemCheck_on()` after `MemCheck_off()` and bookkeeping that leaves the mode
alone gives back the mode the operation started with. -/
theorem MemCheck_on_restores (tid : Nat) (s x : State) (hm : ModeOK s)
    (ha : CRYPTO_mem_check_on tid s = true)
    (h1 : x.mh_mode = (MemCheck_off tid s).mh_mode)
    (h2 : x.disabling_thread = (MemCheck_off tid s).disabling_thread) :
    (MemCheck_on tid x).mh_mode = s.mh_mode ∧
      (MemCheck_on tid x).disabling_thread = s.disabling_thread := by
  have hw := wrap_active tid s
    (fun y => { x with mh_mode := y.mh_mode, disabling_thread := y.disabling_thread })
    (fun _ => ⟨rfl, rfl⟩) hm ha
  have hx : ({ x with mh_mode := (MemCheck_off tid s).mh_mode,
                      disabling_thread := (MemCheck_off tid s).disabling_thread } : State)
      = x := by
    rw [← h1, ← h2]
  dsimp only at hw
  rw [hx] at hw
  rw [hw]
  exact ⟨rfl, rfl⟩

theorem add_info_mode (e : Env) (file : String) (line : Int) (info : String) (s : State)
    (hm : ModeOK s) :
    (CRYPTO_add_info e file line info s).2.mh_mode = s.mh_mode ∧
      (CRYPTO_add_info e file line info s).2.disabling_thread = s.disabling_thread := by
  unfold CRYPTO_add_info
  split_ifs with ha hmal
  · exact MemCheck_on_restores e.tid s _ hm ha rfl rfl
  · dsimp only
    split
    · exact MemCheck_on_restores e.tid s _ hm ha rfl rfl
    · exact MemCheck_on_restores e.tid s _ hm ha
        (add_info_record_frame e file line info _ _).1
        (add_info_record_frame e file line info _ _).2.1
  · exact ⟨rfl, rfl⟩

theorem remove_info_mode (e : Env) (s : State) (hm : ModeOK s) :
    (CRYPTO_remove_info e s).2.mh_mode = s.mh_mode ∧
      (CRYPTO_remove_info e s).2.disabling_thread = s.disabling_thread := by
  unfold CRYPTO_remove_info
  split_ifs with ha
  · exact MemCheck_on_restores e.tid s _ hm ha (remove_info_frame e _).1
      (remove_info_frame e _).2.1
  · exact ⟨rfl, rfl⟩

theorem remove_all_info_mode (fuel : Nat) (e : Env) (s : State) (r : Int × State)
    (hm : ModeOK s) (hr : CRYPTO_remove_all_info fuel e s = some r) :
    r.2.mh_mode = s.mh_mode ∧ r.2.disabling_thread = s.disabling_thread := by
  unfold CRYPTO_remove_all_info at hr
  split_ifs at hr with ha
  · dsimp only at hr
    split at hr
    · simp at hr
    · rename_i ret s2 heq
      simp only [Option.some.injEq] at hr
      subst hr
      have hf := remove_all_loop_frame e fuel 0 _ _ heq
      exact MemCheck_on_restores e.tid s _ hm ha hf.1 hf.2.1
  · simp only [Option.some.injEq] at hr
    subst hr; exact ⟨rfl, rfl⟩

theorem dbg_malloc_mode (e : Env) (addr : Nat) (num : Int) (file : String) (line : Int)
    (before_p : Nat) (s : State) (hm : ModeOK s) :
    (CRYPTO_dbg_malloc e addr num file line before_p s).mh_mode = s.mh_mode ∧
      (CRYPTO_dbg_malloc e addr num file line before_p s).disabling_thread =
        s.disabling_thread := by
  unfold CRYPTO_dbg_malloc
  split_ifs with hb h0 ha hmal
  · exact ⟨rfl, rfl⟩
  · exact MemCheck_on_restores e.tid s _ hm ha rfl rfl
  · dsimp only
    split
    · exact MemCheck_on_restores e.tid s _ hm ha rfl rfl
    · exact MemCheck_on_restores e.tid s _ hm ha
        (dbg_malloc_record_frame e addr num file line _ _).1
        (dbg_malloc_record_frame e addr num file line _ _).2.1
  · exact ⟨rfl, rfl⟩
  · exact ⟨rfl, rfl⟩

theorem dbg_free_mode (e : Env) (addr : Nat) (before_p : Nat) (s : State) (hm : ModeOK s) :
    (CRYPTO_dbg_free e addr before_p s).mh_mode = s.mh_mode ∧
      (CRYPTO_dbg_free e addr before_p s).disabling_thread = s.disabling_thread := by
  unfold CRYPTO_dbg_free
  split_ifs with hb h0 ha
  · exact ⟨rfl, rfl⟩
  · split
    · exact ⟨rfl, rfl⟩
    · exact MemCheck_on_restores e.tid s _ hm ha (dbg_free_record_frame addr _ _).1
        (dbg_free_record_frame addr _ _).2.1
  · exact ⟨rfl, rfl⟩
  · exact ⟨rfl, rfl⟩

theorem dbg_realloc_mode (e : Env) (addr1 addr2 : Nat) (num : Int) (file : String)
    (line : Int) (before_p : Nat) (s s1 : State) (hm : ModeOK s)
    (hr : CRYPTO_dbg_realloc e addr1 addr2 num file line before_p s = some s1) :
    s1.mh_mode = s.mh_mode ∧ s1.disabling_thread = s.disabling_thread := by
  unfold CRYPTO_dbg_realloc at hr
  split_ifs at hr with hb h2 h1 ha
  · simp only [Option.some.injEq] at hr; subst hr; exact ⟨rfl, rfl⟩
  · simp only [Option.some.injEq] at hr; subst hr
    exact dbg_malloc_mode e addr2 num file line _ s hm
  · dsimp only at hr
    split at hr
    · simp at hr
    · rename_i tbl heq
      simp only [Option.some.injEq] at hr; subst hr
      exact MemCheck_on_restores e.tid s _ hm ha
        (dbg_realloc_record_frame addr1 addr2 num tbl _).1
        (dbg_realloc_record_frame addr1 addr2 num tbl _).2.1
  · simp only [Option.some.injEq] at hr; subst hr; exact ⟨rfl, rfl⟩
  · simp only [Option.some.injEq] at hr; subst hr; exact ⟨rfl, rfl⟩

/-- In a reachable state, every hook and every stack operation that returns leaves the
mode word and the suspending thread as they were before the call. -/
theorem step_restores_mode (s : State) (op : Op) (s1 : State) (hr : Reachable s)
    (hop : ∀ tid mode, op ≠ Op.mem_ctrl tid mode) (hs : step s op = some s1) :
    s1.mh_mode = s.mh_mode ∧ s1.disabling_thread = s.disabling_thread := by
  have hm := Reachable_ModeOK s hr
  cases op with
  | mem_ctrl tid mode => exact absurd rfl (hop tid mode)
  | set_options bits =>
    simp only [step, Option.some.injEq] at hs; subst hs
    exact ⟨rfl, rfl⟩
  | add_info e file line info =>
    simp only [step, Option.some.injEq] at hs; subst hs
    exact add_info_mode e file line info s hm
  | remove_info e =>
    simp only [step, Option.some.injEq] at hs; subst hs
    exact remove_info_mode e s hm
  | remove_all_info fuel e =>
    simp only [step, Option.map_eq_some'] at hs
    obtain ⟨r, hr2, rfl⟩ := hs
    exact remove_all_info_mode fuel e s r hm hr2
  | dbg_malloc e addr num file line before_p =>
    simp only [step, Option.some.injEq] at hs; subst hs
    exact dbg_malloc_mode e addr num file line before_p s hm
  | dbg_free e addr before_p =>
    simp only [step, Option.some.injEq] at hs; subst hs
    exact dbg_free_mode e addr before_p s hm
  | dbg_realloc e addr1 addr2 num file line before_p =>
    simp only [step] at hs
    exact dbg_realloc_mode e addr1 addr2 num file line before_p s s1 hm hs

/-- The hook `on_realloc` returns whenever the allocation table exists. -/
theorem on_realloc_returns (e : Env) (addr1 addr2 : Nat) (num : Int) (file : String)
    (line : Int) (s : State) (tbl : List MEM) (h : s.mh = some tbl) :
    (on_realloc e addr1 addr2 num file line s).isSome = true := by
  unfold on_realloc CRYPTO_dbg_realloc
  split_ifs
  · rfl
  · rfl
  · dsimp only
    rw [MemCheck_off_mh, h]
    rfl
  · rfl
  · rfl

end MemDbg
